import Mathlib

/-!
# Package `random` (go-hep/random, `rand.go`)

Shallow embedding of the seven sampler constructors of `rand.go` and the
properties of its specification.

Modelling conventions.

* `float64` values are elements of a linear ordered field `α` (`ℚ` in every
  concrete evaluation). The rounding of `float64` arithmetic is a function
  `fl : α → α` carried by the environment `Rand`: a `float64` operation is the
  exact operation followed by `fl`, each operation rounded on its own (no fused
  multiply-add). `Flat`, `Exp` and the running product of `Poisson` round every
  operation. `fl64` is the `float64` rounding itself (to nearest, ties to even,
  53 bits, subnormals below `2^-1022`); every source defined below rounds
  with `fl64`. The theorems about all sources state what they need of `fl` as
  hypotheses (monotone, fixes `0`, ...), each proved of `fl64` below; the
  identity, exact arithmetic, satisfies them too. The value
  `z * stddev + mean` of `Gauss` and the sum of `Chi2` stand for their exact
  values. Overflow, infinities and NaN are outside the model.
* `int64` values are integers; every `int64` addition of the source is followed
  by `wrap64`, the two's-complement wrap-around.
* The external package `math/rand` is a parameter: `Rand σ α` gives the three
  primitives `Float64`, `NormFloat64`, `ExpFloat64` as state transformers on
  the state `σ` of a source, with the facts that `1` and every value of
  `Float64` are `float64` values.  `math.Exp` is a parameter `exp : α → α`.
* A `World` holds the state of the process-wide default source and the state
  of every caller-owned source (addressed by `ι`); `src : Option ι` is the
  `*rand.Source` argument, `none` being `nil`.
* A Go closure `func() float64` is a state transformer `World → α × World`.
  A closure holding a loop that may not exit takes a `fuel : Nat` (the number
  of evaluations of the loop condition it may perform) and answers `none`
  when the fuel runs out.
-/

namespace Random

/-- Two's-complement wrap-around of an integer into the `int64` range. -/
def wrap64 (z : Int) : Int := (z + 2 ^ 63) % 2 ^ 64 - 2 ^ 63

/-- The environment of the package: the rounding `fl` of `float64` arithmetic
and the primitives of `math/rand`, as transformers of a source state:
`Float64`, `NormFloat64` and `ExpFloat64`. -/
structure Rand (σ α : Type) [One α] where
  /-- Rounding of an exact result to `float64`. -/
  fl : α → α
  /-- Uniform primitive, `(*rand.Rand).Float64` and `rand.Float64`. -/
  Float64 : σ → α × σ
  /-- Standard-normal primitive, `NormFloat64`. -/
  NormFloat64 : σ → α × σ
  /-- Unit-rate exponential primitive, `ExpFloat64`. -/
  ExpFloat64 : σ → α × σ
  /-- The constant `1.0` is a `float64` value. -/
  fl_one : fl 1 = 1
  /-- The uniform primitive returns `float64` values. -/
  fl_Float64 : ∀ s, fl (Float64 s).1 = (Float64 s).1

/-- Constant `math.MaxFloat64`, the largest finite `float64` value:
`(2^53 - 1) * 2^971`. -/
def MaxFloat64 {α : Type} [LinearOrderedField α] : α := (2 ^ 53 - 1) * 2 ^ 971

/-- Program state: the process-wide default source of `math/rand` and the
caller-owned sources, addressed by `ι`. -/
structure World (ι σ : Type) where
  /-- State of the default source behind the top-level `rand.*` functions. -/
  global : σ
  /-- State of the source a non-nil `src` points to. -/
  heap : ι → σ

/-- Type `Dist` of the source: `func() float64`. -/
abbrev Dist (ι σ α : Type) := World ι σ → α × World ι σ

/-- Type `DiscrDist` of the source: `func() int64`, for a closure without a loop. -/
abbrev DiscrDist (ι σ : Type) := World ι σ → Int × World ι σ

/-- Type `DiscrDist` of the source for a closure that holds a loop: the first
argument is the fuel. -/
abbrev DiscrDistLoop (ι σ : Type) := Nat → World ι σ → Option (Int × World ι σ)

/-- Type `Dist` of the source for a closure that holds a loop. -/
abbrev DistLoop (ι σ α : Type) := Nat → World ι σ → Option (α × World ι σ)

section Defs

variable {ι σ α : Type} [DecidableEq ι] [LinearOrderedField α]

/-- A call `rand.F()` of a top-level function of `math/rand`: it runs the
primitive `f` on the default source. -/
def globalCall (f : σ → α × σ) : Dist ι σ α :=
  fun w => ((f w.global).1, World.mk (f w.global).2 w.heap)

/-- A call `r.F()` with `r := rand.New(*src)` for the source at address `a`:
it runs the primitive `f` on that source. -/
def sourceCall (a : ι) (f : σ → α × σ) : Dist ι σ α :=
  fun w => ((f (w.heap a)).1, World.mk w.global (Function.update w.heap a (f (w.heap a)).2))

/-- Function `Gauss` of `rand.go`. -/
def Gauss (r : Rand σ α) (mean stddev : α) (src : Option ι) : Dist ι σ α :=
  match src with
  | none => fun w =>
      let z := globalCall r.NormFloat64 w
      (z.1 * stddev + mean, z.2)
  | some a => fun w =>
      let z := sourceCall a r.NormFloat64 w
      (z.1 * stddev + mean, z.2)

/-- Function `Exp` of `rand.go`; the division is rounded. -/
def Exp (r : Rand σ α) (mean : α) (src : Option ι) : Dist ι σ α :=
  match src with
  | none => fun w =>
      let e := globalCall r.ExpFloat64 w
      (r.fl (e.1 / mean), e.2)
  | some a => fun w =>
      let e := sourceCall a r.ExpFloat64 w
      (r.fl (e.1 / mean), e.2)

/-- Function `Flat` of `rand.go`; the subtraction, the multiplication and the
addition are rounded. -/
def Flat (r : Rand σ α) (min max : α) (src : Option ι) : Dist ι σ α :=
  let delta := r.fl (max - min)
  match src with
  | none => fun w =>
      let u := globalCall r.Float64 w
      (r.fl (r.fl (u.1 * delta) + min), u.2)
  | some a => fun w =>
      let u := sourceCall a r.Float64 w
      (r.fl (r.fl (u.1 * delta) + min), u.2)

/-- Loop of the closure of `Chi2`: `for i := int64(0); i < ndf; i++`. -/
def chi2Loop (norm : Dist ι σ α) (ndf : Int) :
    Nat → Int → α → World ι σ → Option (α × World ι σ)
  | 0, _, _, _ => none
  | fuel + 1, i, x, w =>
      if i < ndf then
        let n := norm w
        chi2Loop norm ndf fuel (wrap64 (i + 1)) (x + n.1 * n.1) n.2
      else some (x, w)

/-- Function `Chi2` of `rand.go`. -/
def Chi2 (r : Rand σ α) (ndf : Int) (src : Option ι) : DistLoop ι σ α :=
  let norm : Dist ι σ α := Gauss r 0 1 src
  fun fuel w => chi2Loop norm ndf fuel 0 0 w

/-- Loop of the closure of `Poisson`: `for ; p > t; p *= flat() { i += 1 }`;
the multiplication is rounded by `fl`. -/
def poissonLoop (fl : α → α) (flat : Dist ι σ α) (t : α) :
    Nat → Int → α → World ι σ → Option (Int × World ι σ)
  | 0, _, _, _ => none
  | fuel + 1, i, p, w =>
      if p > t then
        let u := flat w
        poissonLoop fl flat t fuel (wrap64 (i + 1)) (fl (p * u.1)) u.2
      else some (i, w)

/-- Function `Poisson` of `rand.go`; `exp` is `math.Exp`. -/
def Poisson (exp : α → α) (r : Rand σ α) (mean : α) (src : Option ι) : DiscrDistLoop ι σ :=
  let flat : Dist ι σ α := Flat r 0 1 src
  fun fuel w => poissonLoop r.fl flat (exp (-mean)) fuel 0 1 w

/-- Function `Bernoulli` of `rand.go`. -/
def Bernoulli (r : Rand σ α) (p : α) (src : Option ι) : DiscrDist ι σ :=
  let uniform : Dist ι σ α := Flat r 0 1 src
  fun w =>
    let u := uniform w
    if u.1 < p then (1, u.2) else (0, u.2)

/-- Loop of the closure of `Binomial`: `for i := int64(0); i <= n; i++ { x += b() }`. -/
def binomialLoop (b : DiscrDist ι σ) (n : Int) :
    Nat → Int → Int → World ι σ → Option (Int × World ι σ)
  | 0, _, _, _ => none
  | fuel + 1, i, x, w =>
      if i ≤ n then
        let v := b w
        binomialLoop b n fuel (wrap64 (i + 1)) (wrap64 (x + v.1)) v.2
      else some (x, w)

/-- Function `Binomial` of `rand.go`. -/
def Binomial (r : Rand σ α) (n : Int) (p : α) (src : Option ι) : DiscrDistLoop ι σ :=
  let b : DiscrDist ι σ := Bernoulli r p src
  fun fuel w => binomialLoop b n fuel 0 0 w

/-! ### Vocabulary of the specification -/

/-- The uniform primitive of the source a sampler is bound to: the default
source for `nil`, the caller-owned source otherwise. -/
def uniform (r : Rand σ α) (src : Option ι) : Dist ι σ α :=
  match src with
  | none => globalCall r.Float64
  | some a => sourceCall a r.Float64

/-- The standard-normal primitive of the source a sampler is bound to. -/
def normal (r : Rand σ α) (src : Option ι) : Dist ι σ α :=
  match src with
  | none => globalCall r.NormFloat64
  | some a => sourceCall a r.NormFloat64

/-- The unit-rate exponential primitive of the source a sampler is bound to. -/
def exponential (r : Rand σ α) (src : Option ι) : Dist ι σ α :=
  match src with
  | none => globalCall r.ExpFloat64
  | some a => sourceCall a r.ExpFloat64

/-- The running product of `Poisson` over a list of uniforms, as the loop
computes it: `p := 1.0`, then `p *= u` with one rounding, for each `u` in
order. -/
def runProd (fl : α → α) (l : List α) : α :=
  l.foldl (fun p u => fl (p * u)) 1

/-- State of the source a sampler is bound to. -/
def boundState (src : Option ι) (w : World ι σ) : σ :=
  match src with
  | none => w.global
  | some a => w.heap a

/-- What a draw shows of its outcome to the owner of the bound source: the
value returned and the state the bound source is left in. -/
def observe {β : Type} (src : Option ι) (x : β × World ι σ) : β × σ :=
  (x.1, boundState src x.2)

end Defs

section Runs

variable {W β : Type}

/-- State after `k` successive draws of a sampler. -/
def after (f : W → β × W) : Nat → W → W
  | 0, w => w
  | k + 1, w => after f k (f w).2

/-- Values of the first `k` successive draws of a sampler, in order. -/
def draws (f : W → β × W) : Nat → W → List β
  | 0, _ => []
  | k + 1, w => (f w).1 :: draws f k (f w).2

/-- Value of the draw of index `k` (the first draw has index `0`). -/
def nthDraw (f : W → β × W) (k : Nat) (w : W) : β := (f (after f k w)).1

/-- The first `k` successive draws of a sampler that holds a loop, each draw
with fuel `fuel`: the values in order and the final state, or `none` when one
of the draws runs out of fuel. -/
def drawsLoop (f : Nat → W → Option (β × W)) (fuel : Nat) : Nat → W → Option (List β × W)
  | 0, w => some ([], w)
  | k + 1, w =>
      match f fuel w with
      | none => none
      | some x =>
          match drawsLoop f fuel k x.2 with
          | none => none
          | some xs => some (x.1 :: xs.1, xs.2)

end Runs

/-! ### The rounding of `float64` -/

/-- Round to the nearest integer, ties to the even one. -/
def roundHalfEven (x : ℚ) : ℤ :=
  if x - ⌊x⌋ < 1 / 2 then ⌊x⌋
  else if 1 / 2 < x - ⌊x⌋ then ⌊x⌋ + 1
  else if ⌊x⌋ % 2 = 0 then ⌊x⌋ else ⌊x⌋ + 1

/-- Rounding of a rational number to `float64`: to the nearest multiple of
`2^(e-52)`, ties to even, where `2^e ≤ |q| < 2^(e+1)` and `e` is at least
`-1022` (below, the subnormal spacing `2^-1074`). The exponent is not bounded
above: overflow is outside the model. -/
def fl64 (q : ℚ) : ℚ :=
  if q = 0 then 0
  else (roundHalfEven (q / 2 ^ (max (Int.log 2 |q|) (-1022) - 52)) : ℚ)
    * 2 ^ (max (Int.log 2 |q|) (-1022) - 52)

/-! ### Concrete sources used in evaluations -/

/-- A source of `float64` values under `float64` rounding: the uniform
primitive returns `1 - 2^-53`, the largest `float64` below `1`, on every draw;
the exponential primitive returns the `float64` value `8930429362510717 / 2^54`. -/
def edgeRand : Rand Nat ℚ where
  fl := fl64
  Float64 := fun s => (1 - 1 / 2 ^ 53, s + 1)
  NormFloat64 := fun s => (0, s + 1)
  ExpFloat64 := fun s => (8930429362510717 / 2 ^ 54, s + 1)
  fl_one := by
    have hlog : Int.log 2 |(1 : ℚ)| = 0 := by rw [abs_one]; exact Int.log_one_right 2
    have hfloor : ⌊(1 : ℚ) / 2 ^ ((0 : ℤ) - 52)⌋ = 2 ^ 52 :=
      Int.floor_eq_iff.mpr ⟨by norm_num, by norm_num⟩
    unfold fl64 roundHalfEven
    rw [if_neg one_ne_zero, hlog, max_eq_left (by norm_num), hfloor]
    norm_num
  fl_Float64 := fun _ => by
    have hpos : (0 : ℚ) < |1 - 1 / 2 ^ 53| := by rw [abs_of_pos] <;> norm_num
    have habs : |(1 : ℚ) - 1 / 2 ^ 53| = 1 - 1 / 2 ^ 53 := abs_of_pos (by norm_num)
    have hlog : Int.log 2 |(1 : ℚ) - 1 / 2 ^ 53| = -1 := by
      apply le_antisymm
      · have h := (Int.lt_zpow_iff_log_lt (b := 2) (by norm_num) hpos).mp
          (by rw [habs]; norm_num : |(1 : ℚ) - 1 / 2 ^ 53| < ((2 : ℕ) : ℚ) ^ (0 : ℤ))
        omega
      · exact (Int.zpow_le_iff_le_log (b := 2) (by norm_num) hpos).mp
          (by rw [habs]; norm_num)
    have hfloor : ⌊((1 : ℚ) - 1 / 2 ^ 53) / 2 ^ ((-1 : ℤ) - 52)⌋ = 2 ^ 53 - 1 :=
      Int.floor_eq_iff.mpr ⟨by norm_num, by norm_num⟩
    have hne : (1 : ℚ) - 1 / 2 ^ 53 ≠ 0 := by norm_num
    show fl64 (1 - 1 / 2 ^ 53) = 1 - 1 / 2 ^ 53
    unfold fl64 roundHalfEven
    rw [if_neg hne, hlog, max_eq_left (by norm_num), hfloor]
    norm_num

/-- A source under `float64` rounding that counts its draws; the uniform
primitive returns `3/4` on every draw. -/
def stuckRand : Rand Nat ℚ where
  fl := fl64
  Float64 := fun s => (3 / 4, s + 1)
  NormFloat64 := fun s => (0, s + 1)
  ExpFloat64 := fun s => (0, s + 1)
  fl_one := edgeRand.fl_one
  fl_Float64 := fun _ => by
    have hpos : (0 : ℚ) < |3 / 4| := by rw [abs_of_pos] <;> norm_num
    have habs : |(3 : ℚ) / 4| = 3 / 4 := abs_of_pos (by norm_num)
    have hlog : Int.log 2 |(3 : ℚ) / 4| = -1 := by
      apply le_antisymm
      · have h := (Int.lt_zpow_iff_log_lt (b := 2) (by norm_num) hpos).mp
          (by rw [habs]; norm_num : |(3 : ℚ) / 4| < ((2 : ℕ) : ℚ) ^ (0 : ℤ))
        omega
      · exact (Int.zpow_le_iff_le_log (b := 2) (by norm_num) hpos).mp
          (by rw [habs]; norm_num)
    have hfloor : ⌊((3 : ℚ) / 4) / 2 ^ ((-1 : ℤ) - 52)⌋ = 3 * 2 ^ 51 :=
      Int.floor_eq_iff.mpr ⟨by norm_num, by norm_num⟩
    have hne : (3 : ℚ) / 4 ≠ 0 := by norm_num
    show fl64 (3 / 4) = 3 / 4
    unfold fl64 roundHalfEven
    rw [if_neg hne, hlog, max_eq_left (by norm_num), hfloor]
    norm_num

/-- A source under `float64` rounding that counts its draws; the uniform
primitive returns `1/2` on every draw. -/
def halfRand : Rand Nat ℚ where
  fl := fl64
  Float64 := fun s => (1 / 2, s + 1)
  NormFloat64 := fun s => (0, s + 1)
  ExpFloat64 := fun s => (0, s + 1)
  fl_one := edgeRand.fl_one
  fl_Float64 := fun _ => by
    have hpos : (0 : ℚ) < |1 / 2| := by rw [abs_of_pos] <;> norm_num
    have habs : |(1 : ℚ) / 2| = 1 / 2 := abs_of_pos (by norm_num)
    have hlog : Int.log 2 |(1 : ℚ) / 2| = -1 := by
      apply le_antisymm
      · have h := (Int.lt_zpow_iff_log_lt (b := 2) (by norm_num) hpos).mp
          (by rw [habs]; norm_num : |(1 : ℚ) / 2| < ((2 : ℕ) : ℚ) ^ (0 : ℤ))
        omega
      · exact (Int.zpow_le_iff_le_log (b := 2) (by norm_num) hpos).mp
          (by rw [habs]; norm_num)
    have hfloor : ⌊((1 : ℚ) / 2) / 2 ^ ((-1 : ℤ) - 52)⌋ = 2 ^ 52 :=
      Int.floor_eq_iff.mpr ⟨by norm_num, by norm_num⟩
    have hne : (1 : ℚ) / 2 ≠ 0 := by norm_num
    show fl64 (1 / 2) = 1 / 2
    unfold fl64 roundHalfEven
    rw [if_neg hne, hlog, max_eq_left (by norm_num), hfloor]
    norm_num

/-- A source under `float64` rounding that counts its draws; every primitive
returns `0`. -/
def zeroRand : Rand Nat ℚ where
  fl := fl64
  Float64 := fun s => (0, s + 1)
  NormFloat64 := fun s => (0, s + 1)
  ExpFloat64 := fun s => (0, s + 1)
  fl_one := edgeRand.fl_one
  fl_Float64 := fun _ => if_pos rfl

/-- A source under `float64` rounding that counts its draws; the uniform
primitive alternates between `1/4` and `3/4`, the other two return the count. -/
def altRand : Rand Nat ℚ where
  fl := fl64
  Float64 := fun s => (if s % 2 = 0 then 1 / 4 else 3 / 4, s + 1)
  NormFloat64 := fun s => ((s : ℚ) - 1, s + 1)
  ExpFloat64 := fun s => ((s : ℚ), s + 1)
  fl_one := edgeRand.fl_one
  fl_Float64 := fun s => by
    have hpos : (0 : ℚ) < |1 / 4| := by rw [abs_of_pos] <;> norm_num
    have habs : |(1 : ℚ) / 4| = 1 / 4 := abs_of_pos (by norm_num)
    have hlog : Int.log 2 |(1 : ℚ) / 4| = -2 := by
      apply le_antisymm
      · have h := (Int.lt_zpow_iff_log_lt (b := 2) (by norm_num) hpos).mp
          (by rw [habs]; norm_num : |(1 : ℚ) / 4| < ((2 : ℕ) : ℚ) ^ (-1 : ℤ))
        omega
      · exact (Int.zpow_le_iff_le_log (b := 2) (by norm_num) hpos).mp
          (by rw [habs]; norm_num)
    have hfloor : ⌊((1 : ℚ) / 4) / 2 ^ ((-2 : ℤ) - 52)⌋ = 2 ^ 52 :=
      Int.floor_eq_iff.mpr ⟨by norm_num, by norm_num⟩
    have hne : (1 : ℚ) / 4 ≠ 0 := by norm_num
    have hquarter : fl64 (1 / 4) = 1 / 4 := by
      unfold fl64 roundHalfEven
      rw [if_neg hne, hlog, max_eq_left (by norm_num), hfloor]
      norm_num
    show fl64 (if s % 2 = 0 then 1 / 4 else 3 / 4) = if s % 2 = 0 then 1 / 4 else 3 / 4
    split_ifs
    · exact hquarter
    · exact stuckRand.fl_Float64 0

/-- A source under `float64` rounding that counts its draws; the uniform
primitive returns `3/4` on its first `2^63` draws and `0` afterwards. -/
def stallRand : Rand Nat ℚ where
  fl := fl64
  Float64 := fun s => (if s < 2 ^ 63 then 3 / 4 else 0, s + 1)
  NormFloat64 := fun s => (0, s + 1)
  ExpFloat64 := fun s => (0, s + 1)
  fl_one := edgeRand.fl_one
  fl_Float64 := fun s => by
    show fl64 (if s < 2 ^ 63 then 3 / 4 else 0) = if s < 2 ^ 63 then 3 / 4 else 0
    split_ifs
    · exact stuckRand.fl_Float64 0
    · exact if_pos rfl

/-- A rational stand-in for `math.Exp`: it is `1` at `0`, positive and below `1`
on negative arguments down to `-745`, and `0` below, where `math.Exp`
underflows to `0` in `float64`. -/
def expStandIn (x : ℚ) : ℚ :=
  if x < -745 then 0
  else if x < 0 then 1 / (1 - x + x ^ 2 / 2)
  else 1 + x + x ^ 2 / 2

/-- A world with one caller-owned source; both sources have made no draw. -/
def world0 : World Unit Nat := World.mk 0 (fun _ => 0)

/-! ### Arithmetic of `int64` -/

theorem wrap64_of_range (z : Int) (h1 : -2 ^ 63 ≤ z) (h2 : z < 2 ^ 63) : wrap64 z = z := by
  unfold wrap64; omega

theorem wrap64_lt (z : Int) : wrap64 z < 2 ^ 63 := by
  unfold wrap64; omega

theorem wrap64_ge (z : Int) : -2 ^ 63 ≤ wrap64 z := by
  unfold wrap64; omega

theorem wrap64_wrap64_add (a b : Int) : wrap64 (wrap64 a + b) = wrap64 (a + b) := by
  unfold wrap64; omega

/-! ### Properties of the `float64` rounding -/

theorem roundHalfEven_eval (x : ℚ) (f : ℤ) (h1 : (f : ℚ) ≤ x) (h2 : x < f + 1) :
    roundHalfEven x =
      if x - f < 1 / 2 then f else if 1 / 2 < x - f then f + 1
      else if f % 2 = 0 then f else f + 1 := by
  have hf : ⌊x⌋ = f := Int.floor_eq_iff.mpr ⟨h1, h2⟩
  unfold roundHalfEven
  rw [hf]

theorem roundHalfEven_floor_le (x : ℚ) : ⌊x⌋ ≤ roundHalfEven x := by
  unfold roundHalfEven; split_ifs <;> omega

theorem roundHalfEven_le_floor_succ (x : ℚ) : roundHalfEven x ≤ ⌊x⌋ + 1 := by
  unfold roundHalfEven; split_ifs <;> omega

theorem roundHalfEven_intCast (n : ℤ) : roundHalfEven (n : ℚ) = n := by
  unfold roundHalfEven; simp

theorem roundHalfEven_mono (x y : ℚ) (h : x ≤ y) : roundHalfEven x ≤ roundHalfEven y := by
  have hf : ⌊x⌋ ≤ ⌊y⌋ := Int.floor_mono h
  rcases lt_or_eq_of_le hf with hlt | heq
  · have h1 := roundHalfEven_le_floor_succ x
    have h2 := roundHalfEven_floor_le y
    omega
  · unfold roundHalfEven
    rw [heq]
    split_ifs <;> first | omega | (exfalso; linarith)

theorem roundHalfEven_neg (x : ℚ) : roundHalfEven (-x) = -roundHalfEven x := by
  have h1 : ((⌊x⌋ : ℤ) : ℚ) ≤ x := Int.floor_le x
  have h2 : x < ⌊x⌋ + 1 := Int.lt_floor_add_one x
  rcases eq_or_lt_of_le h1 with heq | hlt
  · rw [← heq, ← Int.cast_neg, roundHalfEven_intCast, roundHalfEven_intCast]
  · rw [roundHalfEven_eval x ⌊x⌋ h1 h2,
      roundHalfEven_eval (-x) (-⌊x⌋ - 1) (by push_cast; linarith) (by push_cast; linarith)]
    push_cast
    split_ifs <;> first | omega | (exfalso; linarith)


theorem fl64_zero : fl64 0 = 0 := if_pos rfl

theorem fl64_neg (q : ℚ) : fl64 (-q) = -fl64 q := by
  by_cases hq : q = 0
  · rw [hq, neg_zero, fl64_zero, neg_zero]
  · unfold fl64
    rw [if_neg hq, if_neg (neg_ne_zero.mpr hq), abs_neg, neg_div, roundHalfEven_neg]
    push_cast
    ring

/-- The rounding of a positive number with spacing exponent `k`. -/
theorem fl64_of_pos (q : ℚ) (k : ℤ) (hq : 0 < q)
    (hk : max (Int.log 2 q) (-1022) - 52 = k) :
    fl64 q = (roundHalfEven (q / 2 ^ k) : ℚ) * 2 ^ k := by
  unfold fl64
  rw [if_neg (ne_of_gt hq), abs_of_pos hq, hk]

theorem lt_zpow_spacing (q : ℚ) :
    q < 2 ^ (max (Int.log 2 q) (-1022) - 52 + 53) := by
  have h1 : q < ((2 : ℕ) : ℚ) ^ (Int.log 2 q + 1) := Int.lt_zpow_succ_log_self (by norm_num) q
  have h2 : ((2 : ℕ) : ℚ) ^ (Int.log 2 q + 1)
      ≤ ((2 : ℕ) : ℚ) ^ (max (Int.log 2 q) (-1022) - 52 + 53) :=
    zpow_le_zpow_right₀ (by norm_num) (by have := le_max_left (Int.log 2 q) (-1022); omega)
  exact_mod_cast lt_of_lt_of_le h1 h2

theorem zpow_spacing_le (q : ℚ) (hq : 0 < q) (hn : -1022 ≤ Int.log 2 q) :
    2 ^ (max (Int.log 2 q) (-1022) - 52 + 52) ≤ q := by
  have h1 : ((2 : ℕ) : ℚ) ^ Int.log 2 q ≤ q := Int.zpow_log_le_self (by norm_num) hq
  rw [max_eq_left hn]
  have h2 : Int.log 2 q - 52 + 52 = Int.log 2 q := by ring
  rw [h2]
  exact_mod_cast h1

theorem fl64_nonneg (q : ℚ) (hq : 0 ≤ q) : 0 ≤ fl64 q := by
  rcases eq_or_lt_of_le hq with h0 | hpos
  · rw [← h0, fl64_zero]
  · rw [fl64_of_pos q _ hpos rfl]
    have h1 : (0 : ℤ) ≤ ⌊q / 2 ^ (max (Int.log 2 q) (-1022) - 52)⌋ :=
      Int.floor_nonneg.mpr (by positivity)
    have h2 := roundHalfEven_floor_le (q / 2 ^ (max (Int.log 2 q) (-1022) - 52))
    have h3 : (0 : ℚ) ≤ (roundHalfEven (q / 2 ^ (max (Int.log 2 q) (-1022) - 52)) : ℚ) := by
      exact_mod_cast le_trans h1 h2
    positivity

/-- The integer a positive number is rounded to, in units of its spacing, is
at most `2^53`. -/
theorem mantissa_le (q : ℚ) (k : ℤ) (hk : max (Int.log 2 q) (-1022) - 52 = k) :
    roundHalfEven (q / 2 ^ k) ≤ 2 ^ 53 := by
  have hlt : q < 2 ^ (k + 53) := by rw [← hk]; exact lt_zpow_spacing q
  have hk0 : (0 : ℚ) < 2 ^ k := by positivity
  have h53 : (2 : ℚ) ^ (53 : ℤ) = 2 ^ 53 := by norm_num
  have hdiv : q / 2 ^ k ≤ ((2 ^ 53 : ℤ) : ℚ) := by
    rw [div_le_iff₀ hk0]
    push_cast
    rw [zpow_add₀ (by norm_num : (2 : ℚ) ≠ 0), h53] at hlt
    linarith
  have := roundHalfEven_mono _ _ hdiv
  rwa [roundHalfEven_intCast] at this

/-- For a normal positive number it is at least `2^52`. -/
theorem mantissa_ge (q : ℚ) (k : ℤ) (hq : 0 < q)
    (hk : max (Int.log 2 q) (-1022) - 52 = k) (hn : -1022 ≤ Int.log 2 q) :
    2 ^ 52 ≤ roundHalfEven (q / 2 ^ k) := by
  have hle : 2 ^ (k + 52) ≤ q := by rw [← hk]; exact zpow_spacing_le q hq hn
  have hk0 : (0 : ℚ) < 2 ^ k := by positivity
  have h52 : (2 : ℚ) ^ (52 : ℤ) = 2 ^ 52 := by norm_num
  have hdiv : ((2 ^ 52 : ℤ) : ℚ) ≤ q / 2 ^ k := by
    rw [le_div_iff₀ hk0]
    push_cast
    rw [zpow_add₀ (by norm_num : (2 : ℚ) ≠ 0), h52] at hle
    linarith
  have := roundHalfEven_mono _ _ hdiv
  rwa [roundHalfEven_intCast] at this

/-- For a positive number below `2^-1022` it is at most `2^52`. -/
theorem mantissa_le_sub (q : ℚ) (hq : 0 < q) (hs : Int.log 2 q < -1022) :
    roundHalfEven (q / 2 ^ (-1074 : ℤ)) ≤ 2 ^ 52 := by
  have hk0 : (0 : ℚ) < 2 ^ (-1074 : ℤ) := by positivity
  have hq2 : q < ((2 : ℕ) : ℚ) ^ (-1022 : ℤ) :=
    (Int.lt_zpow_iff_log_lt (b := 2) (by norm_num) hq).mpr hs
  have hsplit : (2 : ℚ) ^ (-1022 : ℤ) = 2 ^ 52 * 2 ^ (-1074 : ℤ) := by
    rw [show (-1022 : ℤ) = 52 + -1074 by norm_num, zpow_add₀ (by norm_num : (2 : ℚ) ≠ 0)]
    norm_num
  have hdiv : q / 2 ^ (-1074 : ℤ) ≤ ((2 ^ 52 : ℤ) : ℚ) := by
    rw [div_le_iff₀ hk0]
    push_cast at hq2 ⊢
    rw [hsplit] at hq2
    exact hq2.le
  have := roundHalfEven_mono _ _ hdiv
  rwa [roundHalfEven_intCast] at this

/-- A positive number rounds to at most the top of its binade. -/
theorem fl64_le_top (q : ℚ) (k : ℤ) (hq : 0 < q)
    (hk : max (Int.log 2 q) (-1022) - 52 = k) : fl64 q ≤ 2 ^ (k + 53) := by
  rw [fl64_of_pos q k hq hk]
  have hk0 : (0 : ℚ) < 2 ^ k := by positivity
  have hRq : (roundHalfEven (q / 2 ^ k) : ℚ) ≤ 2 ^ 53 := by exact_mod_cast mantissa_le q k hk
  have h53 : (2 : ℚ) ^ (53 : ℤ) = 2 ^ 53 := by norm_num
  rw [zpow_add₀ (by norm_num : (2 : ℚ) ≠ 0), h53]
  nlinarith

/-- A normal positive number rounds to at least the bottom of its binade. -/
theorem fl64_ge_bottom (q : ℚ) (k : ℤ) (hq : 0 < q)
    (hk : max (Int.log 2 q) (-1022) - 52 = k) (hn : -1022 ≤ Int.log 2 q) :
    2 ^ (k + 52) ≤ fl64 q := by
  rw [fl64_of_pos q k hq hk]
  have hk0 : (0 : ℚ) < 2 ^ k := by positivity
  have hRq : (2 : ℚ) ^ 52 ≤ (roundHalfEven (q / 2 ^ k) : ℚ) := by
    exact_mod_cast mantissa_ge q k hq hk hn
  have h52 : (2 : ℚ) ^ (52 : ℤ) = 2 ^ 52 := by norm_num
  rw [zpow_add₀ (by norm_num : (2 : ℚ) ≠ 0), h52]
  nlinarith

theorem fl64_mono_pos (x y : ℚ) (hx : 0 < x) (hxy : x ≤ y) : fl64 x ≤ fl64 y := by
  have hy : 0 < y := lt_of_lt_of_le hx hxy
  have hlog : Int.log 2 x ≤ Int.log 2 y := Int.log_mono_right hx hxy
  have hk : max (Int.log 2 x) (-1022) - 52 ≤ max (Int.log 2 y) (-1022) - 52 := by
    have := max_le_max hlog (le_refl (-1022 : ℤ)); omega
  rcases eq_or_lt_of_le hk with heq | hlt
  · rw [fl64_of_pos x _ hx heq, fl64_of_pos y _ hy rfl]
    have hk0 : (0 : ℚ) < 2 ^ (max (Int.log 2 y) (-1022) - 52) := by positivity
    have hR := roundHalfEven_mono _ _ (div_le_div_of_nonneg_right hxy hk0.le)
    have hRq : (roundHalfEven (x / 2 ^ (max (Int.log 2 y) (-1022) - 52)) : ℚ)
        ≤ roundHalfEven (y / 2 ^ (max (Int.log 2 y) (-1022) - 52)) := by exact_mod_cast hR
    exact mul_le_mul_of_nonneg_right hRq hk0.le
  · have hn : -1022 ≤ Int.log 2 y := by
      by_contra hcon
      rw [max_eq_right (by omega : Int.log 2 y ≤ -1022)] at hlt
      have := le_max_right (Int.log 2 x) (-1022)
      omega
    have h1 := fl64_le_top x _ hx rfl
    have h2 := fl64_ge_bottom y _ hy rfl hn
    have h3 : (2 : ℚ) ^ (max (Int.log 2 x) (-1022) - 52 + 53)
        ≤ 2 ^ (max (Int.log 2 y) (-1022) - 52 + 52) :=
      zpow_le_zpow_right₀ (by norm_num) (by omega)
    exact le_trans h1 (le_trans h3 h2)

/-- The `float64` rounding is monotone. -/
theorem fl64_mono (x y : ℚ) (h : x ≤ y) : fl64 x ≤ fl64 y := by
  rcases lt_trichotomy 0 x with hx | hx | hx
  · exact fl64_mono_pos x y hx h
  · rw [← hx, fl64_zero]; exact fl64_nonneg y (by rw [hx]; exact h)
  · have hxn : fl64 x ≤ 0 := by
      have := fl64_nonneg (-x) (by linarith)
      rw [fl64_neg] at this
      linarith
    rcases lt_or_le y 0 with hy | hy
    · have := fl64_mono_pos (-y) (-x) (by linarith) (by linarith)
      rw [fl64_neg, fl64_neg] at this
      linarith
    · exact le_trans hxn (fl64_nonneg y hy)


/-- The rounding of a positive number of the binade `[2^e, 2^(e+1))`. -/
theorem fl64_eval_pos (q : ℚ) (e : ℤ) (h1 : (2 : ℚ) ^ e ≤ q) (h2 : q < 2 ^ (e + 1))
    (he : -1022 ≤ e) :
    fl64 q = (roundHalfEven (q / 2 ^ (e - 52)) : ℚ) * 2 ^ (e - 52) := by
  have hpos : 0 < q := lt_of_lt_of_le (by positivity) h1
  have habs : |q| = q := abs_of_pos hpos
  have hq : q ≠ 0 := ne_of_gt hpos
  have hlog : Int.log 2 |q| = e := by
    rw [habs]
    apply le_antisymm
    · have := (Int.lt_zpow_iff_log_lt (b := 2) (by norm_num) hpos).mp (by exact_mod_cast h2)
      omega
    · exact (Int.zpow_le_iff_le_log (b := 2) (by norm_num) hpos).mp (by exact_mod_cast h1)
  unfold fl64
  rw [if_neg hq, hlog, max_eq_left he]

/-- The rounding of a positive number below `2^-1022`: the spacing is `2^-1074`. -/
theorem fl64_eval_sub (q : ℚ) (hq : 0 < q) (h : q < 2 ^ (-1022 : ℤ)) :
    fl64 q = (roundHalfEven (q / 2 ^ (-1074 : ℤ)) : ℚ) * 2 ^ (-1074 : ℤ) := by
  have hlog : Int.log 2 q < -1022 :=
    (Int.lt_zpow_iff_log_lt (b := 2) (by norm_num) hq).mp (by exact_mod_cast h)
  exact fl64_of_pos q _ hq (by rw [max_eq_right hlog.le]; norm_num)

/-- A number `m * 2^k` with `2^52 ≤ m < 2^53` and `k ≥ -1074` is a `float64`
value. -/
theorem fl64_grid (m k : ℤ) (hm1 : 2 ^ 52 ≤ m) (hm2 : m < 2 ^ 53) (hk : -1074 ≤ k) :
    fl64 ((m : ℚ) * 2 ^ k) = (m : ℚ) * 2 ^ k := by
  have hk0 : (0 : ℚ) < 2 ^ k := by positivity
  have hm1q : (2 : ℚ) ^ 52 ≤ (m : ℚ) := by exact_mod_cast hm1
  have hm2q : (m : ℚ) < 2 ^ 53 := by exact_mod_cast hm2
  have h52 : (2 : ℚ) ^ (52 : ℤ) = 2 ^ 52 := by norm_num
  have h53 : (2 : ℚ) ^ (53 : ℤ) = 2 ^ 53 := by norm_num
  have h1 : (2 : ℚ) ^ (k + 52) ≤ (m : ℚ) * 2 ^ k := by
    rw [zpow_add₀ (by norm_num : (2 : ℚ) ≠ 0), h52]; nlinarith
  have h2 : (m : ℚ) * 2 ^ k < 2 ^ (k + 52 + 1) := by
    have : k + 52 + 1 = k + 53 := by ring
    rw [this, zpow_add₀ (by norm_num : (2 : ℚ) ≠ 0), h53]; nlinarith
  rw [fl64_eval_pos _ (k + 52) h1 h2 (by omega)]
  have : k + 52 - 52 = k := by ring
  rw [this, mul_div_assoc, div_self (ne_of_gt hk0), mul_one, roundHalfEven_intCast]

/-- A number `m * 2^-1074` with `0 ≤ m ≤ 2^52` is a `float64` value. -/
theorem fl64_subnormal (m : ℤ) (hm1 : 0 ≤ m) (hm2 : m ≤ 2 ^ 52) :
    fl64 ((m : ℚ) * 2 ^ (-1074 : ℤ)) = (m : ℚ) * 2 ^ (-1074 : ℤ) := by
  rcases eq_or_lt_of_le hm1 with h0 | hpos
  · rw [← h0]; simp [fl64_zero]
  · rcases eq_or_lt_of_le hm2 with htop | hlt
    · have h := fl64_grid (2 ^ 52) (-1074) le_rfl (by norm_num) le_rfl
      rw [htop]
      exact h
    · have hk0 : (0 : ℚ) < 2 ^ (-1074 : ℤ) := by positivity
      have hmq : (0 : ℚ) < (m : ℚ) := by exact_mod_cast hpos
      have hm2q : (m : ℚ) < 2 ^ 52 := by exact_mod_cast hlt
      have hsplit : (2 : ℚ) ^ (-1022 : ℤ) = 2 ^ 52 * 2 ^ (-1074 : ℤ) := by
        rw [show (-1022 : ℤ) = 52 + -1074 by norm_num, zpow_add₀ (by norm_num : (2 : ℚ) ≠ 0)]
        norm_num
      rw [fl64_eval_sub _ (by positivity) (by rw [hsplit]; nlinarith),
        mul_div_assoc, div_self (ne_of_gt hk0), mul_one, roundHalfEven_intCast]


theorem fl64_idem_pos (q : ℚ) (hq : 0 < q) : fl64 (fl64 q) = fl64 q := by
  rcases le_or_lt (-1022) (Int.log 2 q) with hn | hs
  · have hbz := mantissa_ge q _ hq rfl hn
    have htz := mantissa_le q _ rfl
    have hkk : -1074 ≤ max (Int.log 2 q) (-1022) - 52 := by
      have := le_max_right (Int.log 2 q) (-1022); omega
    rw [fl64_of_pos q _ hq rfl]
    rcases eq_or_lt_of_le htz with heq | hlt
    · rw [heq]
      have h := fl64_grid (2 ^ 52) (max (Int.log 2 q) (-1022) - 52 + 1) le_rfl (by norm_num)
        (by omega)
      have hre : (((2 : ℤ) ^ 53 : ℤ) : ℚ) * 2 ^ (max (Int.log 2 q) (-1022) - 52)
          = (((2 : ℤ) ^ 52 : ℤ) : ℚ) * 2 ^ (max (Int.log 2 q) (-1022) - 52 + 1) := by
        rw [zpow_add₀ (by norm_num : (2 : ℚ) ≠ 0)]; push_cast; ring
      rw [hre]
      exact h
    · exact fl64_grid _ _ hbz hlt hkk
  · have hk : max (Int.log 2 q) (-1022) - 52 = -1074 := by
      rw [max_eq_right hs.le]; norm_num
    rw [fl64_of_pos q _ hq hk]
    have hR0 : 0 ≤ roundHalfEven (q / 2 ^ (-1074 : ℤ)) :=
      le_trans (Int.floor_nonneg.mpr (by positivity)) (roundHalfEven_floor_le _)
    exact fl64_subnormal _ hR0 (mantissa_le_sub q hq hs)

/-- A rounded value is a `float64` value: rounding it again changes nothing. -/
theorem fl64_idem (q : ℚ) : fl64 (fl64 q) = fl64 q := by
  rcases lt_trichotomy 0 q with hq | hq | hq
  · exact fl64_idem_pos q hq
  · rw [← hq, fl64_zero, fl64_zero]
  · have h := fl64_idem_pos (-q) (by linarith)
    rw [fl64_neg, fl64_neg] at h
    linarith


/-- Multiplying a `float64` value `p` of `[1/1024, 1]` by a number of
`[0, 1 - 2^-53]` and rounding loses at least `2^-63`. -/
theorem fl64_decrease (p u : ℚ) (hp : fl64 p = p) (hlo : 1 / 1024 ≤ p) (hhi : p ≤ 1)
    (_hu0 : 0 ≤ u) (hu : u ≤ 1 - 1 / 2 ^ 53) : fl64 (p * u) ≤ p - 1 / 2 ^ 63 := by
  have hpos : 0 < p := lt_of_lt_of_le (by norm_num) hlo
  have h2ne : (2 : ℚ) ≠ 0 := by norm_num
  refine le_trans (fl64_mono _ _ (mul_le_mul_of_nonneg_left hu hpos.le)) ?_
  have he1 : -10 ≤ Int.log 2 p :=
    (Int.zpow_le_iff_le_log (b := 2) (by norm_num) hpos).mp
      (by push_cast; refine le_trans (le_of_eq ?_) hlo; norm_num)
  have he2 : Int.log 2 p < 1 :=
    (Int.lt_zpow_iff_log_lt (b := 2) (by norm_num) hpos).mp
      (by push_cast; refine lt_of_le_of_lt hhi ?_; norm_num)
  obtain ⟨k, hkdef⟩ : ∃ k, k = Int.log 2 p - 52 := ⟨_, rfl⟩
  have hk : max (Int.log 2 p) (-1022) - 52 = k := by
    rw [max_eq_left (by omega), hkdef]
  have hk0 : (0 : ℚ) < 2 ^ k := by positivity
  have hkge : (1 : ℚ) / 2 ^ 62 ≤ 2 ^ k := by
    have h : (2 : ℚ) ^ (-62 : ℤ) ≤ 2 ^ k := zpow_le_zpow_right₀ (by norm_num) (by omega)
    refine le_trans (le_of_eq ?_) h
    norm_num
  obtain ⟨m, hmdef⟩ : ∃ m, m = roundHalfEven (p / 2 ^ k) := ⟨_, rfl⟩
  have hm : (m : ℚ) * 2 ^ k = p := by
    have := fl64_of_pos p k hpos hk
    rw [hp, ← hmdef] at this
    exact this.symm
  have hm1 : 2 ^ 52 ≤ m := by rw [hmdef]; exact mantissa_ge p k hpos hk (by omega)
  have hm1q : (2 : ℚ) ^ 52 ≤ (m : ℚ) := by exact_mod_cast hm1
  have h53 : (2 : ℚ) ^ (53 : ℤ) = 2 ^ 53 := by norm_num
  have h52 : (2 : ℚ) ^ (52 : ℤ) = 2 ^ 52 := by norm_num
  have hm2q : (m : ℚ) < 2 ^ 53 := by
    have hlt := lt_zpow_spacing p
    rw [hk, zpow_add₀ h2ne, h53, ← hm, mul_comm (2 ^ k : ℚ)] at hlt
    exact lt_of_mul_lt_mul_right hlt hk0.le
  have hm2 : m < 2 ^ 53 := by exact_mod_cast hm2q
  rcases eq_or_lt_of_le hm1 with heq | hgt
  · have hkm : (2 : ℚ) ^ (k - 1) = 2 ^ k / 2 := by rw [zpow_sub_one₀ h2ne]; ring
    have hy : p * (1 - 1 / 2 ^ 53) = (((2 : ℤ) ^ 53 - 1 : ℤ) : ℚ) * 2 ^ (k - 1) := by
      rw [← hm, ← heq, hkm]; push_cast; ring
    rw [hy, fl64_grid _ _ (by norm_num) (by norm_num) (by omega), ← hy]
    have : (1 : ℚ) / 1024 * (1 / 2 ^ 53) ≤ p * (1 / 2 ^ 53) :=
      mul_le_mul_of_nonneg_right hlo (by positivity)
    have h3 : (1 : ℚ) / 1024 * (1 / 2 ^ 53) = 1 / 2 ^ 63 := by norm_num
    linarith
  · have hgtq : (2 : ℚ) ^ 52 + 1 ≤ (m : ℚ) := by exact_mod_cast hgt
    have hy : p * (1 - 1 / 2 ^ 53) = ((m : ℚ) - m / 2 ^ 53) * 2 ^ k := by
      rw [← hm]; ring
    have hfrac1 : (m : ℚ) / 2 ^ 53 < 1 := by
      rw [div_lt_one (by positivity)]; exact hm2q
    have hfrac2 : (1 : ℚ) / 2 < m / 2 ^ 53 := by
      rw [lt_div_iff₀ (by positivity)]
      have : (1 : ℚ) / 2 * 2 ^ 53 = 2 ^ 52 := by norm_num
      rw [this]
      linarith
    have h1 : (2 : ℚ) ^ (k + 52) ≤ p * (1 - 1 / 2 ^ 53) := by
      rw [hy, zpow_add₀ h2ne, h52, mul_comm (2 ^ k : ℚ)]
      exact mul_le_mul_of_nonneg_right (by linarith) hk0.le
    have h2 : p * (1 - 1 / 2 ^ 53) < 2 ^ (k + 52 + 1) := by
      have hkk : k + 52 + 1 = k + 53 := by ring
      rw [hy, hkk, zpow_add₀ h2ne, h53, mul_comm (2 ^ k : ℚ)]
      exact mul_lt_mul_of_pos_right (by linarith) hk0
    have hkk : k + 52 - 52 = k := by ring
    have hx : p * (1 - 1 / 2 ^ 53) / 2 ^ k = (m : ℚ) - m / 2 ^ 53 := by
      rw [hy, mul_div_assoc, div_self (ne_of_gt hk0), mul_one]
    rw [fl64_eval_pos _ (k + 52) h1 h2 (by omega), hkk, hx,
      roundHalfEven_eval _ (m - 1) (by push_cast; linarith) (by push_cast; linarith),
      if_pos (by push_cast; linarith)]
    push_cast
    have : ((m : ℚ) - 1) * 2 ^ k = p - 2 ^ k := by rw [← hm]; ring
    rw [this]
    have : (1 : ℚ) / 2 ^ 63 ≤ 1 / 2 ^ 62 := by norm_num
    linarith

/-- A number of at least one and a half units of the smallest spacing rounds
to at least two units. -/
theorem fl64_ge_tiny (q : ℚ) (hq : 3 / 2 * 2 ^ (-1074 : ℤ) ≤ q) :
    2 * 2 ^ (-1074 : ℤ) ≤ fl64 q := by
  have hk0 : (0 : ℚ) < 2 ^ (-1074 : ℤ) := by positivity
  have hsplit : (2 : ℚ) ^ (-1022 : ℤ) = 2 ^ 52 * 2 ^ (-1074 : ℤ) := by
    rw [show (-1022 : ℤ) = 52 + -1074 by norm_num, zpow_add₀ (by norm_num : (2 : ℚ) ≠ 0)]
    norm_num
  have hval : fl64 (3 / 2 * 2 ^ (-1074 : ℤ)) = 2 * 2 ^ (-1074 : ℤ) := by
    rw [fl64_eval_sub _ (by positivity) (by rw [hsplit]; nlinarith),
      mul_div_assoc, div_self (ne_of_gt hk0), mul_one,
      roundHalfEven_eval _ 1 (by norm_num) (by norm_num)]
    norm_num
  rw [← hval]
  exact fl64_mono _ _ hq

theorem fl64_one : fl64 1 = 1 := by
  have h := fl64_grid (2 ^ 52) (-52) le_rfl (by norm_num) (by norm_num)
  have h1 : (((2 : ℤ) ^ 52 : ℤ) : ℚ) * 2 ^ (-52 : ℤ) = 1 := by norm_num
  rwa [h1] at h

/-- The rounding of a product that is a `float64` value `v = m * 2^k`. -/
theorem fl64_exact (q v : ℚ) (m k : ℤ) (hm1 : 2 ^ 52 ≤ m) (hm2 : m < 2 ^ 53)
    (hk : -1074 ≤ k) (hv : v = (m : ℚ) * 2 ^ k) (hq : q = v) : fl64 q = v := by
  rw [hq, hv]
  exact fl64_grid m k hm1 hm2 hk

/-- Every power of two from `2^-1074` up is a `float64` value. -/
theorem fl64_two_zpow (k : ℤ) (hk : -1074 ≤ k) : fl64 (2 ^ k) = 2 ^ k := by
  have h2ne : (2 : ℚ) ≠ 0 := by norm_num
  rcases le_or_lt (-1022) k with hn | hs
  · have h := fl64_grid (2 ^ 52) (k - 52) le_rfl (by norm_num) (by omega)
    have he : (((2 : ℤ) ^ 52 : ℤ) : ℚ) * 2 ^ (k - 52) = 2 ^ k := by
      rw [zpow_sub₀ h2ne]
      have h52 : (2 : ℚ) ^ (52 : ℤ) = 2 ^ 52 := by norm_num
      rw [h52]
      push_cast
      field_simp
      ring
    rwa [he] at h
  · obtain ⟨n, hn⟩ : ∃ n : ℕ, (n : ℤ) = k + 1074 := ⟨(k + 1074).toNat, by omega⟩
    have hn52 : n ≤ 52 := by omega
    have h := fl64_subnormal (2 ^ n) (by positivity)
      (pow_le_pow_right₀ (by norm_num) hn52)
    have he : (((2 : ℤ) ^ n : ℤ) : ℚ) * 2 ^ (-1074 : ℤ) = 2 ^ k := by
      push_cast
      rw [← zpow_natCast, ← zpow_add₀ h2ne, hn]
      congr 1
      ring
    rwa [he] at h

/-- Half a unit of the smallest spacing is a tie between `0` and one unit: it
rounds to the even `0`. -/
theorem fl64_half_unit : fl64 (2 ^ (-1074 : ℤ) * (1 / 2)) = 0 := by
  have hk0 : (0 : ℚ) < 2 ^ (-1074 : ℤ) := by positivity
  have hsplit : (2 : ℚ) ^ (-1022 : ℤ) = 2 ^ 52 * 2 ^ (-1074 : ℤ) := by
    rw [show (-1022 : ℤ) = 52 + -1074 by norm_num, zpow_add₀ (by norm_num : (2 : ℚ) ≠ 0)]
    norm_num
  have hx : (2 : ℚ) ^ (-1074 : ℤ) * (1 / 2) / 2 ^ (-1074 : ℤ) = 1 / 2 := by
    field_simp
  rw [fl64_eval_sub _ (by positivity) (by rw [hsplit]; nlinarith), hx,
    roundHalfEven_eval _ 0 (by norm_num) (by norm_num)]
  norm_num

theorem roundHalfEven_le_add_half (x : ℚ) : (roundHalfEven x : ℚ) ≤ x + 1 / 2 := by
  have h1 : ((⌊x⌋ : ℤ) : ℚ) ≤ x := Int.floor_le x
  unfold roundHalfEven
  split_ifs <;> push_cast <;> linarith

/-- A `float64` value is an integer multiple of the smallest spacing. -/
theorem fl64_fixed_unit (a : ℚ) (ha : fl64 a = a) : ∃ n : ℤ, a = (n : ℚ) * 2 ^ (-1074 : ℤ) := by
  have h2ne : (2 : ℚ) ≠ 0 := by norm_num
  have key : ∀ q : ℚ, 0 < q → fl64 q = q → ∃ n : ℤ, q = (n : ℚ) * 2 ^ (-1074 : ℤ) := by
    intro q hq hfix
    have hk : -1074 ≤ max (Int.log 2 q) (-1022) - 52 := by
      have := le_max_right (Int.log 2 q) (-1022); omega
    obtain ⟨j, hj⟩ : ∃ j : ℕ, (j : ℤ) = max (Int.log 2 q) (-1022) - 52 + 1074 :=
      ⟨(max (Int.log 2 q) (-1022) - 52 + 1074).toNat, by omega⟩
    refine ⟨roundHalfEven (q / 2 ^ (max (Int.log 2 q) (-1022) - 52)) * 2 ^ j, ?_⟩
    have h := fl64_of_pos q _ hq rfl
    rw [hfix] at h
    have hpow : (2 : ℚ) ^ (max (Int.log 2 q) (-1022) - 52)
        = 2 ^ (j : ℤ) * 2 ^ (-1074 : ℤ) := by
      rw [← zpow_add₀ h2ne, hj]
      congr 1
      ring
    rw [zpow_natCast] at hpow
    push_cast
    rw [mul_assoc, ← hpow]
    exact h
  rcases lt_trichotomy 0 a with h | h | h
  · exact key a h ha
  · exact ⟨0, by rw [← h]; simp⟩
  · obtain ⟨n, hn⟩ := key (-a) (by linarith) (by rw [fl64_neg, ha])
    exact ⟨-n, by push_cast; linarith⟩

/-- A difference of `float64` values of at most `2^-1022` is computed exactly. -/
theorem fl64_sub_small (a b : ℚ) (ha : fl64 a = a) (hb : fl64 b = b) (hab : a < b)
    (hs : b - a ≤ 2 ^ (-1022 : ℤ)) : fl64 (b - a) = b - a := by
  obtain ⟨na, hna⟩ := fl64_fixed_unit a ha
  obtain ⟨nb, hnb⟩ := fl64_fixed_unit b hb
  have hk0 : (0 : ℚ) < 2 ^ (-1074 : ℤ) := by positivity
  have hsplit : (2 : ℚ) ^ (-1022 : ℤ) = 2 ^ 52 * 2 ^ (-1074 : ℤ) := by
    rw [show (-1022 : ℤ) = 52 + -1074 by norm_num, zpow_add₀ (by norm_num : (2 : ℚ) ≠ 0)]
    norm_num
  have hd : b - a = ((nb - na : ℤ) : ℚ) * 2 ^ (-1074 : ℤ) := by
    rw [hna, hnb]; push_cast; ring
  have h0 : (0 : ℚ) < ((nb - na : ℤ) : ℚ) := by
    have : 0 < ((nb - na : ℤ) : ℚ) * 2 ^ (-1074 : ℤ) := by rw [← hd]; linarith
    exact pos_of_mul_pos_left this hk0.le
  have h1 : ((nb - na : ℤ) : ℚ) ≤ 2 ^ 52 := by
    rw [hd, hsplit] at hs
    exact le_of_mul_le_mul_right hs hk0
  rw [hd]
  exact fl64_subnormal _ (by exact_mod_cast h0.le) (by exact_mod_cast h1)

/-- When a number of at least `2^-1022` is rounded up to `D`, the rounding of
`u * D` for `u ≤ 1 - 2^-53` falls back to at most the number. -/
theorem fl64_scale_round_up (d u : ℚ) (hd : 2 ^ (-1022 : ℤ) ≤ d) (hD : d < fl64 d)
    (hu : u ≤ 1 - 1 / 2 ^ 53) : fl64 (u * fl64 d) ≤ d := by
  have h2ne : (2 : ℚ) ≠ 0 := by norm_num
  have hpos : 0 < d := lt_of_lt_of_le (by positivity) hd
  have hn : -1022 ≤ Int.log 2 d :=
    (Int.zpow_le_iff_le_log (b := 2) (by norm_num) hpos).mp (by exact_mod_cast hd)
  obtain ⟨k, hkdef⟩ : ∃ k, k = Int.log 2 d - 52 := ⟨_, rfl⟩
  have hk : max (Int.log 2 d) (-1022) - 52 = k := by rw [max_eq_left hn, hkdef]
  have hk0 : (0 : ℚ) < 2 ^ k := by positivity
  obtain ⟨m, hmdef⟩ : ∃ m, m = roundHalfEven (d / 2 ^ k) := ⟨_, rfl⟩
  have hDm : fl64 d = (m : ℚ) * 2 ^ k := by rw [fl64_of_pos d k hpos hk, hmdef]
  have h52 : (2 : ℚ) ^ (52 : ℤ) = 2 ^ 52 := by norm_num
  have h53 : (2 : ℚ) ^ (53 : ℤ) = 2 ^ 53 := by norm_num
  have hm2 : m ≤ 2 ^ 53 := by rw [hmdef]; exact mantissa_le d k hk
  have hm2q : (m : ℚ) ≤ 2 ^ 53 := by exact_mod_cast hm2
  have hx52 : (2 : ℚ) ^ 52 ≤ d / 2 ^ k := by
    have hle := zpow_spacing_le d hpos hn
    rw [hk, zpow_add₀ h2ne, h52] at hle
    rw [le_div_iff₀ hk0]
    linarith
  have hxm : d / 2 ^ k < (m : ℚ) := by
    rw [hDm] at hD
    rw [div_lt_iff₀ hk0]
    exact hD
  have hm1 : 2 ^ 52 < m := by
    have : ((2 ^ 52 : ℤ) : ℚ) < (m : ℚ) := by push_cast; linarith
    exact_mod_cast this
  have hm1q : (2 : ℚ) ^ 52 + 1 ≤ (m : ℚ) := by exact_mod_cast hm1
  have hnear : (m : ℚ) ≤ d / 2 ^ k + 1 / 2 := by
    rw [hmdef]; exact roundHalfEven_le_add_half _
  have hDnn : 0 ≤ fl64 d := fl64_nonneg d hpos.le
  refine le_trans (fl64_mono _ ((1 - 1 / 2 ^ 53) * fl64 d)
    (mul_le_mul_of_nonneg_right hu hDnn)) ?_
  have hy : (1 - 1 / 2 ^ 53) * fl64 d = ((m : ℚ) - m / 2 ^ 53) * 2 ^ k := by
    rw [hDm]; ring
  have hfrac1 : (m : ℚ) / 2 ^ 53 ≤ 1 := by
    rw [div_le_one (by positivity)]; exact hm2q
  have hfrac2 : (1 : ℚ) / 2 < m / 2 ^ 53 := by
    rw [lt_div_iff₀ (by positivity)]
    have : (1 : ℚ) / 2 * 2 ^ 53 = 2 ^ 52 := by norm_num
    rw [this]
    linarith
  have h1 : (2 : ℚ) ^ (k + 52) ≤ (1 - 1 / 2 ^ 53) * fl64 d := by
    rw [hy, zpow_add₀ h2ne, h52, mul_comm (2 ^ k : ℚ)]
    exact mul_le_mul_of_nonneg_right (by linarith) hk0.le
  have h2 : (1 - 1 / 2 ^ 53) * fl64 d < 2 ^ (k + 52 + 1) := by
    have hkk : k + 52 + 1 = k + 53 := by ring
    rw [hy, hkk, zpow_add₀ h2ne, h53, mul_comm (2 ^ k : ℚ)]
    exact mul_lt_mul_of_pos_right (by linarith) hk0
  have hkk : k + 52 - 52 = k := by ring
  have hx : (1 - 1 / 2 ^ 53) * fl64 d / 2 ^ k = (m : ℚ) - m / 2 ^ 53 := by
    rw [hy, mul_div_assoc, div_self (ne_of_gt hk0), mul_one]
  rw [fl64_eval_pos _ (k + 52) h1 h2 (by omega), hkk, hx,
    roundHalfEven_eval _ (m - 1) (by push_cast; linarith) (by push_cast; linarith),
    if_pos (by push_cast; linarith)]
  push_cast
  have hdk : d = d / 2 ^ k * 2 ^ k := by
    rw [div_mul_cancel₀ _ (ne_of_gt hk0)]
  rw [hdk]
  exact mul_le_mul_of_nonneg_right (by linarith) hk0.le

/-- For `float64` values `a < b` and `u ≤ 1 - 2^-53`, the rounding of
`u` times the computed `b - a` is at most `b - a`. -/
theorem fl64_scale_le (a b u : ℚ) (ha : fl64 a = a) (hb : fl64 b = b) (hab : a < b)
    (hu : u ≤ 1 - 1 / 2 ^ 53) : fl64 (u * fl64 (b - a)) ≤ b - a := by
  have hd : 0 < b - a := sub_pos.mpr hab
  rcases le_or_lt (fl64 (b - a)) (b - a) with hle | hgt
  · have hDnn : 0 ≤ fl64 (b - a) := fl64_nonneg _ hd.le
    have h1 : u * fl64 (b - a) ≤ fl64 (b - a) := by
      have : u ≤ 1 := le_trans hu (by norm_num)
      nlinarith
    have h2 := fl64_mono _ _ h1
    rw [fl64_idem] at h2
    exact le_trans h2 hle
  · rcases le_or_lt (b - a) (2 ^ (-1022 : ℤ)) with hs | hn
    · rw [fl64_sub_small a b ha hb hab hs] at hgt
      exact absurd hgt (lt_irrefl _)
    · exact fl64_scale_round_up (b - a) u hn.le hgt hu

/-- A `float64` value below `1` is at most `1 - 2^-53`. -/
theorem fl64_lt_one (u : ℚ) (hu : fl64 u = u) (h1 : u < 1) : u ≤ 1 - 1 / 2 ^ 53 := by
  rcases le_or_lt u (1 / 2) with hs | hh
  · exact le_trans hs (by norm_num)
  · have hpos : 0 < u := lt_trans (by norm_num) hh
    have hev := fl64_eval_pos u (-1) (by refine le_trans (le_of_eq ?_) hh.le; norm_num)
      (by refine lt_of_lt_of_le h1 (le_of_eq ?_); norm_num) (by norm_num)
    rw [hu] at hev
    have hk : ((-1 : ℤ) - 52) = -53 := by norm_num
    rw [hk] at hev
    have h53 : (2 : ℚ) ^ (-53 : ℤ) = 1 / 2 ^ 53 := by norm_num
    rw [h53] at hev
    have hlt : (roundHalfEven (u / (1 / 2 ^ 53)) : ℚ) < 2 ^ 53 := by
      have : (roundHalfEven (u / (1 / 2 ^ 53)) : ℚ) * (1 / 2 ^ 53) < 1 := by rw [← hev]; exact h1
      have h2 : (0 : ℚ) < 1 / 2 ^ 53 := by positivity
      calc (roundHalfEven (u / (1 / 2 ^ 53)) : ℚ)
          = (roundHalfEven (u / (1 / 2 ^ 53)) : ℚ) * (1 / 2 ^ 53) * 2 ^ 53 := by
            field_simp
        _ < 1 * 2 ^ 53 := mul_lt_mul_of_pos_right this (by positivity)
        _ = 2 ^ 53 := one_mul _
    have hz : roundHalfEven (u / (1 / 2 ^ 53)) < 2 ^ 53 := by exact_mod_cast hlt
    have hz2 : roundHalfEven (u / (1 / 2 ^ 53)) ≤ 2 ^ 53 - 1 := by omega
    have hq : (roundHalfEven (u / (1 / 2 ^ 53)) : ℚ) ≤ 2 ^ 53 - 1 := by exact_mod_cast hz2
    rw [hev]
    have h2 : (0 : ℚ) < 1 / 2 ^ 53 := by positivity
    calc (roundHalfEven (u / (1 / 2 ^ 53)) : ℚ) * (1 / 2 ^ 53)
        ≤ (2 ^ 53 - 1) * (1 / 2 ^ 53) := mul_le_mul_of_nonneg_right hq h2.le
      _ = 1 - 1 / 2 ^ 53 := by norm_num

/-- The constant `MaxFloat64` is a `float64` value. -/
theorem fl64_max : fl64 MaxFloat64 = MaxFloat64 :=
  fl64_exact _ _ (2 ^ 53 - 1) 971 (by norm_num) (by norm_num) (by norm_num)
    (by norm_num [MaxFloat64]) rfl

/-! ### Primitives and the bound source -/

section Bound

variable {ι σ α : Type} [DecidableEq ι] [LinearOrderedField α]

theorem uniform_fst (r : Rand σ α) (src : Option ι) (w : World ι σ) :
    (uniform r src w).1 = (r.Float64 (boundState src w)).1 := by
  cases src <;> rfl

theorem uniform_boundState (r : Rand σ α) (src : Option ι) (w : World ι σ) :
    boundState src (uniform r src w).2 = (r.Float64 (boundState src w)).2 := by
  cases src with
  | none => rfl
  | some a => simp [uniform, sourceCall, boundState]

theorem normal_fst (r : Rand σ α) (src : Option ι) (w : World ι σ) :
    (normal r src w).1 = (r.NormFloat64 (boundState src w)).1 := by
  cases src <;> rfl

theorem normal_boundState (r : Rand σ α) (src : Option ι) (w : World ι σ) :
    boundState src (normal r src w).2 = (r.NormFloat64 (boundState src w)).2 := by
  cases src with
  | none => rfl
  | some a => simp [normal, sourceCall, boundState]

theorem normal_after (r : Rand σ α) (src : Option ι) (k : Nat) (w : World ι σ) :
    boundState src (after (normal r src) k w) = after r.NormFloat64 k (boundState src w) := by
  induction k generalizing w with
  | zero => rfl
  | succ k ih => simp only [after, ih, normal_boundState]

theorem nthDraw_normal (r : Rand σ α) (src : Option ι) (k : Nat) (w : World ι σ) :
    nthDraw (normal r src) k w = nthDraw r.NormFloat64 k (boundState src w) := by
  simp only [nthDraw, normal_fst, normal_after]

end Bound

section Prims

variable {ι σ α : Type} [DecidableEq ι] [LinearOrderedField α]

theorem Flat_eq (r : Rand σ α) (a b : α) (src : Option ι) (w : World ι σ) :
    Flat r a b src w =
      (r.fl (r.fl ((uniform r src w).1 * r.fl (b - a)) + a), (uniform r src w).2) := by
  cases src <;> rfl

theorem Flat_zero_one (r : Rand σ α) (src : Option ι) :
    (Flat r 0 1 src : Dist ι σ α) = uniform r src := by
  funext w
  rw [Flat_eq, sub_zero, r.fl_one, mul_one, add_zero, uniform_fst, r.fl_Float64,
    r.fl_Float64, ← uniform_fst]

theorem Gauss_eq (r : Rand σ α) (mean stddev : α) (src : Option ι) (w : World ι σ) :
    Gauss r mean stddev src w = ((normal r src w).1 * stddev + mean, (normal r src w).2) := by
  cases src <;> rfl

theorem Bernoulli_eq (r : Rand σ α) (p : α) (src : Option ι) (w : World ι σ) :
    Bernoulli r p src w =
      (if (uniform r src w).1 < p then 1 else 0, (uniform r src w).2) := by
  unfold Bernoulli
  simp only [Flat_zero_one]
  split <;> rfl

end Prims

/-! ### Runs of a sampler -/

section RunLemmas

variable {W β γ : Type}

theorem after_succ_last (f : W → β × W) (k : Nat) (w : W) :
    after f (k + 1) w = (f (after f k w)).2 := by
  induction k generalizing w with
  | zero => rfl
  | succ k ih => exact ih (f w).2

theorem draws_length (f : W → β × W) (k : Nat) (w : W) : (draws f k w).length = k := by
  induction k generalizing w with
  | zero => rfl
  | succ k ih => simp [draws, ih]

theorem draws_succ_last (f : W → β × W) (k : Nat) (w : W) :
    draws f (k + 1) w = draws f k w ++ [nthDraw f k w] := by
  induction k generalizing w with
  | zero => rfl
  | succ k ih =>
    have h := ih (f w).2
    simp only [draws, nthDraw, after] at h ⊢
    rw [h]
    rfl

/-- A sampler that post-processes each value of another one walks through the
same states and returns the post-processed values. -/
theorem after_of_map (f : W → β × W) (g : W → γ × W) (h : β → γ)
    (hg : ∀ w, g w = (h (f w).1, (f w).2)) (k : Nat) (w : W) :
    after g k w = after f k w := by
  induction k generalizing w with
  | zero => rfl
  | succ k ih => simp only [after, hg, ih]

theorem draws_of_map (f : W → β × W) (g : W → γ × W) (h : β → γ)
    (hg : ∀ w, g w = (h (f w).1, (f w).2)) (k : Nat) (w : W) :
    draws g k w = (draws f k w).map h := by
  induction k generalizing w with
  | zero => rfl
  | succ k ih => simp only [draws, hg, ih, List.map_cons]

theorem nthDraw_of_map (f : W → β × W) (g : W → γ × W) (h : β → γ)
    (hg : ∀ w, g w = (h (f w).1, (f w).2)) (k : Nat) (w : W) :
    nthDraw g k w = h (nthDraw f k w) := by
  simp only [nthDraw, after_of_map f g h hg, hg]

end RunLemmas

/-! ### The loop of `Binomial` -/

section BinomialLemmas

variable {ι σ : Type}

theorem draws_sum_nonneg (b : DiscrDist ι σ) (hb : ∀ w, (b w).1 = 0 ∨ (b w).1 = 1)
    (k : Nat) (w : World ι σ) : 0 ≤ (draws b k w).sum := by
  induction k generalizing w with
  | zero => simp [draws]
  | succ k ih =>
    have h1 := ih (b w).2
    have h2 := hb w
    simp only [draws, List.sum_cons]
    omega

theorem draws_sum_le (b : DiscrDist ι σ) (hb : ∀ w, (b w).1 = 0 ∨ (b w).1 = 1)
    (k : Nat) (w : World ι σ) : (draws b k w).sum ≤ k := by
  induction k generalizing w with
  | zero => simp [draws]
  | succ k ih =>
    have h1 := ih (b w).2
    have h2 := hb w
    simp only [draws, List.sum_cons]
    push_cast
    omega

/-- With `m` iterations left and `n + 1` in the `int64` range, the loop runs
`m` more times, adds the `m` draws of `b` to `x` and exits. -/
theorem binomialLoop_run (b : DiscrDist ι σ) (hb : ∀ w, (b w).1 = 0 ∨ (b w).1 = 1)
    (n : Int) (hn : n + 1 < 2 ^ 63) (m : Nat) :
    ∀ (fuel : Nat) (i x : Int) (w : World ι σ), m < fuel → i + m = n + 1 →
      0 ≤ x → x ≤ i →
      binomialLoop b n fuel i x w = some (x + (draws b m w).sum, after b m w) := by
  induction m with
  | zero =>
    intro fuel i x w hf hi _ _
    obtain ⟨fuel, rfl⟩ : ∃ k, fuel = k + 1 := ⟨fuel - 1, by omega⟩
    have : ¬ i ≤ n := by omega
    simp [binomialLoop, this, draws, after]
  | succ m ih =>
    intro fuel i x w hf hi hx0 hxi
    obtain ⟨fuel, rfl⟩ : ∃ k, fuel = k + 1 := ⟨fuel - 1, by omega⟩
    have hin : i ≤ n := by omega
    have hv := hb w
    have hi1 : wrap64 (i + 1) = i + 1 := wrap64_of_range _ (by omega) (by omega)
    have hx1 : wrap64 (x + (b w).1) = x + (b w).1 := wrap64_of_range _ (by omega) (by omega)
    simp only [binomialLoop, hin, if_true, hi1, hx1]
    rw [ih fuel (i + 1) (x + (b w).1) (b w).2 (by omega) (by push_cast at hi; omega)
      (by omega) (by omega)]
    simp only [draws, List.sum_cons, after, add_assoc]

/-- When `n` is the largest `int64` (or beyond), the condition `i <= n` holds
for every `int64` value of `i`, and the loop never exits. -/
theorem binomialLoop_none (b : DiscrDist ι σ) (n : Int) (hn : 2 ^ 63 - 1 ≤ n) :
    ∀ (fuel : Nat) (i x : Int) (w : World ι σ), i < 2 ^ 63 →
      binomialLoop b n fuel i x w = none := by
  intro fuel
  induction fuel with
  | zero => intro i x w _; rfl
  | succ fuel ih =>
    intro i x w hi
    have hin : i ≤ n := by omega
    simp only [binomialLoop, hin, if_true]
    exact ih _ _ _ (wrap64_lt _)

end BinomialLemmas

theorem binomialLoop_fuel_mono {ι σ : Type} (b : DiscrDist ι σ) (n : Int) :
    ∀ (fuel fuel2 : Nat) (i x : Int) (w : World ι σ) (res : Int × World ι σ),
      fuel ≤ fuel2 → binomialLoop b n fuel i x w = some res →
      binomialLoop b n fuel2 i x w = some res := by
  intro fuel
  induction fuel with
  | zero => intro fuel2 i x w res _ h; simp [binomialLoop] at h
  | succ fuel ih =>
    intro fuel2 i x w res hle h
    obtain ⟨fuel2, rfl⟩ : ∃ k, fuel2 = k + 1 := ⟨fuel2 - 1, by omega⟩
    simp only [binomialLoop] at h ⊢
    split
    · rename_i hin
      simp only [hin, if_true] at h
      exact ih fuel2 _ _ _ _ (by omega) h
    · rename_i hin
      simpa only [hin, if_false] using h

section Claims

variable {ι σ α : Type} [DecidableEq ι] [LinearOrderedField α]

theorem Bernoulli_zero_or_one (r : Rand σ α) (p : α) (src : Option ι) (w : World ι σ) :
    (Bernoulli r p src w).1 = 0 ∨ (Bernoulli r p src w).1 = 1 := by
  rw [Bernoulli_eq]
  by_cases h : (uniform r src w).1 < p <;> simp [h]

theorem after_Bernoulli (r : Rand σ α) (p : α) (src : Option ι) (k : Nat) (w : World ι σ) :
    after (Bernoulli r p src) k w = after (uniform r src) k w :=
  after_of_map (uniform r src) (Bernoulli r p src) (fun u => if u < p then 1 else 0)
    (Bernoulli_eq r p src) k w

theorem draws_Bernoulli (r : Rand σ α) (p : α) (src : Option ι) (k : Nat) (w : World ι σ) :
    draws (Bernoulli r p src) k w =
      (draws (uniform r src) k w).map (fun u => if u < p then 1 else 0) :=
  draws_of_map (uniform r src) (Bernoulli r p src) (fun u => if u < p then 1 else 0)
    (Bernoulli_eq r p src) k w

theorem sum_map_indicator (l : List α) (p : α) :
    (l.map (fun u => if u < p then (1 : Int) else 0)).sum =
      ((l.countP (fun u => decide (u < p)) : Nat) : Int) := by
  induction l with
  | nil => simp
  | cons a l ih =>
    by_cases h : a < p
    · simp [List.countP_cons, h, ih]; ring
    · simp [List.countP_cons, h, ih]

/-- The draw of `Binomial(n, p, src)` with enough fuel, for `n + 1` in the
`int64` range. -/
theorem Binomial_run (r : Rand σ α) (n : Int) (p : α) (src : Option ι) (w : World ι σ)
    (fuel : Nat) (hn0 : 0 ≤ n) (hn : n + 1 < 2 ^ 63) (hfuel : n.toNat + 1 < fuel) :
    Binomial r n p src fuel w =
      some ((draws (Bernoulli r p src) (n.toNat + 1) w).sum,
        after (uniform r src) (n.toNat + 1) w) := by
  have h := binomialLoop_run (Bernoulli r p src) (Bernoulli_zero_or_one r p src) n hn
    (n.toNat + 1) fuel 0 0 w hfuel (by push_cast; omega) le_rfl le_rfl
  simp only [zero_add, after_Bernoulli] at h
  exact h

/-- C1 (amended): for `0 ≤ n` with `n + 1` in the `int64` range, one draw of
`Binomial(n, p, src)` returns (given fuel for its `n + 2` loop tests) the sum of
`n + 1` successive `Bernoulli(p)` draws, which is the number of the first
`n + 1` uniforms of the bound source that are below `p`, and leaves the world
as `n + 1` uniform draws of the bound source leave it. -/
theorem Binomial_draw (r : Rand σ α) (n : Int) (p : α) (src : Option ι) (w : World ι σ)
    (fuel : Nat) (hn0 : 0 ≤ n) (hn : n + 1 < 2 ^ 63) (hfuel : n.toNat + 1 < fuel) :
    Binomial r n p src fuel w =
        some ((draws (Bernoulli r p src) (n.toNat + 1) w).sum,
          after (uniform r src) (n.toNat + 1) w)
      ∧ (draws (Bernoulli r p src) (n.toNat + 1) w).sum =
          (((draws (uniform r src) (n.toNat + 1) w).countP (fun u => decide (u < p)) : Nat) : Int)
      ∧ (draws (uniform r src) (n.toNat + 1) w).length = n.toNat + 1 := by
  exact ⟨Binomial_run r n p src w fuel hn0 hn hfuel,
    by rw [draws_Bernoulli, sum_map_indicator], draws_length _ _ _⟩

end Claims

section Claims2

variable {ι σ α : Type} [DecidableEq ι] [LinearOrderedField α]

/-- C2: for every `n ≥ 0`, every value a draw of `Binomial(n, p, src)` returns
lies in `[0, n + 1]`; and when `n + 1` is in the `int64` range the draw does
return, given fuel for its `n + 2` loop tests. -/
theorem Binomial_range (r : Rand σ α) (n : Int) (p : α) (src : Option ι) (w : World ι σ)
    (hn0 : 0 ≤ n) :
    (∀ (fuel : Nat) (x : Int) (w2 : World ι σ),
        Binomial r n p src fuel w = some (x, w2) → 0 ≤ x ∧ x ≤ n + 1)
      ∧ (n + 1 < 2 ^ 63 → ∀ fuel : Nat, n.toNat + 1 < fuel →
          ∃ (x : Int) (w2 : World ι σ), Binomial r n p src fuel w = some (x, w2)) := by
  constructor
  · intro fuel x w2 h
    by_cases hn : n + 1 < 2 ^ 63
    · have hrun := binomialLoop_run (Bernoulli r p src) (Bernoulli_zero_or_one r p src) n hn
        (n.toNat + 1) (max fuel (n.toNat + 2)) 0 0 w (by omega) (by push_cast; omega)
        le_rfl le_rfl
      have hmono := binomialLoop_fuel_mono (Bernoulli r p src) n fuel
        (max fuel (n.toNat + 2)) 0 0 w (x, w2) (le_max_left _ _) h
      rw [hrun] at hmono
      have hx : 0 + (draws (Bernoulli r p src) (n.toNat + 1) w).sum = x :=
        congrArg Prod.fst (Option.some.inj hmono)
      have h0 := draws_sum_nonneg (Bernoulli r p src) (Bernoulli_zero_or_one r p src)
        (n.toNat + 1) w
      have h1 := draws_sum_le (Bernoulli r p src) (Bernoulli_zero_or_one r p src)
        (n.toNat + 1) w
      push_cast at h1
      omega
    · have hnone := binomialLoop_none (Bernoulli r p src) n (by omega) fuel 0 0 w (by norm_num)
      have h2 : binomialLoop (Bernoulli r p src) n fuel 0 0 w = some (x, w2) := h
      rw [hnone] at h2
      exact absurd h2 (by simp)
  · intro hn fuel hfuel
    exact ⟨_, _, Binomial_run r n p src w fuel hn0 hn hfuel⟩

theorem draws_Bernoulli_one (r : Rand σ α) (src : Option ι)
    (hsrc : ∀ s, (r.Float64 s).1 < 1) (k : Nat) (w : World ι σ) :
    (draws (Bernoulli r 1 src) k w).sum = k := by
  induction k generalizing w with
  | zero => simp [draws]
  | succ k ih =>
    have hu : (uniform r src w).1 < 1 := by rw [uniform_fst]; exact hsrc _
    simp only [draws, List.sum_cons, ih, Bernoulli_eq, hu, if_true]
    push_cast
    ring

/-- C3 (the code at the failing inputs): with `p = 1` and a uniform primitive
that stays below `1`, a draw of `Binomial(n, 1, src)` returns `n + 1`, which is
above `n`. -/
theorem Binomial_one_exceeds (r : Rand σ α) (n : Int) (src : Option ι) (w : World ι σ)
    (fuel : Nat) (hsrc : ∀ s, (r.Float64 s).1 < 1) (hn0 : 0 ≤ n) (hn : n + 1 < 2 ^ 63)
    (hfuel : n.toNat + 1 < fuel) :
    Binomial r n 1 src fuel w = some (n + 1, after (uniform r src) (n.toNat + 1) w) := by
  rw [Binomial_run r n 1 src w fuel hn0 hn hfuel, draws_Bernoulli_one r src hsrc]
  have : ((n.toNat + 1 : Nat) : Int) = n + 1 := by push_cast; omega
  rw [this]

end Claims2

/-- Witness of C1 (amended): `Binomial(3, 1/2, src)` at the alternating source. -/
theorem Binomial_draw_witness :
    (0 : Int) ≤ 3 ∧ (3 : Int) + 1 < 2 ^ 63 ∧ (3 : Int).toNat + 1 < 5 ∧
      Binomial altRand 3 (1 / 2) (some ()) 5 world0 =
        some ((draws (Bernoulli altRand (1 / 2) (some ())) 4 world0).sum,
          after (uniform altRand (some ())) 4 world0) :=
  ⟨by decide, by decide, by decide,
    (Binomial_draw altRand 3 (1 / 2) (some ()) world0 5 (by decide) (by decide) (by decide)).1⟩

/-- C1 (as stated, at `n = 2^63 - 1`): the draw of `Binomial(2^63 - 1, p, src)`
never returns, whatever the fuel; it does not consume exactly `2^63` uniforms
and return their count. -/
theorem Binomial_maxInt64_never_returns :
    ¬ ∃ (fuel : Nat) (x : Int) (w2 : World Unit Nat),
        Binomial zeroRand (2 ^ 63 - 1) (1 / 2) none fuel world0 = some (x, w2) := by
  rintro ⟨fuel, x, w2, h⟩
  have hnone := binomialLoop_none (Bernoulli zeroRand (1 / 2) (none : Option Unit))
    (2 ^ 63 - 1) le_rfl fuel 0 0 world0 (by norm_num)
  have h2 : binomialLoop (Bernoulli zeroRand (1 / 2) (none : Option Unit)) (2 ^ 63 - 1)
      fuel 0 0 world0 = some (x, w2) := h
  rw [hnone] at h2
  exact absurd h2 (by simp)

/-- Witness of C2: `Binomial(3, 1/2, src)` at the alternating source. -/
theorem Binomial_range_witness :
    (0 : Int) ≤ 3 ∧
      ((∀ (fuel : Nat) (x : Int) (w2 : World Unit Nat),
          Binomial altRand 3 (1 / 2) (some ()) fuel world0 = some (x, w2) → 0 ≤ x ∧ x ≤ 3 + 1)
        ∧ ((3 : Int) + 1 < 2 ^ 63 → ∀ fuel : Nat, (3 : Int).toNat + 1 < fuel →
            ∃ (x : Int) (w2 : World Unit Nat),
              Binomial altRand 3 (1 / 2) (some ()) fuel world0 = some (x, w2))) :=
  ⟨by decide, Binomial_range altRand 3 (1 / 2) (some ()) world0 (by decide)⟩

/-- Witness of C3: `Binomial(0, 1, nil)` on a source whose uniforms are all `0`
returns `1`. -/
theorem Binomial_one_exceeds_witness :
    (∀ s, (zeroRand.Float64 s).1 < 1) ∧
      Binomial zeroRand 0 1 none 2 world0 = some (0 + 1, after (uniform zeroRand none) 1 world0) :=
  ⟨fun s => by simp [zeroRand],
    Binomial_one_exceeds zeroRand 0 none world0 2 (fun s => by simp [zeroRand])
      (by decide) (by decide) (by decide)⟩

/-! ### The loop of `Poisson` -/

section PoissonLemmas

variable {ι σ α : Type} [LinearOrderedField α]

/-- When the running product first drops to `t` or below after `K` draws, the
loop makes those `K` draws, counts them in `int64` and exits. -/
theorem poissonLoop_run (fl : α → α) (flat : Dist ι σ α) (t : α) (K : Nat) :
    ∀ (fuel : Nat) (i : Int) (p : α) (w : World ι σ), K < fuel → wrap64 i = i →
      (∀ j, j < K → t < (draws flat j w).foldl (fun q u => fl (q * u)) p) →
      (draws flat K w).foldl (fun q u => fl (q * u)) p ≤ t →
      poissonLoop fl flat t fuel i p w = some (wrap64 (i + K), after flat K w) := by
  induction K with
  | zero =>
    intro fuel i p w hf hi _ hle
    obtain ⟨fuel, rfl⟩ : ∃ k, fuel = k + 1 := ⟨fuel - 1, by omega⟩
    have hp : ¬ p > t := by simpa [draws] using hle
    simp [poissonLoop, hp, hi, after]
  | succ K ih =>
    intro fuel i p w hf hi hgt hle
    obtain ⟨fuel, rfl⟩ : ∃ k, fuel = k + 1 := ⟨fuel - 1, by omega⟩
    have hp : p > t := by simpa [draws] using hgt 0 (Nat.succ_pos K)
    simp only [poissonLoop, hp, if_true]
    rw [ih fuel (wrap64 (i + 1)) (fl (p * (flat w).1)) (flat w).2 (by omega)
      (by unfold wrap64; omega)
      (fun j hj => by
        have := hgt (j + 1) (by omega)
        simpa [draws] using this)
      (by simpa [draws] using hle)]
    simp only [after, wrap64_wrap64_add]
    congr 3
    push_cast
    ring

/-- A result of the loop comes from a first index `K` at which the running
product is at most `t`. -/
theorem poissonLoop_some (fl : α → α) (flat : Dist ι σ α) (t : α) :
    ∀ (fuel : Nat) (i : Int) (p : α) (w : World ι σ) (x : Int) (w2 : World ι σ),
      wrap64 i = i → poissonLoop fl flat t fuel i p w = some (x, w2) →
      ∃ K : Nat, K < fuel
        ∧ (∀ j, j < K → t < (draws flat j w).foldl (fun q u => fl (q * u)) p)
        ∧ (draws flat K w).foldl (fun q u => fl (q * u)) p ≤ t
        ∧ x = wrap64 (i + K) ∧ w2 = after flat K w := by
  intro fuel
  induction fuel with
  | zero => intro i p w x w2 _ h; simp [poissonLoop] at h
  | succ fuel ih =>
    intro i p w x w2 hi h
    simp only [poissonLoop] at h
    by_cases hp : p > t
    · simp only [hp, if_true] at h
      obtain ⟨K, hK, hgt, hle, hx, hw⟩ := ih _ _ _ _ _ (by unfold wrap64; omega) h
      refine ⟨K + 1, by omega, ?_, ?_, ?_, ?_⟩
      · intro j hj
        cases j with
        | zero => simpa [draws] using hp
        | succ j =>
          have := hgt j (by omega)
          simpa [draws] using this
      · simpa [draws] using hle
      · rw [hx, wrap64_wrap64_add]
        congr 1
        push_cast
        ring
      · simpa [after] using hw
    · simp only [hp, if_false, Option.some.injEq, Prod.mk.injEq] at h
      refine ⟨0, by omega, fun j hj => by omega, by simpa [draws] using hp, ?_, ?_⟩
      · simp [← h.1, hi]
      · simp [← h.2, after]

/-- In exact arithmetic the running product is the product. -/
theorem runProd_exact (fl : α → α) (hfl : ∀ x, fl x = x) (l : List α) :
    runProd fl l = l.prod := by
  have h : (fun p u => fl (p * u)) = (fun p u : α => p * u) := by
    funext p u; exact hfl _
  unfold runProd
  rw [h, List.prod_eq_foldl]

theorem runProd_append_singleton (fl : α → α) (l : List α) (u : α) :
    runProd fl (l ++ [u]) = fl (runProd fl l * u) := by
  simp [runProd, List.foldl_append]

end PoissonLemmas

section PoissonClaims

variable {ι σ α : Type} [DecidableEq ι] [LinearOrderedField α]

/-- The draw of `Poisson(mean, src)` with enough fuel, in terms of the first
index `K` at which the running product of the uniforms is at most `exp(-mean)`. -/
theorem Poisson_run (exp : α → α) (r : Rand σ α) (mean : α) (src : Option ι)
    (w : World ι σ) (K fuel : Nat) (hfuel : K < fuel)
    (hgt : ∀ j, j < K → exp (-mean) < runProd r.fl (draws (uniform r src) j w))
    (hle : runProd r.fl (draws (uniform r src) K w) ≤ exp (-mean)) :
    Poisson exp r mean src fuel w = some (wrap64 K, after (uniform r src) K w) := by
  have h := poissonLoop_run r.fl (uniform r src) (exp (-mean)) K fuel 0 1 w hfuel
    (by unfold wrap64; omega) hgt hle
  simp only [zero_add] at h
  simpa only [Poisson, Flat_zero_one] using h

theorem Poisson_some (exp : α → α) (r : Rand σ α) (mean : α) (src : Option ι)
    (w : World ι σ) (fuel : Nat) (x : Int) (w2 : World ι σ)
    (h : Poisson exp r mean src fuel w = some (x, w2)) :
    ∃ K : Nat, K < fuel
      ∧ (∀ j, j < K → exp (-mean) < runProd r.fl (draws (uniform r src) j w))
      ∧ runProd r.fl (draws (uniform r src) K w) ≤ exp (-mean) ∧ x = wrap64 K
      ∧ w2 = after (uniform r src) K w := by
  simp only [Poisson, Flat_zero_one] at h
  obtain ⟨K, hK, hgt, hle, hx, hw⟩ :=
    poissonLoop_some r.fl (uniform r src) (exp (-mean)) fuel 0 1 w x w2
      (by unfold wrap64; omega) h
  exact ⟨K, hK, hgt, hle, by simpa using hx, hw⟩

/-- C4 (amended): when a draw of `Poisson(mean, src)` returns, there is a least
`K` such that the running product of the first `K` uniforms of the bound
source, computed as the loop computes it (from `1`, one rounded multiplication
for each uniform in order; the empty product being `1`), is at most
`exp(-mean)`; the draw consumes exactly those `K` uniforms; it returns `K`
wrapped into `int64`, which is `K` itself whenever `K < 2^63`; and every
larger fuel gives the same result. -/
theorem Poisson_draw (exp : α → α) (r : Rand σ α) (mean : α) (src : Option ι)
    (w : World ι σ) (fuel : Nat) (x : Int) (w2 : World ι σ)
    (hterm : Poisson exp r mean src fuel w = some (x, w2)) :
    ∃ K : Nat, K < fuel
      ∧ runProd r.fl (draws (uniform r src) K w) ≤ exp (-mean)
      ∧ (∀ j, j < K → exp (-mean) < runProd r.fl (draws (uniform r src) j w))
      ∧ (draws (uniform r src) K w).length = K
      ∧ w2 = after (uniform r src) K w
      ∧ x = wrap64 K
      ∧ (K < 2 ^ 63 → x = K)
      ∧ ∀ fuel2 : Nat, K < fuel2 → Poisson exp r mean src fuel2 w = some (x, w2) := by
  obtain ⟨K, hK, hgt, hle, hx, hw⟩ := Poisson_some exp r mean src w fuel x w2 hterm
  refine ⟨K, hK, hle, hgt, draws_length _ _ _, hw, hx, ?_, ?_⟩
  · intro hK63
    rw [hx]
    exact wrap64_of_range _ (by omega) (by exact_mod_cast hK63)
  · intro fuel2 hf2
    rw [hx, hw]
    exact Poisson_run exp r mean src w K fuel2 hf2 hgt hle

/-- C6: with `math.Exp(-0) = 1`, every draw of `Poisson(0, src)` returns `0`
and leaves the world, hence every source, as it was. -/
theorem Poisson_zero (exp : α → α) (r : Rand σ α) (src : Option ι) (w : World ι σ)
    (fuel : Nat) (hexp : exp 0 = 1) (hfuel : 0 < fuel) :
    Poisson exp r 0 src fuel w = some (0, w) := by
  obtain ⟨fuel, rfl⟩ : ∃ k, fuel = k + 1 := ⟨fuel - 1, by omega⟩
  simp [Poisson, poissonLoop, hexp]

end PoissonClaims

/-! ### Evaluations at concrete sources -/

theorem expStandIn_zero : expStandIn 0 = 1 := by
  norm_num [expStandIn]

theorem expStandIn_underflow : expStandIn (-1000) = 0 := by
  norm_num [expStandIn]

theorem runProd_replicate_step (fl : ℚ → ℚ) (c : ℚ) (j : Nat) (p v : ℚ)
    (hp : runProd fl (List.replicate j c) = p) (hv : fl (p * c) = v) :
    runProd fl (List.replicate (j + 1) c) = v := by
  rw [List.replicate_succ', runProd_append_singleton, hp, hv]

/-- Under `float64` rounding the running product of factors `3/4` never drops
below two units of the smallest spacing: from there `p * 3/4` is a tie or
above, and it is rounded back up. -/
theorem runProd_three_quarters_pos (j : Nat) :
    2 * 2 ^ (-1074 : ℤ) ≤ runProd fl64 (List.replicate j (3 / 4)) := by
  induction j with
  | zero =>
    have h : (2 : ℚ) ^ (-1074 : ℤ) ≤ 2 ^ (-1 : ℤ) :=
      zpow_le_zpow_right₀ (by norm_num) (by norm_num)
    have h1 : (2 : ℚ) ^ (-1 : ℤ) = 1 / 2 := by norm_num
    rw [h1] at h
    show 2 * 2 ^ (-1074 : ℤ) ≤ (1 : ℚ)
    generalize (2 : ℚ) ^ (-1074 : ℤ) = x at h ⊢
    linarith
  | succ j ih =>
    rw [List.replicate_succ', runProd_append_singleton]
    exact fl64_ge_tiny _ (by linarith)

/-- Under `float64` rounding the first eight running products of factors `3/4`
are exact. -/
theorem runProd_three_quarters (j : Nat) (hj : j ≤ 8) :
    runProd fl64 (List.replicate j (3 / 4)) = (3 / 4) ^ j := by
  have h0 : runProd fl64 (List.replicate 0 (3 / 4)) = (3 / 4) ^ 0 := rfl
  have h1 : runProd fl64 (List.replicate 1 (3 / 4)) = (3 / 4) ^ 1 :=
    runProd_replicate_step fl64 (3 / 4) 0 _ _ h0
      (fl64_exact _ _ (3 * 2 ^ 51) (-53) (by norm_num) (by norm_num) (by norm_num)
        (by norm_num) (by norm_num))
  have h2 : runProd fl64 (List.replicate 2 (3 / 4)) = (3 / 4) ^ 2 :=
    runProd_replicate_step fl64 (3 / 4) 1 _ _ h1
      (fl64_exact _ _ (9 * 2 ^ 49) (-53) (by norm_num) (by norm_num) (by norm_num)
        (by norm_num) (by norm_num))
  have h3 : runProd fl64 (List.replicate 3 (3 / 4)) = (3 / 4) ^ 3 :=
    runProd_replicate_step fl64 (3 / 4) 2 _ _ h2
      (fl64_exact _ _ (27 * 2 ^ 48) (-54) (by norm_num) (by norm_num) (by norm_num)
        (by norm_num) (by norm_num))
  have h4 : runProd fl64 (List.replicate 4 (3 / 4)) = (3 / 4) ^ 4 :=
    runProd_replicate_step fl64 (3 / 4) 3 _ _ h3
      (fl64_exact _ _ (81 * 2 ^ 46) (-54) (by norm_num) (by norm_num) (by norm_num)
        (by norm_num) (by norm_num))
  have h5 : runProd fl64 (List.replicate 5 (3 / 4)) = (3 / 4) ^ 5 :=
    runProd_replicate_step fl64 (3 / 4) 4 _ _ h4
      (fl64_exact _ _ (243 * 2 ^ 45) (-55) (by norm_num) (by norm_num) (by norm_num)
        (by norm_num) (by norm_num))
  have h6 : runProd fl64 (List.replicate 6 (3 / 4)) = (3 / 4) ^ 6 :=
    runProd_replicate_step fl64 (3 / 4) 5 _ _ h5
      (fl64_exact _ _ (729 * 2 ^ 43) (-55) (by norm_num) (by norm_num) (by norm_num)
        (by norm_num) (by norm_num))
  have h7 : runProd fl64 (List.replicate 7 (3 / 4)) = (3 / 4) ^ 7 :=
    runProd_replicate_step fl64 (3 / 4) 6 _ _ h6
      (fl64_exact _ _ (2187 * 2 ^ 41) (-55) (by norm_num) (by norm_num) (by norm_num)
        (by norm_num) (by norm_num))
  have h8 : runProd fl64 (List.replicate 8 (3 / 4)) = (3 / 4) ^ 8 :=
    runProd_replicate_step fl64 (3 / 4) 7 _ _ h7
      (fl64_exact _ _ (6561 * 2 ^ 40) (-56) (by norm_num) (by norm_num) (by norm_num)
        (by norm_num) (by norm_num))
  interval_cases j
  · exact h0
  · exact h1
  · exact h2
  · exact h3
  · exact h4
  · exact h5
  · exact h6
  · exact h7
  · exact h8

/-- Under `float64` rounding the running product of `j ≤ 1074` factors `1/2`
is `2^-j`. -/
theorem runProd_halves (j : Nat) (hj : j ≤ 1074) :
    runProd fl64 (List.replicate j (1 / 2)) = 2 ^ (-(j : ℤ)) := by
  induction j with
  | zero => rfl
  | succ j ih =>
    have he : (2 : ℚ) ^ (-(j : ℤ)) * (1 / 2) = 2 ^ (-((j + 1 : ℕ) : ℤ)) := by
      have : -((j + 1 : ℕ) : ℤ) = -(j : ℤ) - 1 := by push_cast; ring
      rw [this, zpow_sub_one₀ (by norm_num : (2 : ℚ) ≠ 0)]
      ring
    rw [List.replicate_succ', runProd_append_singleton, ih (by omega), he]
    exact fl64_two_zpow _ (by push_cast; omega)

/-- The next factor `1/2` takes it to `0`. -/
theorem runProd_halves_zero : runProd fl64 (List.replicate 1075 (1 / 2)) = 0 := by
  rw [List.replicate_succ', runProd_append_singleton, runProd_halves 1074 le_rfl]
  exact fl64_half_unit

theorem halfRand_run (h : Unit → Nat) (j : Nat) :
    ∀ s : Nat,
      draws (uniform halfRand (none : Option Unit)) j (World.mk s h) = List.replicate j (1 / 2)
        ∧ after (uniform halfRand (none : Option Unit)) j (World.mk s h) = World.mk (s + j) h := by
  induction j with
  | zero => intro s; exact ⟨rfl, rfl⟩
  | succ j ih =>
    intro s
    obtain ⟨h1, h2⟩ := ih (s + 1)
    have hstep : uniform halfRand (none : Option Unit) (World.mk s h) =
        (1 / 2, World.mk (s + 1) h) := rfl
    refine ⟨?_, ?_⟩
    · simp only [draws, hstep, h1, List.replicate_succ]
    · simp only [after, hstep, h2]
      congr 1
      omega

/-- Underflow of the running product: with `math.Exp(-1000) = 0` and every
uniform `1/2`, under `float64` rounding the draw of `Poisson(1000, nil)` returns
`1075` after `1075` uniforms (the running product is `2^-j` down to `2^-1074`
and then rounds to `0`), although the exact product of the uniforms is above
`0` for every number of factors. -/
theorem Poisson_underflow_returns :
    Poisson expStandIn halfRand 1000 none 1076 world0
        = some (1075, after (uniform halfRand (none : Option Unit)) 1075 world0)
      ∧ ∀ k : Nat, expStandIn (-1000) < (List.replicate k (1 / 2 : ℚ)).prod := by
  constructor
  · rw [Poisson_run expStandIn halfRand 1000 none world0 1075 1076 (by omega)
      (fun j hj => by
        rw [expStandIn_underflow, world0, (halfRand_run _ j 0).1]
        show 0 < runProd fl64 (List.replicate j (1 / 2))
        rw [runProd_halves j (by omega)]
        positivity)
      (by
        rw [expStandIn_underflow, world0, (halfRand_run _ 1075 0).1]
        exact le_of_eq runProd_halves_zero)]
    rfl
  · intro k
    rw [expStandIn_underflow, List.prod_replicate]
    positivity

theorem stuckRand_run (h : Unit → Nat) (j : Nat) :
    ∀ s : Nat,
      draws (uniform stuckRand (none : Option Unit)) j (World.mk s h) = List.replicate j (3 / 4)
        ∧ after (uniform stuckRand (none : Option Unit)) j (World.mk s h) = World.mk (s + j) h := by
  induction j with
  | zero => intro s; exact ⟨rfl, rfl⟩
  | succ j ih =>
    intro s
    obtain ⟨h1, h2⟩ := ih (s + 1)
    have hstep : uniform stuckRand (none : Option Unit) (World.mk s h) =
        (3 / 4, World.mk (s + 1) h) := rfl
    refine ⟨?_, ?_⟩
    · simp only [draws, hstep, h1, List.replicate_succ]
    · simp only [after, hstep, h2]
      congr 1
      omega

theorem stallRand_run (h : Unit → Nat) (j : Nat) :
    ∀ s : Nat, s + j ≤ 2 ^ 63 →
      draws (uniform stallRand (none : Option Unit)) j (World.mk s h) = List.replicate j (3 / 4)
        ∧ after (uniform stallRand (none : Option Unit)) j (World.mk s h) = World.mk (s + j) h := by
  induction j with
  | zero => intro s _; exact ⟨rfl, rfl⟩
  | succ j ih =>
    intro s hs
    have hlt : s < 2 ^ 63 := by omega
    obtain ⟨h1, h2⟩ := ih (s + 1) (by omega)
    have hstep : uniform stallRand (none : Option Unit) (World.mk s h) =
        (3 / 4, World.mk (s + 1) h) := by
      show ((if s < 2 ^ 63 then (3 / 4 : ℚ) else 0), World.mk (s + 1) h) = _
      rw [if_pos hlt]
    refine ⟨?_, ?_⟩
    · simp only [draws, hstep, h1, List.replicate_succ]
    · simp only [after, hstep, h2]
      congr 1
      omega

/-- Witness of C6: `Poisson(0, src)` at the alternating source. -/
theorem Poisson_zero_witness :
    expStandIn 0 = 1 ∧ 0 < 3 ∧
      Poisson expStandIn altRand 0 (some ()) 3 world0 = some (0, world0) :=
  ⟨expStandIn_zero, by decide,
    Poisson_zero expStandIn altRand (some ()) world0 3 expStandIn_zero (by decide)⟩

theorem runProd_step {W : Type} (fl : ℚ → ℚ) (f : W → ℚ × W) (k : Nat) (w : W) (p u v : ℚ)
    (hp : runProd fl (draws f k w) = p) (hu : nthDraw f k w = u) (hv : fl (p * u) = v) :
    runProd fl (draws f (k + 1) w) = v := by
  rw [draws_succ_last, runProd_append_singleton, hp, hu, hv]

/-- The running products of the first uniforms of the alternating source. -/
theorem runProd_altRand :
    runProd altRand.fl (draws (uniform altRand (none : Option Unit)) 1 world0) = 1 / 4
      ∧ runProd altRand.fl (draws (uniform altRand (none : Option Unit)) 2 world0) = 3 / 16
      ∧ runProd altRand.fl (draws (uniform altRand (none : Option Unit)) 3 world0) = 3 / 64 := by
  have h1 : runProd altRand.fl (draws (uniform altRand (none : Option Unit)) 1 world0) = 1 / 4 :=
    runProd_step _ _ 0 world0 1 (1 / 4) _ rfl rfl
      (fl64_exact _ _ (2 ^ 52) (-54) (by norm_num) (by norm_num) (by norm_num) (by norm_num)
        (by norm_num))
  have h2 : runProd altRand.fl (draws (uniform altRand (none : Option Unit)) 2 world0) = 3 / 16 :=
    runProd_step _ _ 1 world0 (1 / 4) (3 / 4) _ h1 rfl
      (fl64_exact _ _ (3 * 2 ^ 51) (-55) (by norm_num) (by norm_num) (by norm_num) (by norm_num)
        (by norm_num))
  have h3 : runProd altRand.fl (draws (uniform altRand (none : Option Unit)) 3 world0) = 3 / 64 :=
    runProd_step _ _ 2 world0 (3 / 16) (1 / 4) _ h2 rfl
      (fl64_exact _ _ (3 * 2 ^ 51) (-57) (by norm_num) (by norm_num) (by norm_num) (by norm_num)
        (by norm_num))
  exact ⟨h1, h2, h3⟩

/-- The first draw of `Poisson(3, nil)` at the alternating source: `3` uniforms. -/
theorem Poisson_altRand_first (fuel : Nat) (hf : 3 < fuel) :
    Poisson expStandIn altRand 3 none fuel world0 = some (3, World.mk 3 (fun _ => 0)) := by
  have ht : expStandIn (-3) = 2 / 17 := by norm_num [expStandIn]
  obtain ⟨h1, h2, h3⟩ := runProd_altRand
  rw [Poisson_run expStandIn altRand 3 none world0 3 fuel hf
    (fun j hj => by
      rw [ht]
      interval_cases j
      · show (2 : ℚ) / 17 < 1
        norm_num
      · rw [h1]; norm_num
      · rw [h2]; norm_num)
    (by rw [ht, h3]; norm_num)]
  rfl

theorem Poisson_altRand_three :
    Poisson expStandIn altRand 3 none 4 world0 = some (3, World.mk 3 (fun _ => 0)) :=
  Poisson_altRand_first 4 (by omega)

/-- The second draw of `Poisson(3, nil)` at the alternating source: `4` uniforms. -/
theorem Poisson_altRand_second (fuel : Nat) (hf : 4 < fuel) :
    Poisson expStandIn altRand 3 none fuel (World.mk 3 (fun _ => 0) : World Unit Nat)
      = some (4, World.mk 7 (fun _ => 0)) := by
  have ht : expStandIn (-3) = 2 / 17 := by norm_num [expStandIn]
  have h1 : runProd altRand.fl (draws (uniform altRand (none : Option Unit)) 1
      (World.mk 3 (fun _ => 0))) = 3 / 4 :=
    runProd_step _ _ 0 _ 1 (3 / 4) _ rfl rfl
      (fl64_exact _ _ (3 * 2 ^ 51) (-53) (by norm_num) (by norm_num) (by norm_num) (by norm_num)
        (by norm_num))
  have h2 : runProd altRand.fl (draws (uniform altRand (none : Option Unit)) 2
      (World.mk 3 (fun _ => 0))) = 3 / 16 :=
    runProd_step _ _ 1 _ (3 / 4) (1 / 4) _ h1 rfl
      (fl64_exact _ _ (3 * 2 ^ 51) (-55) (by norm_num) (by norm_num) (by norm_num) (by norm_num)
        (by norm_num))
  have h3 : runProd altRand.fl (draws (uniform altRand (none : Option Unit)) 3
      (World.mk 3 (fun _ => 0))) = 9 / 64 :=
    runProd_step _ _ 2 _ (3 / 16) (3 / 4) _ h2 rfl
      (fl64_exact _ _ (9 * 2 ^ 49) (-55) (by norm_num) (by norm_num) (by norm_num) (by norm_num)
        (by norm_num))
  have h4 : runProd altRand.fl (draws (uniform altRand (none : Option Unit)) 4
      (World.mk 3 (fun _ => 0))) = 9 / 256 :=
    runProd_step _ _ 3 _ (9 / 64) (1 / 4) _ h3 rfl
      (fl64_exact _ _ (9 * 2 ^ 49) (-57) (by norm_num) (by norm_num) (by norm_num) (by norm_num)
        (by norm_num))
  rw [Poisson_run expStandIn altRand 3 none _ 4 fuel hf
    (fun j hj => by
      rw [ht]
      interval_cases j
      · show (2 : ℚ) / 17 < 1
        norm_num
      · rw [h1]; norm_num
      · rw [h2]; norm_num
      · rw [h3]; norm_num)
    (by rw [ht, h4]; norm_num)]
  rfl

/-- Witness of C4 (amended): `Poisson(3, nil)` at the alternating source returns
`3` after three uniforms. -/
theorem Poisson_draw_witness :
    Poisson expStandIn altRand 3 none 4 world0 = some (3, World.mk 3 (fun _ => 0)) ∧
      ∃ K : Nat, K < 4
        ∧ runProd altRand.fl (draws (uniform altRand (none : Option Unit)) K world0)
            ≤ expStandIn (-3)
        ∧ (∀ j, j < K → expStandIn (-3)
            < runProd altRand.fl (draws (uniform altRand (none : Option Unit)) j world0))
        ∧ (draws (uniform altRand (none : Option Unit)) K world0).length = K
        ∧ World.mk 3 (fun _ => 0) = after (uniform altRand (none : Option Unit)) K world0
        ∧ (3 : Int) = wrap64 K
        ∧ (K < 2 ^ 63 → (3 : Int) = K)
        ∧ ∀ fuel2 : Nat, K < fuel2 →
            Poisson expStandIn altRand 3 none fuel2 world0 = some (3, World.mk 3 (fun _ => 0)) :=
  ⟨Poisson_altRand_three,
    Poisson_draw expStandIn altRand 3 none world0 4 3 (World.mk 3 (fun _ => 0))
      Poisson_altRand_three⟩

/-- The draw of `Poisson(1000, nil)` at the stalling source: `2^63 + 1`
uniforms; the running product stays positive until the uniform `0` comes. -/
theorem Poisson_stallRand_1000 :
    Poisson expStandIn stallRand 1000 none (2 ^ 63 + 2) world0 =
      some (wrap64 ((2 ^ 63 + 1 : Nat) : Int),
        after (uniform stallRand (none : Option Unit)) (2 ^ 63 + 1) world0) := by
  have hpos : (0 : ℚ) < 2 * 2 ^ (-1074 : ℤ) := by positivity
  apply Poisson_run expStandIn stallRand 1000 none world0 (2 ^ 63 + 1) (2 ^ 63 + 2) (by omega)
  · intro j hj
    rw [expStandIn_underflow, world0, (stallRand_run _ j 0 (by omega)).1]
    exact lt_of_lt_of_le hpos (runProd_three_quarters_pos j)
  · have hn : nthDraw (uniform stallRand (none : Option Unit)) (2 ^ 63) world0 = 0 := by
      rw [nthDraw, world0, (stallRand_run _ (2 ^ 63) 0 (by omega)).2]
      simp [uniform, globalCall, stallRand]
    rw [expStandIn_underflow, draws_succ_last, runProd_append_singleton, hn, mul_zero]
    exact le_of_eq fl64_zero

/-- C4 (as stated, at a concrete source): with `math.Exp(-1000) = 0` and a
source whose uniform primitive returns `3/4` on its first `2^63` draws and `0`
on the next, under `float64` rounding the draw of `Poisson(1000, src)`
terminates after `2^63 + 1` uniforms and returns a negative number: neither
the least `k ≥ 0` of the claim nor the number of uniforms consumed. -/
theorem Poisson_count_wraps :
    ∃ (fuel : Nat) (x : Int) (w2 : World Unit Nat),
      Poisson expStandIn stallRand 1000 none fuel world0 = some (x, w2) ∧ x < 0 ∧
        w2 = after (uniform stallRand (none : Option Unit)) (2 ^ 63 + 1) world0 := by
  refine ⟨2 ^ 63 + 2, wrap64 ((2 ^ 63 + 1 : Nat) : Int), _, Poisson_stallRand_1000, ?_, rfl⟩
  unfold wrap64
  norm_num

section PoissonMin

variable {ι σ α : Type} [DecidableEq ι] [LinearOrderedField α]

/-- While the loop of `Poisson` goes on with `exp(-mean) ≥ 1/1024` and
uniforms in `[0, 1 - 2^-53]`, the running product is a `float64` value and has
lost at least `2^-63` at every multiplication. -/
theorem runProd_decrease (r : Rand σ α) (src : Option ι) (w : World ι σ) (t : α)
    (hlo : 1 / 1024 ≤ t)
    (hsrc : ∀ s, 0 ≤ (r.Float64 s).1 ∧ (r.Float64 s).1 ≤ 1 - 1 / 2 ^ 53)
    (hidem : ∀ y, r.fl (r.fl y) = r.fl y)
    (hdec : ∀ p u, r.fl p = p → 1 / 1024 ≤ p → p ≤ 1 → 0 ≤ u → u ≤ 1 - 1 / 2 ^ 53 →
      r.fl (p * u) ≤ p - 1 / 2 ^ 63) (j : Nat) :
    (∀ i, i < j → t < runProd r.fl (draws (uniform r src) i w)) →
      r.fl (runProd r.fl (draws (uniform r src) j w)) = runProd r.fl (draws (uniform r src) j w)
        ∧ runProd r.fl (draws (uniform r src) j w) ≤ 1 - (j : α) * (1 / 2 ^ 63) := by
  induction j with
  | zero =>
    intro _
    simp [runProd, draws, r.fl_one]
  | succ j ih =>
    intro hgt
    obtain ⟨hrep, hle⟩ := ih (fun i hi => hgt i (by omega))
    have htj := hgt j (by omega)
    have hu := hsrc (boundState src (after (uniform r src) j w))
    rw [← uniform_fst] at hu
    have hnn : (0 : α) ≤ (j : α) * (1 / 2 ^ 63) := by positivity
    have hstep := hdec _ _ hrep (le_trans hlo htj.le) (by linarith) hu.1 hu.2
    rw [draws_succ_last, runProd_append_singleton, nthDraw]
    refine ⟨hidem _, ?_⟩
    push_cast
    linarith

/-- C5 (the code on every source of `float64` uniforms): when `exp(-mean)` is
below `1` (and at least `1/1024`, as `exp(-3)` is) and the uniform primitive
returns values in `[0, 1 - 2^-53]`, every value a draw of `Poisson(mean, src)`
returns is at least `1`; `0` is not attainable. The rounding of the running
product enters through two facts that hold of exact arithmetic and of
`float64`: a rounded value is a fixed point of the rounding, and a `float64`
value in `[1/1024, 1]` multiplied by a uniform below `1` loses at least
`2^-63`. -/
theorem Poisson_ge_one (exp : α → α) (r : Rand σ α) (mean : α) (src : Option ι)
    (w : World ι σ) (fuel : Nat) (x : Int) (w2 : World ι σ)
    (hlo : 1 / 1024 ≤ exp (-mean)) (hhi : exp (-mean) < 1)
    (hsrc : ∀ s, 0 ≤ (r.Float64 s).1 ∧ (r.Float64 s).1 ≤ 1 - 1 / 2 ^ 53)
    (hidem : ∀ y, r.fl (r.fl y) = r.fl y)
    (hdec : ∀ p u, r.fl p = p → 1 / 1024 ≤ p → p ≤ 1 → 0 ≤ u → u ≤ 1 - 1 / 2 ^ 53 →
      r.fl (p * u) ≤ p - 1 / 2 ^ 63)
    (hterm : Poisson exp r mean src fuel w = some (x, w2)) : 1 ≤ x := by
  obtain ⟨K, _, hgt, hle, hx, _⟩ := Poisson_some exp r mean src w fuel x w2 hterm
  have hK0 : K ≠ 0 := by
    rintro rfl
    simp only [draws, runProd, List.foldl_nil] at hle
    exact absurd hhi (not_lt.mpr hle)
  have hK63 : K < 2 ^ 63 := by
    by_contra hcon
    have hj := hgt (2 ^ 63 - 1) (by omega)
    have hb := (runProd_decrease r src w (exp (-mean)) hlo hsrc hidem hdec (2 ^ 63 - 1)
      (fun i hi => hgt i (by omega))).2
    have hnum : (1 : α) - ((2 ^ 63 - 1 : Nat) : α) * (1 / 2 ^ 63) < 1 / 1024 := by norm_num
    exact absurd (lt_of_lt_of_le hj (le_trans hb (le_trans hnum.le hlo))) (lt_irrefl _)
  rw [hx, wrap64_of_range _ (by omega) (by exact_mod_cast hK63)]
  omega

end PoissonMin

theorem Poisson_zeroRand_three :
    Poisson expStandIn zeroRand 3 none 2 world0 = some (1, World.mk 1 (fun _ => 0)) := by
  have ht : expStandIn (-3) = 2 / 17 := by norm_num [expStandIn]
  have h1 : runProd zeroRand.fl (draws (uniform zeroRand (none : Option Unit)) 1 world0) = 0 :=
    runProd_step _ _ 0 world0 1 0 _ rfl rfl (by rw [mul_zero]; exact fl64_zero)
  rw [Poisson_run expStandIn zeroRand 3 none world0 1 2 (by omega)
    (fun j hj => by
      rw [ht]
      interval_cases j
      show (2 : ℚ) / 17 < 1
      norm_num)
    (by rw [ht, h1]; norm_num)]
  rfl

/-- Exact multiplication of a value in `[1/1024, 1]` by a uniform in
`[0, 1 - 2^-53]` loses at least `2^-63`: exact arithmetic also has the property
`fl64_decrease` of the `float64` rounding. -/
theorem exact_decrease (p u : ℚ) (hp : 1 / 1024 ≤ p) (hu : u ≤ 1 - 1 / 2 ^ 53) :
    p * u ≤ p - 1 / 2 ^ 63 := by
  have h1 : p * u ≤ p * (1 - 1 / 2 ^ 53) :=
    mul_le_mul_of_nonneg_left hu (le_trans (by norm_num) hp)
  have h2 : 1 / 1024 * (1 / 2 ^ 53) ≤ p * (1 / 2 ^ 53) :=
    mul_le_mul_of_nonneg_right hp (by positivity)
  have h3 : (1 : ℚ) / 1024 * (1 / 2 ^ 53) = 1 / 2 ^ 63 := by norm_num
  linarith

/-- Witness of C5: `Poisson(3, nil)` on a source under `float64` rounding
whose uniforms are all `0` returns `1`; the two facts about the rounding are
`fl64_idem` and `fl64_decrease`. -/
theorem Poisson_ge_one_witness :
    (1 : ℚ) / 1024 ≤ expStandIn (-3) ∧ expStandIn (-3) < 1 ∧
      (∀ s, 0 ≤ (zeroRand.Float64 s).1 ∧ (zeroRand.Float64 s).1 ≤ 1 - 1 / 2 ^ 53) ∧
      (∀ y, zeroRand.fl (zeroRand.fl y) = zeroRand.fl y) ∧
      (∀ p u, zeroRand.fl p = p → 1 / 1024 ≤ p → p ≤ 1 → 0 ≤ u → u ≤ 1 - 1 / 2 ^ 53 →
        zeroRand.fl (p * u) ≤ p - 1 / 2 ^ 63) ∧
      Poisson expStandIn zeroRand 3 none 2 world0 = some (1, World.mk 1 (fun _ => 0)) ∧
      (1 : Int) ≤ 1 :=
  ⟨by norm_num [expStandIn], by norm_num [expStandIn], fun s => by norm_num [zeroRand],
    fl64_idem, fl64_decrease, Poisson_zeroRand_three,
    Poisson_ge_one expStandIn zeroRand 3 none world0 2 1 (World.mk 1 (fun _ => 0))
      (by norm_num [expStandIn]) (by norm_num [expStandIn]) (fun s => by norm_num [zeroRand])
      fl64_idem fl64_decrease Poisson_zeroRand_three⟩

/-! ### Bernoulli, Flat and Gauss -/

section Simple

variable {ι σ α : Type} [DecidableEq ι] [LinearOrderedField α]

/-- C7: a draw of `Bernoulli(p, src)` leaves the world as one uniform draw of
the bound source leaves it (the bound source makes exactly one `Float64`
step), returns `0` or `1`, and returns `1` exactly when that uniform `u`
satisfies `u < p`. -/
theorem Bernoulli_draw (r : Rand σ α) (p : α) (src : Option ι) (w : World ι σ) :
    (Bernoulli r p src w).2 = after (uniform r src) 1 w
      ∧ boundState src (Bernoulli r p src w).2 = (r.Float64 (boundState src w)).2
      ∧ ((Bernoulli r p src w).1 = 0 ∨ (Bernoulli r p src w).1 = 1)
      ∧ ((Bernoulli r p src w).1 = 1 ↔ (r.Float64 (boundState src w)).1 < p) := by
  refine ⟨?_, ?_, Bernoulli_zero_or_one r p src w, ?_⟩
  · rw [Bernoulli_eq]; rfl
  · rw [Bernoulli_eq]; exact uniform_boundState r src w
  · rw [Bernoulli_eq, ← uniform_fst]
    by_cases h : (uniform r src w).1 < p <;> simp [h]

/-- C8: when the uniform primitive returns values in `[0, 1)`, every draw of
`Bernoulli(0, src)` returns `0` and every draw of `Bernoulli(1, src)` returns `1`. -/
theorem Bernoulli_extremes (r : Rand σ α) (src : Option ι) (w : World ι σ)
    (hsrc : ∀ s, 0 ≤ (r.Float64 s).1 ∧ (r.Float64 s).1 < 1) :
    (Bernoulli r 0 src w).1 = 0 ∧ (Bernoulli r 1 src w).1 = 1 := by
  have hu := hsrc (boundState src w)
  rw [← uniform_fst] at hu
  constructor
  · rw [Bernoulli_eq]
    simp [not_lt.mpr hu.1]
  · rw [Bernoulli_eq]
    simp [hu.2]

/-- For `a < b` with `b - a ≤ MaxFloat64` (the subtraction does not overflow),
a `float64` value `a`, a monotone rounding that fixes `0` and `MaxFloat64`,
and a uniform primitive with values in `[0, 1)`, a draw `x` of
`Flat(a, b, src)` makes one `Float64` step `u` of the bound source, equals
`u * (b - a) + a` computed with every operation rounded, where the computed
`b - a` is at most `MaxFloat64`, and satisfies `a ≤ x`; it satisfies `x ≤ b`
when `b` is a `float64` value and `b - a` is computed exactly, and `x < b` in
exact arithmetic. -/
theorem Flat_of_mono (r : Rand σ α) (a b : α) (src : Option ι) (w : World ι σ)
    (hab : a < b) (hsrc : ∀ s, 0 ≤ (r.Float64 s).1 ∧ (r.Float64 s).1 < 1)
    (hmono : ∀ x y, x ≤ y → r.fl x ≤ r.fl y) (hzero : r.fl 0 = 0) (ha : r.fl a = a)
    (hmax : r.fl MaxFloat64 = MaxFloat64) (hfin : b - a ≤ MaxFloat64) :
    (Flat r a b src w).1
        = r.fl (r.fl ((r.Float64 (boundState src w)).1 * r.fl (b - a)) + a)
      ∧ (Flat r a b src w).2 = after (uniform r src) 1 w
      ∧ boundState src (Flat r a b src w).2 = (r.Float64 (boundState src w)).2
      ∧ r.fl (b - a) ≤ MaxFloat64
      ∧ a ≤ (Flat r a b src w).1
      ∧ (r.fl (b - a) = b - a → r.fl b = b → (Flat r a b src w).1 ≤ b)
      ∧ ((∀ y, r.fl y = y) → (Flat r a b src w).1 < b) := by
  have hu := hsrc (boundState src w)
  have hd : 0 < b - a := sub_pos.mpr hab
  have hdelta : 0 ≤ r.fl (b - a) := by
    have := hmono 0 (b - a) hd.le
    rwa [hzero] at this
  have hprod : 0 ≤ r.fl ((r.Float64 (boundState src w)).1 * r.fl (b - a)) := by
    have := hmono 0 _ (mul_nonneg hu.1 hdelta)
    rwa [hzero] at this
  rw [Flat_eq, uniform_fst]
  refine ⟨rfl, rfl, uniform_boundState r src w, ?_, ?_, ?_, ?_⟩
  · have := hmono _ _ hfin
    rwa [hmax] at this
  · have := hmono a (r.fl ((r.Float64 (boundState src w)).1 * r.fl (b - a)) + a)
      (by linarith)
    rwa [ha] at this
  · intro hexact hb
    have h1 : (r.Float64 (boundState src w)).1 * r.fl (b - a) ≤ b - a := by
      rw [hexact]
      have := mul_le_mul_of_nonneg_right hu.2.le hd.le
      linarith
    have h2 : r.fl ((r.Float64 (boundState src w)).1 * r.fl (b - a)) ≤ b - a :=
      le_trans (hmono _ _ h1) (le_of_eq hexact)
    have h3 := hmono (r.fl ((r.Float64 (boundState src w)).1 * r.fl (b - a)) + a) b
      (by linarith)
    rwa [hb] at h3
  · intro hfl
    show r.fl (r.fl ((r.Float64 (boundState src w)).1 * r.fl (b - a)) + a) < b
    rw [hfl, hfl, hfl]
    have := mul_lt_mul_of_pos_right hu.2 hd
    linarith

/-- C9 (amended): under `float64` rounding, for `float64` values `a < b` with
`b - a ≤ MaxFloat64` (the subtraction does not overflow) and a uniform
primitive with values in `[0, 1)`, a draw `x` of `Flat(a, b, src)` makes one
`Float64` step `u` of the bound source, equals `u * (b - a) + a` computed in
`float64` (the subtraction, the multiplication and the addition each rounded),
where the computed `b - a` is at most `MaxFloat64`, and satisfies
`a ≤ x ≤ b`. -/
theorem Flat_range (r : Rand σ ℚ) (a b : ℚ) (src : Option ι) (w : World ι σ)
    (hfl : r.fl = fl64) (hab : a < b)
    (hsrc : ∀ s, 0 ≤ (r.Float64 s).1 ∧ (r.Float64 s).1 < 1)
    (ha : fl64 a = a) (hb : fl64 b = b) (hfin : b - a ≤ MaxFloat64) :
    (Flat r a b src w).1
        = fl64 (fl64 ((r.Float64 (boundState src w)).1 * fl64 (b - a)) + a)
      ∧ (Flat r a b src w).2 = after (uniform r src) 1 w
      ∧ boundState src (Flat r a b src w).2 = (r.Float64 (boundState src w)).2
      ∧ fl64 (b - a) ≤ MaxFloat64
      ∧ a ≤ (Flat r a b src w).1
      ∧ (Flat r a b src w).1 ≤ b := by
  have hmono : ∀ x y, x ≤ y → r.fl x ≤ r.fl y := by rw [hfl]; exact fl64_mono
  have hzero : r.fl 0 = 0 := by rw [hfl]; exact fl64_zero
  obtain ⟨h1, h2, h3, h4, h5, _, _⟩ := Flat_of_mono r a b src w hab hsrc hmono hzero
    (by rw [hfl]; exact ha) (by rw [hfl]; exact fl64_max) hfin
  rw [hfl] at h1 h4
  refine ⟨h1, h2, h3, h4, h5, ?_⟩
  have hu := hsrc (boundState src w)
  have hufl : fl64 (r.Float64 (boundState src w)).1 = (r.Float64 (boundState src w)).1 := by
    have := r.fl_Float64 (boundState src w)
    rwa [hfl] at this
  have hs := fl64_scale_le a b _ ha hb hab (fl64_lt_one _ hufl hu.2)
  rw [h1]
  have := fl64_mono (fl64 ((r.Float64 (boundState src w)).1 * fl64 (b - a)) + a) b
    (by linarith)
  rwa [hb] at this

theorem nthDraw_Gauss (r : Rand σ α) (mean stddev : α) (src : Option ι) (k : Nat)
    (w : World ι σ) :
    nthDraw (Gauss r mean stddev src) k w = nthDraw (normal r src) k w * stddev + mean :=
  nthDraw_of_map (normal r src) (Gauss r mean stddev src) (fun z => z * stddev + mean)
    (Gauss_eq r mean stddev src) k w

/-- C10: for two samplers bound to sources in the same state, the draw of
index `k` of `Gauss(mu, sigma, src2)` is `sigma` times the draw of index `k` of
`Gauss(0, 1, src1)` plus `mu`, for every `k`; and each draw of
`Gauss(mu, sigma, src)` makes one `NormFloat64` step `z` of the bound source
and returns `z * sigma + mu`. -/
theorem Gauss_affine (r : Rand σ α) (mu sigma : α) (src1 src2 : Option ι)
    (w1 w2 : World ι σ) (k : Nat) (hsame : boundState src1 w1 = boundState src2 w2) :
    nthDraw (Gauss r mu sigma src2) k w2 = sigma * nthDraw (Gauss r 0 1 src1) k w1 + mu
      ∧ (∀ w : World ι σ,
          (Gauss r mu sigma src2 w).1 = (r.NormFloat64 (boundState src2 w)).1 * sigma + mu
          ∧ (Gauss r mu sigma src2 w).2 = after (normal r src2) 1 w
          ∧ boundState src2 (Gauss r mu sigma src2 w).2
              = (r.NormFloat64 (boundState src2 w)).2) := by
  constructor
  · rw [nthDraw_Gauss, nthDraw_Gauss, nthDraw_normal, nthDraw_normal, hsame]
    ring
  · intro w
    rw [Gauss_eq, normal_fst]
    exact ⟨rfl, rfl, normal_boundState r src2 w⟩

end Simple

/-- Witness of C8 at the alternating source. -/
theorem Bernoulli_extremes_witness :
    (∀ s, 0 ≤ (altRand.Float64 s).1 ∧ (altRand.Float64 s).1 < 1) ∧
      (Bernoulli altRand 0 (some ()) world0).1 = 0 ∧
      (Bernoulli altRand 1 (some ()) world0).1 = 1 :=
  ⟨fun s => by by_cases h : s % 2 = 0 <;> norm_num [altRand, h],
    Bernoulli_extremes altRand (some ()) world0
      (fun s => by by_cases h : s % 2 = 0 <;> norm_num [altRand, h])⟩

theorem fl64_two : fl64 2 = 2 :=
  fl64_exact _ _ (2 ^ 52) (-51) (by norm_num) (by norm_num) (by norm_num) (by norm_num) rfl

theorem altRand_unit (s : Nat) : 0 ≤ (altRand.Float64 s).1 ∧ (altRand.Float64 s).1 < 1 := by
  show (0 : ℚ) ≤ (if s % 2 = 0 then 1 / 4 else 3 / 4)
    ∧ (if s % 2 = 0 then (1 / 4 : ℚ) else 3 / 4) < 1
  split_ifs <;> norm_num

theorem fl64_five : fl64 5 = 5 :=
  fl64_exact _ _ (5 * 2 ^ 50) (-50) (by norm_num) (by norm_num) (by norm_num) (by norm_num) rfl

/-- Witness of C9 (amended): `Flat(2, 5, src)` at the alternating source, which
rounds with `fl64`; `2` and `5` are `float64` values, and the draw lies in
`[2, 5]`. -/
theorem Flat_range_witness :
    altRand.fl = fl64 ∧ (2 : ℚ) < 5 ∧
      (∀ s, 0 ≤ (altRand.Float64 s).1 ∧ (altRand.Float64 s).1 < 1) ∧
      fl64 2 = 2 ∧ fl64 5 = 5 ∧ (5 : ℚ) - 2 ≤ MaxFloat64 ∧
      (2 : ℚ) ≤ (Flat altRand 2 5 (some ()) world0).1 ∧
      (Flat altRand 2 5 (some ()) world0).1 ≤ 5 :=
  ⟨rfl, by norm_num, altRand_unit, fl64_two, fl64_five, by norm_num [MaxFloat64],
    (Flat_range altRand 2 5 (some ()) world0 rfl (by norm_num) altRand_unit
      fl64_two fl64_five (by norm_num [MaxFloat64])).2.2.2.2⟩

/-! ### Evaluation of the `float64` rounding -/

theorem fl64_three : fl64 (5 - 2) = 3 := by
  rw [fl64_eval_pos _ 1 (by norm_num) (by norm_num) (by norm_num),
    roundHalfEven_eval _ (3 * 2 ^ 51) (by norm_num) (by norm_num)]
  norm_num

theorem fl64_scaled : fl64 ((1 - 1 / 2 ^ 53) * 3) = 3 - 1 / 2 ^ 51 := by
  rw [fl64_eval_pos _ 1 (by norm_num) (by norm_num) (by norm_num),
    roundHalfEven_eval _ (3 * 2 ^ 51 - 1) (by norm_num) (by norm_num)]
  norm_num

theorem fl64_shifted : fl64 (3 - 1 / 2 ^ 51 + 2) = 5 := by
  rw [fl64_eval_pos _ 2 (by norm_num) (by norm_num) (by norm_num),
    roundHalfEven_eval _ (5 * 2 ^ 50 - 1) (by norm_num) (by norm_num)]
  norm_num

theorem fl64_exponential :
    fl64 (8930429362510717 / 2 ^ 54 / 1) = 8930429362510717 / 2 ^ 54 := by
  rw [fl64_eval_pos _ (-2) (by norm_num) (by norm_num) (by norm_num),
    roundHalfEven_eval _ 8930429362510717 (by norm_num) (by norm_num)]
  norm_num

theorem fl64_third :
    fl64 (8930429362510717 / 2 ^ 54 / 3) = 5953619575007145 / 2 ^ 55 := by
  rw [fl64_eval_pos _ (-3) (by norm_num) (by norm_num) (by norm_num),
    roundHalfEven_eval _ 5953619575007144 (by norm_num) (by norm_num)]
  norm_num

theorem fl64_tripled :
    fl64 (3 * (5953619575007145 / 2 ^ 55)) = 8930429362510718 / 2 ^ 54 := by
  rw [fl64_eval_pos _ (-2) (by norm_num) (by norm_num) (by norm_num),
    roundHalfEven_eval _ 8930429362510717 (by norm_num) (by norm_num)]
  norm_num

/-- C9 (as stated, at a `float64` source): with `2 < 5` and the uniform
`1 - 2^-53` in `[0, 1)`, under `float64` rounding the draw of `Flat(2, 5, src)`
is `5`: the subtraction gives `3`, the multiplication rounds `3 - 3/2^53` to
`3 - 2^-51`, and the addition rounds the tie `5 - 2^-51` to the even `5`. So
`x < b` fails. -/
theorem Flat_reaches_max :
    (2 : ℚ) < 5
      ∧ (∀ s, 0 ≤ (edgeRand.Float64 s).1 ∧ (edgeRand.Float64 s).1 < 1)
      ∧ (Flat edgeRand 2 5 none world0).1 = 5
      ∧ ¬ (Flat edgeRand 2 5 none world0).1 < 5 := by
  have hval : (Flat edgeRand 2 5 none world0).1 = 5 := by
    show fl64 (fl64 ((1 - 1 / 2 ^ 53) * fl64 (5 - 2)) + 2) = 5
    rw [fl64_three, fl64_scaled, fl64_shifted]
  refine ⟨by norm_num, fun s => ?_, hval, ?_⟩
  · show (0 : ℚ) ≤ 1 - 1 / 2 ^ 53 ∧ (1 : ℚ) - 1 / 2 ^ 53 < 1
    norm_num
  · rw [hval]; exact lt_irrefl _

/-- Witness of C10: `Gauss(10, 2)` on the caller-owned source against
`Gauss(0, 1)` on the default source, both sources fresh, at the draw of index `3`. -/
theorem Gauss_affine_witness :
    boundState (none : Option Unit) world0 = boundState (some ()) world0 ∧
      nthDraw (Gauss altRand 10 2 (some ())) 3 world0
        = 2 * nthDraw (Gauss altRand 0 1 (none : Option Unit)) 3 world0 + 10 :=
  ⟨rfl, (Gauss_affine altRand 10 2 none (some ()) world0 world0 3 rfl).1⟩


/-! ### Exp, Chi2 and the degenerate Gauss -/

section Bound2

variable {ι σ α : Type} [DecidableEq ι] [LinearOrderedField α]

theorem exponential_fst (r : Rand σ α) (src : Option ι) (w : World ι σ) :
    (exponential r src w).1 = (r.ExpFloat64 (boundState src w)).1 := by
  cases src <;> rfl

theorem exponential_boundState (r : Rand σ α) (src : Option ι) (w : World ι σ) :
    boundState src (exponential r src w).2 = (r.ExpFloat64 (boundState src w)).2 := by
  cases src with
  | none => rfl
  | some a => simp [exponential, sourceCall, boundState]

end Bound2

section Chi2Lemmas

variable {ι σ α : Type} [LinearOrderedField α]

/-- With `m` iterations left, the loop of `Chi2` runs `m` more times, adds the
squares of the `m` draws of `norm` to `x` and exits. -/
theorem chi2Loop_run (norm : Dist ι σ α) (ndf : Int) (hndf : ndf < 2 ^ 63) (m : Nat) :
    ∀ (fuel : Nat) (i : Int) (x : α) (w : World ι σ), m < fuel → i + m = ndf → 0 ≤ i →
      chi2Loop norm ndf fuel i x w =
        some (x + ((draws norm m w).map (fun z => z * z)).sum, after norm m w) := by
  induction m with
  | zero =>
    intro fuel i x w hf hi _
    obtain ⟨fuel, rfl⟩ : ∃ k, fuel = k + 1 := ⟨fuel - 1, by omega⟩
    have : ¬ i < ndf := by omega
    simp [chi2Loop, this, draws, after]
  | succ m ih =>
    intro fuel i x w hf hi hi0
    obtain ⟨fuel, rfl⟩ : ∃ k, fuel = k + 1 := ⟨fuel - 1, by omega⟩
    have hin : i < ndf := by omega
    have hi1 : wrap64 (i + 1) = i + 1 := wrap64_of_range _ (by omega) (by omega)
    simp only [chi2Loop, hin, if_true, hi1]
    rw [ih fuel (i + 1) _ (norm w).2 (by omega) (by push_cast at hi; omega) (by omega)]
    simp only [draws, List.map_cons, List.sum_cons, after, add_assoc]

/-- For `ndf ≤ 0` the loop of `Chi2` exits at its first test. -/
theorem chi2Loop_nonpos (norm : Dist ι σ α) (ndf : Int) (hndf : ndf ≤ 0) (fuel : Nat)
    (x : α) (w : World ι σ) : chi2Loop norm ndf (fuel + 1) 0 x w = some (x, w) := by
  have : ¬ (0 : Int) < ndf := by omega
  simp [chi2Loop, this]

end Chi2Lemmas

section ExpChi2

variable {ι σ α : Type} [DecidableEq ι] [LinearOrderedField α]

theorem Exp_eq (r : Rand σ α) (mean : α) (src : Option ι) (w : World ι σ) :
    Exp r mean src w = (r.fl ((exponential r src w).1 / mean), (exponential r src w).2) := by
  cases src <;> rfl

/-- C11 (amended): for `mean > 0`, an exponential primitive with values `≥ 0`,
a monotone rounding that fixes `0` and `MaxFloat64`, and a source state at
which `e / mean ≤ MaxFloat64` (the division does not overflow), a draw of
`Exp(mean, src)` makes one `ExpFloat64` step `e` of the bound source and
returns `e / mean` rounded to `float64`, a value of `[0, MaxFloat64]`; the draw
of `Exp(1, src)` from the same state returns the rounding of `e` and leaves
the world in the same state; and when `e` is a `float64` value and the
division `e / mean` is exact, `mean` times the draw of `Exp(mean, src)` is the
draw of `Exp(1, src)`. -/
theorem Exp_rate (r : Rand σ α) (mean : α) (src : Option ι) (w : World ι σ)
    (hmean : 0 < mean) (hsrc : ∀ s, 0 ≤ (r.ExpFloat64 s).1)
    (hmono : ∀ x y, x ≤ y → r.fl x ≤ r.fl y) (hzero : r.fl 0 = 0)
    (hmax : r.fl MaxFloat64 = MaxFloat64)
    (hfin : (r.ExpFloat64 (boundState src w)).1 / mean ≤ MaxFloat64) :
    (Exp r mean src w).1 = r.fl ((r.ExpFloat64 (boundState src w)).1 / mean)
      ∧ (Exp r mean src w).2 = after (exponential r src) 1 w
      ∧ boundState src (Exp r mean src w).2 = (r.ExpFloat64 (boundState src w)).2
      ∧ 0 ≤ (Exp r mean src w).1
      ∧ (Exp r mean src w).1 ≤ MaxFloat64
      ∧ (Exp r mean src w).2 = (Exp r 1 src w).2
      ∧ (Exp r 1 src w).1 = r.fl (r.ExpFloat64 (boundState src w)).1
      ∧ (r.fl ((r.ExpFloat64 (boundState src w)).1 / mean)
            = (r.ExpFloat64 (boundState src w)).1 / mean →
          r.fl (r.ExpFloat64 (boundState src w)).1 = (r.ExpFloat64 (boundState src w)).1 →
          mean * (Exp r mean src w).1 = (Exp r 1 src w).1) := by
  rw [Exp_eq, Exp_eq, exponential_fst]
  refine ⟨rfl, rfl, exponential_boundState r src w, ?_, ?_, rfl, ?_, ?_⟩
  · have := hmono 0 _ (div_nonneg (hsrc (boundState src w)) hmean.le)
    rwa [hzero] at this
  · have := hmono _ _ hfin
    rwa [hmax] at this
  · show r.fl ((r.ExpFloat64 (boundState src w)).1 / 1) = _
    rw [div_one]
  · intro hdiv he
    show mean * r.fl ((r.ExpFloat64 (boundState src w)).1 / mean)
      = r.fl ((r.ExpFloat64 (boundState src w)).1 / 1)
    rw [hdiv, div_one, he, mul_div_cancel₀ _ (ne_of_gt hmean)]

theorem Gauss_zero_one (r : Rand σ α) (src : Option ι) :
    (Gauss r 0 1 src : Dist ι σ α) = normal r src := by
  funext w
  rw [Gauss_eq]
  simp

/-- The draw of `Chi2(ndf, src)` with enough fuel, for an `int64` value
`ndf ≥ 0`. -/
theorem Chi2_run (r : Rand σ α) (ndf : Int) (src : Option ι) (w : World ι σ) (fuel : Nat)
    (hndf0 : 0 ≤ ndf) (hndf : ndf < 2 ^ 63) (hfuel : ndf.toNat < fuel) :
    Chi2 r ndf src fuel w =
      some (((draws (normal r src) ndf.toNat w).map (fun z => z * z)).sum,
        after (normal r src) ndf.toNat w) := by
  have h := chi2Loop_run (normal r src) ndf hndf ndf.toNat fuel 0 0 w hfuel
    (by omega) le_rfl
  simp only [zero_add] at h
  simpa only [Chi2, Gauss_zero_one] using h

/-- C12: for an `int64` value `ndf ≥ 0`, a draw of `Chi2(ndf, src)` returns
(given fuel for its `ndf + 1` loop tests) the sum of the squares of the first
`ndf` standard-normal values of the bound source and leaves the world as
those `ndf` `NormFloat64` steps leave it; `Chi2(0, src)` returns `0` and
leaves the world as it was. -/
theorem Chi2_draw (r : Rand σ α) (ndf : Int) (src : Option ι) (w : World ι σ) (fuel : Nat)
    (hndf0 : 0 ≤ ndf) (hndf : ndf < 2 ^ 63) (hfuel : ndf.toNat < fuel) :
    Chi2 r ndf src fuel w =
        some (((draws (normal r src) ndf.toNat w).map (fun z => z * z)).sum,
          after (normal r src) ndf.toNat w)
      ∧ (draws (normal r src) ndf.toNat w).length = ndf.toNat
      ∧ Chi2 r 0 src fuel w = some (0, w) := by
  refine ⟨Chi2_run r ndf src w fuel hndf0 hndf hfuel, draws_length _ _ _, ?_⟩
  have h := Chi2_run r 0 src w fuel le_rfl (by norm_num) (by simpa using Nat.zero_lt_of_lt hfuel)
  simpa [draws, after] using h

/-- C13: every draw of `Gauss(mean, 0, src)` returns `mean` and makes one
`NormFloat64` step of the bound source. -/
theorem Gauss_zero_stddev (r : Rand σ α) (mean : α) (src : Option ι) (w : World ι σ) :
    (Gauss r mean 0 src w).1 = mean
      ∧ (Gauss r mean 0 src w).2 = after (normal r src) 1 w
      ∧ boundState src (Gauss r mean 0 src w).2 = (r.NormFloat64 (boundState src w)).2
      ∧ ∀ k : Nat, nthDraw (Gauss r mean 0 src) k w = mean := by
  refine ⟨?_, ?_, ?_, ?_⟩
  · rw [Gauss_eq]; simp
  · rw [Gauss_eq]; rfl
  · rw [Gauss_eq]; exact normal_boundState r src w
  · intro k
    rw [nthDraw_Gauss]; simp

end ExpChi2

theorem fl64_exponential_exact :
    fl64 (8930429362510717 / 2 ^ 54) = 8930429362510717 / 2 ^ 54 :=
  fl64_exact _ _ 8930429362510717 (-54) (by norm_num) (by norm_num) (by norm_num)
    (by norm_num) rfl

theorem fl64_exponential_quarter :
    fl64 (8930429362510717 / 2 ^ 54 / 4) = 8930429362510717 / 2 ^ 54 / 4 :=
  fl64_exact _ _ 8930429362510717 (-56) (by norm_num) (by norm_num) (by norm_num)
    (by norm_num) rfl

theorem edgeRand_exponential (s : Nat) : 0 ≤ (edgeRand.ExpFloat64 s).1 := by
  show (0 : ℚ) ≤ 8930429362510717 / 2 ^ 54
  norm_num

theorem edgeRand_quarter_finite :
    (edgeRand.ExpFloat64 (boundState (none : Option Unit) world0)).1 / 4 ≤ MaxFloat64 := by
  show (8930429362510717 / 2 ^ 54 / 4 : ℚ) ≤ MaxFloat64
  norm_num [MaxFloat64]

/-- Witness of C11 (amended): `Exp(4, nil)` at the source whose exponential
primitive returns `e = 8930429362510717 / 2^54`, under `float64` rounding: the
division by `4` is exact and `4` times the draw is the draw of `Exp(1, nil)`. -/
theorem Exp_rate_witness :
    (0 : ℚ) < 4 ∧ (∀ s, 0 ≤ (edgeRand.ExpFloat64 s).1) ∧
      (∀ x y : ℚ, x ≤ y → edgeRand.fl x ≤ edgeRand.fl y) ∧ edgeRand.fl 0 = 0 ∧
      edgeRand.fl MaxFloat64 = MaxFloat64 ∧
      (edgeRand.ExpFloat64 (boundState (none : Option Unit) world0)).1 / 4 ≤ MaxFloat64 ∧
      edgeRand.fl ((edgeRand.ExpFloat64 (boundState (none : Option Unit) world0)).1 / 4)
        = (edgeRand.ExpFloat64 (boundState (none : Option Unit) world0)).1 / 4 ∧
      edgeRand.fl (edgeRand.ExpFloat64 (boundState (none : Option Unit) world0)).1
        = (edgeRand.ExpFloat64 (boundState (none : Option Unit) world0)).1 ∧
      (Exp edgeRand 4 none world0).1 = 8930429362510717 / 2 ^ 54 / 4 ∧
      4 * (Exp edgeRand 4 none world0).1 = (Exp edgeRand 1 none world0).1 :=
  ⟨by norm_num, edgeRand_exponential, fl64_mono, fl64_zero, fl64_max, edgeRand_quarter_finite,
    fl64_exponential_quarter, fl64_exponential_exact,
    ((Exp_rate edgeRand 4 none world0 (by norm_num) edgeRand_exponential fl64_mono fl64_zero
      fl64_max edgeRand_quarter_finite).1).trans fl64_exponential_quarter,
    (Exp_rate edgeRand 4 none world0 (by norm_num) edgeRand_exponential fl64_mono fl64_zero
      fl64_max edgeRand_quarter_finite).2.2.2.2.2.2.2 fl64_exponential_quarter
      fl64_exponential_exact⟩

/-- C11 (as stated, at a `float64` source): with `mean = 3 > 0` and the
exponential primitive `e = 8930429362510717 / 2^54`, under `float64` rounding
the draw of `Exp(1, src)` is `e`, the draw of `Exp(3, src)` is
`5953619575007145 / 2^55`, and `3` times it is not `e`, neither exactly nor
after rounding (`8930429362510718 / 2^54`). -/
theorem Exp_rate_fails :
    (0 : ℚ) < 3
      ∧ (Exp edgeRand 1 none world0).1 = 8930429362510717 / 2 ^ 54
      ∧ (Exp edgeRand 3 none world0).1 = 5953619575007145 / 2 ^ 55
      ∧ 3 * (Exp edgeRand 3 none world0).1 ≠ (Exp edgeRand 1 none world0).1
      ∧ edgeRand.fl (3 * (Exp edgeRand 3 none world0).1) ≠ (Exp edgeRand 1 none world0).1 := by
  have h1 : (Exp edgeRand 1 none world0).1 = 8930429362510717 / 2 ^ 54 := by
    show fl64 (8930429362510717 / 2 ^ 54 / 1) = 8930429362510717 / 2 ^ 54
    exact fl64_exponential
  have h3 : (Exp edgeRand 3 none world0).1 = 5953619575007145 / 2 ^ 55 := by
    show fl64 (8930429362510717 / 2 ^ 54 / 3) = 5953619575007145 / 2 ^ 55
    exact fl64_third
  refine ⟨by norm_num, h1, h3, ?_, ?_⟩
  · rw [h1, h3]; norm_num
  · rw [h1, h3]
    show fl64 (3 * (5953619575007145 / 2 ^ 55)) ≠ 8930429362510717 / 2 ^ 54
    rw [fl64_tripled]; norm_num

/-- Witness of C12: `Chi2(3, src)` at the alternating source. -/
theorem Chi2_draw_witness :
    (0 : Int) ≤ 3 ∧ (3 : Int) < 2 ^ 63 ∧ (3 : Int).toNat < 4 ∧
      Chi2 altRand 3 (some ()) 4 world0 =
        some (((draws (normal altRand (some ())) 3 world0).map (fun z => z * z)).sum,
          after (normal altRand (some ())) 3 world0) :=
  ⟨by decide, by decide, by decide,
    (Chi2_draw altRand 3 (some ()) world0 4 (by decide) (by decide) (by decide)).1⟩

/-! ### Source independence -/

section Invariants

variable {ι σ α : Type} [LinearOrderedField α]

/-- A property of the world that every draw of `b` preserves holds of the
world a run of the loop of `Binomial` ends in. -/
theorem binomialLoop_inv (b : DiscrDist ι σ) (n : Int) (I : World ι σ → Prop)
    (hb : ∀ w, I w → I (b w).2) :
    ∀ (fuel : Nat) (i x : Int) (w : World ι σ) (res : Int × World ι σ), I w →
      binomialLoop b n fuel i x w = some res → I res.2 := by
  intro fuel
  induction fuel with
  | zero => intro i x w res _ h; simp [binomialLoop] at h
  | succ fuel ih =>
    intro i x w res hw h
    simp only [binomialLoop] at h
    by_cases hin : i ≤ n
    · simp only [hin, if_true] at h
      exact ih _ _ _ _ (hb w hw) h
    · simp only [hin, if_false, Option.some.injEq] at h
      rw [← h]; exact hw

/-- The same for the loop of `Poisson`. -/
theorem poissonLoop_inv (fl : α → α) (flat : Dist ι σ α) (t : α) (I : World ι σ → Prop)
    (hb : ∀ w, I w → I (flat w).2) :
    ∀ (fuel : Nat) (i : Int) (p : α) (w : World ι σ) (res : Int × World ι σ), I w →
      poissonLoop fl flat t fuel i p w = some res → I res.2 := by
  intro fuel
  induction fuel with
  | zero => intro i p w res _ h; simp [poissonLoop] at h
  | succ fuel ih =>
    intro i p w res hw h
    simp only [poissonLoop] at h
    by_cases hp : p > t
    · simp only [hp, if_true] at h
      exact ih _ _ _ _ (hb w hw) h
    · simp only [hp, if_false, Option.some.injEq] at h
      rw [← h]; exact hw

/-- The same for the loop of `Chi2`. -/
theorem chi2Loop_inv (norm : Dist ι σ α) (ndf : Int) (I : World ι σ → Prop)
    (hb : ∀ w, I w → I (norm w).2) :
    ∀ (fuel : Nat) (i : Int) (x : α) (w : World ι σ) (res : α × World ι σ), I w →
      chi2Loop norm ndf fuel i x w = some res → I res.2 := by
  intro fuel
  induction fuel with
  | zero => intro i x w res _ h; simp [chi2Loop] at h
  | succ fuel ih =>
    intro i x w res hw h
    simp only [chi2Loop] at h
    by_cases hin : i < ndf
    · simp only [hin, if_true] at h
      exact ih _ _ _ _ (hb w hw) h
    · simp only [hin, if_false, Option.some.injEq] at h
      rw [← h]; exact hw

end Invariants

section Frame

variable {ι σ α : Type} [DecidableEq ι] [LinearOrderedField α]

theorem Gauss_global (r : Rand σ α) (mean stddev : α) (a : ι) (w : World ι σ) :
    (Gauss r mean stddev (some a) w).2.global = w.global := rfl

theorem Gauss_heap (r : Rand σ α) (mean stddev : α) (w : World ι σ) :
    (Gauss r mean stddev (none : Option ι) w).2.heap = w.heap := rfl

theorem Flat_global (r : Rand σ α) (lo hi : α) (a : ι) (w : World ι σ) :
    (Flat r lo hi (some a) w).2.global = w.global := rfl

theorem Flat_heap (r : Rand σ α) (lo hi : α) (w : World ι σ) :
    (Flat r lo hi (none : Option ι) w).2.heap = w.heap := rfl

theorem Bernoulli_global (r : Rand σ α) (p : α) (a : ι) (w : World ι σ) :
    (Bernoulli r p (some a) w).2.global = w.global := by
  rw [Bernoulli_eq]; rfl

theorem Bernoulli_heap (r : Rand σ α) (p : α) (w : World ι σ) :
    (Bernoulli r p (none : Option ι) w).2.heap = w.heap := by
  rw [Bernoulli_eq]; rfl

/-- C14: for each of the seven constructors, a draw of a sampler built with an
explicit source `a` leaves the state of the default source unchanged, and a
draw of a sampler built with `nil` leaves the state of every caller-owned
source unchanged. -/
theorem source_independence (exp : α → α) (r : Rand σ α) (a : ι) (w : World ι σ)
    (mean stddev lo hi p : α) (ndf n : Int) (fuel : Nat) :
    ((Gauss r mean stddev (some a) w).2.global = w.global
      ∧ (Exp r mean (some a) w).2.global = w.global
      ∧ (Flat r lo hi (some a) w).2.global = w.global
      ∧ (Bernoulli r p (some a) w).2.global = w.global
      ∧ (∀ (x : α) (w2 : World ι σ),
          Chi2 r ndf (some a) fuel w = some (x, w2) → w2.global = w.global)
      ∧ (∀ (x : Int) (w2 : World ι σ),
          Poisson exp r mean (some a) fuel w = some (x, w2) → w2.global = w.global)
      ∧ (∀ (x : Int) (w2 : World ι σ),
          Binomial r n p (some a) fuel w = some (x, w2) → w2.global = w.global))
    ∧ ((Gauss r mean stddev (none : Option ι) w).2.heap = w.heap
      ∧ (Exp r mean (none : Option ι) w).2.heap = w.heap
      ∧ (Flat r lo hi (none : Option ι) w).2.heap = w.heap
      ∧ (Bernoulli r p (none : Option ι) w).2.heap = w.heap
      ∧ (∀ (x : α) (w2 : World ι σ),
          Chi2 r ndf (none : Option ι) fuel w = some (x, w2) → w2.heap = w.heap)
      ∧ (∀ (x : Int) (w2 : World ι σ),
          Poisson exp r mean (none : Option ι) fuel w = some (x, w2) → w2.heap = w.heap)
      ∧ (∀ (x : Int) (w2 : World ι σ),
          Binomial r n p (none : Option ι) fuel w = some (x, w2) → w2.heap = w.heap)) := by
  refine ⟨⟨rfl, rfl, rfl, Bernoulli_global r p a w, ?_, ?_, ?_⟩,
    ⟨rfl, rfl, rfl, Bernoulli_heap r p w, ?_, ?_, ?_⟩⟩
  · intro x w2 h
    exact chi2Loop_inv (Gauss r 0 1 (some a)) ndf (fun v => v.global = w.global)
      (fun v hv => (Gauss_global r 0 1 a v).trans hv) fuel 0 0 w (x, w2) rfl h
  · intro x w2 h
    exact poissonLoop_inv r.fl (Flat r 0 1 (some a)) (exp (-mean)) (fun v => v.global = w.global)
      (fun v hv => (Flat_global r 0 1 a v).trans hv) fuel 0 1 w (x, w2) rfl h
  · intro x w2 h
    exact binomialLoop_inv (Bernoulli r p (some a)) n (fun v => v.global = w.global)
      (fun v hv => (Bernoulli_global r p a v).trans hv) fuel 0 0 w (x, w2) rfl h
  · intro x w2 h
    exact chi2Loop_inv (Gauss r 0 1 (none : Option ι)) ndf (fun v => v.heap = w.heap)
      (fun v hv => (Gauss_heap r 0 1 v).trans hv) fuel 0 0 w (x, w2) rfl h
  · intro x w2 h
    exact poissonLoop_inv r.fl (Flat r 0 1 (none : Option ι)) (exp (-mean))
      (fun v => v.heap = w.heap)
      (fun v hv => (Flat_heap r 0 1 v).trans hv) fuel 0 1 w (x, w2) rfl h
  · intro x w2 h
    exact binomialLoop_inv (Bernoulli r p (none : Option ι)) n (fun v => v.heap = w.heap)
      (fun v hv => (Bernoulli_heap r p v).trans hv) fuel 0 0 w (x, w2) rfl h

end Frame

/-! ### Determinism -/

theorem observe_eq_iff {ι σ β : Type} (src1 src2 : Option ι) (x y : β × World ι σ) :
    observe src1 x = observe src2 y ↔
      x.1 = y.1 ∧ boundState src1 x.2 = boundState src2 y.2 := by
  simp [observe, Prod.ext_iff]

section SimGeneric

variable {ι σ α β : Type}

/-- Two samplers whose draws agree from agreeing bound states give the same
first `N` values and leave their bound sources in the same state. -/
theorem draws_sim (src1 src2 : Option ι) (f1 f2 : World ι σ → β × World ι σ)
    (hstep : ∀ w1 w2, boundState src1 w1 = boundState src2 w2 →
      observe src1 (f1 w1) = observe src2 (f2 w2)) (N : Nat) :
    ∀ w1 w2, boundState src1 w1 = boundState src2 w2 →
      draws f1 N w1 = draws f2 N w2
        ∧ boundState src1 (after f1 N w1) = boundState src2 (after f2 N w2) := by
  induction N with
  | zero => intro w1 w2 h; exact ⟨rfl, h⟩
  | succ N ih =>
    intro w1 w2 h
    obtain ⟨hv, hs⟩ := (observe_eq_iff src1 src2 _ _).mp (hstep w1 w2 h)
    obtain ⟨hd, ha⟩ := ih _ _ hs
    exact ⟨by simp only [draws, hv, hd], by simpa only [after] using ha⟩

/-- The same for samplers that hold a loop, every draw with the same fuel. -/
theorem drawsLoop_sim (src1 src2 : Option ι)
    (g1 g2 : Nat → World ι σ → Option (β × World ι σ)) (fuel : Nat)
    (hstep : ∀ w1 w2, boundState src1 w1 = boundState src2 w2 →
      (g1 fuel w1).map (observe src1) = (g2 fuel w2).map (observe src2)) (N : Nat) :
    ∀ w1 w2, boundState src1 w1 = boundState src2 w2 →
      (drawsLoop g1 fuel N w1).map (observe src1)
        = (drawsLoop g2 fuel N w2).map (observe src2) := by
  induction N with
  | zero =>
    intro w1 w2 h
    simp [drawsLoop, observe, h]
  | succ N ih =>
    intro w1 w2 h
    have hs := hstep w1 w2 h
    simp only [drawsLoop]
    cases h1 : g1 fuel w1 with
    | none =>
      cases h2 : g2 fuel w2 with
      | none => rfl
      | some y => rw [h1, h2] at hs; simp at hs
    | some x =>
      cases h2 : g2 fuel w2 with
      | none => rw [h1, h2] at hs; simp at hs
      | some y =>
        rw [h1, h2] at hs
        simp only [Option.map_some', Option.some.injEq] at hs
        obtain ⟨hv, hb⟩ := (observe_eq_iff src1 src2 _ _).mp hs
        have hrec := ih x.2 y.2 hb
        cases h3 : drawsLoop g1 fuel N x.2 with
        | none =>
          cases h4 : drawsLoop g2 fuel N y.2 with
          | none => simp [h3, h4]
          | some ys => rw [h3, h4] at hrec; simp at hrec
        | some xs =>
          cases h4 : drawsLoop g2 fuel N y.2 with
          | none => rw [h3, h4] at hrec; simp at hrec
          | some ys =>
            rw [h3, h4] at hrec
            simp only [Option.map_some', Option.some.injEq] at hrec
            obtain ⟨hl, hbs⟩ := (observe_eq_iff src1 src2 _ _).mp hrec
            simp [h3, h4, observe, hv, hl, hbs]

/-- A sampler that post-processes the value of a primitive agrees with its
twin on the other source whenever the primitives agree. -/
theorem sim_of_map {γ : Type} (src1 src2 : Option ι) (f1 f2 : World ι σ → β × World ι σ)
    (g1 g2 : World ι σ → γ × World ι σ) (k : β → γ)
    (hg1 : ∀ w, g1 w = (k (f1 w).1, (f1 w).2)) (hg2 : ∀ w, g2 w = (k (f2 w).1, (f2 w).2))
    (w1 w2 : World ι σ) (hf : observe src1 (f1 w1) = observe src2 (f2 w2)) :
    observe src1 (g1 w1) = observe src2 (g2 w2) := by
  obtain ⟨hv, hs⟩ := (observe_eq_iff src1 src2 _ _).mp hf
  rw [observe_eq_iff, hg1, hg2]
  exact ⟨congrArg k hv, hs⟩

end SimGeneric

section PrimSim

variable {ι σ α : Type} [DecidableEq ι] [LinearOrderedField α]

theorem uniform_sim (r : Rand σ α) (src1 src2 : Option ι) (w1 w2 : World ι σ)
    (h : boundState src1 w1 = boundState src2 w2) :
    observe src1 (uniform r src1 w1) = observe src2 (uniform r src2 w2) := by
  rw [observe_eq_iff, uniform_fst, uniform_fst, uniform_boundState, uniform_boundState, h]
  exact ⟨rfl, rfl⟩

theorem normal_sim (r : Rand σ α) (src1 src2 : Option ι) (w1 w2 : World ι σ)
    (h : boundState src1 w1 = boundState src2 w2) :
    observe src1 (normal r src1 w1) = observe src2 (normal r src2 w2) := by
  rw [observe_eq_iff, normal_fst, normal_fst, normal_boundState, normal_boundState, h]
  exact ⟨rfl, rfl⟩

theorem exponential_sim (r : Rand σ α) (src1 src2 : Option ι) (w1 w2 : World ι σ)
    (h : boundState src1 w1 = boundState src2 w2) :
    observe src1 (exponential r src1 w1) = observe src2 (exponential r src2 w2) := by
  rw [observe_eq_iff, exponential_fst, exponential_fst, exponential_boundState,
    exponential_boundState, h]
  exact ⟨rfl, rfl⟩

end PrimSim

section LoopSim

variable {ι σ α : Type} [LinearOrderedField α]

theorem binomialLoop_sim (src1 src2 : Option ι) (b1 b2 : DiscrDist ι σ) (n : Int)
    (hstep : ∀ w1 w2, boundState src1 w1 = boundState src2 w2 →
      observe src1 (b1 w1) = observe src2 (b2 w2)) :
    ∀ (fuel : Nat) (i x : Int) (w1 w2 : World ι σ), boundState src1 w1 = boundState src2 w2 →
      (binomialLoop b1 n fuel i x w1).map (observe src1)
        = (binomialLoop b2 n fuel i x w2).map (observe src2) := by
  intro fuel
  induction fuel with
  | zero => intro i x w1 w2 _; rfl
  | succ fuel ih =>
    intro i x w1 w2 h
    obtain ⟨hv, hs⟩ := (observe_eq_iff src1 src2 _ _).mp (hstep w1 w2 h)
    simp only [binomialLoop]
    by_cases hin : i ≤ n
    · simp only [hin, if_true, hv]
      exact ih _ _ _ _ hs
    · simp [hin, observe, h]

theorem poissonLoop_sim (src1 src2 : Option ι) (fl : α → α) (f1 f2 : Dist ι σ α) (t : α)
    (hstep : ∀ w1 w2, boundState src1 w1 = boundState src2 w2 →
      observe src1 (f1 w1) = observe src2 (f2 w2)) :
    ∀ (fuel : Nat) (i : Int) (p : α) (w1 w2 : World ι σ),
      boundState src1 w1 = boundState src2 w2 →
      (poissonLoop fl f1 t fuel i p w1).map (observe src1)
        = (poissonLoop fl f2 t fuel i p w2).map (observe src2) := by
  intro fuel
  induction fuel with
  | zero => intro i p w1 w2 _; rfl
  | succ fuel ih =>
    intro i p w1 w2 h
    obtain ⟨hv, hs⟩ := (observe_eq_iff src1 src2 _ _).mp (hstep w1 w2 h)
    simp only [poissonLoop]
    by_cases hp : p > t
    · simp only [hp, if_true, hv]
      exact ih _ _ _ _ hs
    · simp [hp, observe, h]

theorem chi2Loop_sim (src1 src2 : Option ι) (f1 f2 : Dist ι σ α) (ndf : Int)
    (hstep : ∀ w1 w2, boundState src1 w1 = boundState src2 w2 →
      observe src1 (f1 w1) = observe src2 (f2 w2)) :
    ∀ (fuel : Nat) (i : Int) (x : α) (w1 w2 : World ι σ),
      boundState src1 w1 = boundState src2 w2 →
      (chi2Loop f1 ndf fuel i x w1).map (observe src1)
        = (chi2Loop f2 ndf fuel i x w2).map (observe src2) := by
  intro fuel
  induction fuel with
  | zero => intro i x w1 w2 _; rfl
  | succ fuel ih =>
    intro i x w1 w2 h
    obtain ⟨hv, hs⟩ := (observe_eq_iff src1 src2 _ _).mp (hstep w1 w2 h)
    simp only [chi2Loop]
    by_cases hin : i < ndf
    · simp only [hin, if_true, hv]
      exact ih _ _ _ _ hs
    · simp [hin, observe, h]

end LoopSim

section DeterminismClaim

variable {ι σ α : Type} [DecidableEq ι] [LinearOrderedField α]

theorem Gauss_sim (r : Rand σ α) (mean stddev : α) (src1 src2 : Option ι)
    (w1 w2 : World ι σ) (h : boundState src1 w1 = boundState src2 w2) :
    observe src1 (Gauss r mean stddev src1 w1) = observe src2 (Gauss r mean stddev src2 w2) :=
  sim_of_map src1 src2 (normal r src1) (normal r src2) _ _ (fun z => z * stddev + mean)
    (Gauss_eq r mean stddev src1) (Gauss_eq r mean stddev src2) w1 w2
    (normal_sim r src1 src2 w1 w2 h)

theorem Exp_sim (r : Rand σ α) (mean : α) (src1 src2 : Option ι)
    (w1 w2 : World ι σ) (h : boundState src1 w1 = boundState src2 w2) :
    observe src1 (Exp r mean src1 w1) = observe src2 (Exp r mean src2 w2) :=
  sim_of_map src1 src2 (exponential r src1) (exponential r src2) _ _ (fun e => r.fl (e / mean))
    (Exp_eq r mean src1) (Exp_eq r mean src2) w1 w2 (exponential_sim r src1 src2 w1 w2 h)

theorem Flat_sim (r : Rand σ α) (lo hi : α) (src1 src2 : Option ι)
    (w1 w2 : World ι σ) (h : boundState src1 w1 = boundState src2 w2) :
    observe src1 (Flat r lo hi src1 w1) = observe src2 (Flat r lo hi src2 w2) :=
  sim_of_map src1 src2 (uniform r src1) (uniform r src2) _ _ (fun u => r.fl (r.fl (u * r.fl (hi - lo)) + lo))
    (Flat_eq r lo hi src1) (Flat_eq r lo hi src2) w1 w2 (uniform_sim r src1 src2 w1 w2 h)

theorem Bernoulli_sim (r : Rand σ α) (p : α) (src1 src2 : Option ι)
    (w1 w2 : World ι σ) (h : boundState src1 w1 = boundState src2 w2) :
    observe src1 (Bernoulli r p src1 w1) = observe src2 (Bernoulli r p src2 w2) :=
  sim_of_map src1 src2 (uniform r src1) (uniform r src2) _ _ (fun u => if u < p then 1 else 0)
    (Bernoulli_eq r p src1) (Bernoulli_eq r p src2) w1 w2 (uniform_sim r src1 src2 w1 w2 h)

/-- C15: for each of the seven constructors, two samplers built with the same
parameters and bound to sources in the same state return the same first `N`
draws and leave their sources in the same state (for the samplers that hold a
loop: with the same fuel for every draw, both runs return and agree, or
neither returns). -/
theorem determinism (exp : α → α) (r : Rand σ α) (src1 src2 : Option ι)
    (w1 w2 : World ι σ) (mean stddev lo hi p : α) (ndf n : Int) (N fuel : Nat)
    (hsame : boundState src1 w1 = boundState src2 w2) :
    (draws (Gauss r mean stddev src1) N w1 = draws (Gauss r mean stddev src2) N w2
        ∧ boundState src1 (after (Gauss r mean stddev src1) N w1)
            = boundState src2 (after (Gauss r mean stddev src2) N w2))
      ∧ (draws (Exp r mean src1) N w1 = draws (Exp r mean src2) N w2
        ∧ boundState src1 (after (Exp r mean src1) N w1)
            = boundState src2 (after (Exp r mean src2) N w2))
      ∧ (draws (Flat r lo hi src1) N w1 = draws (Flat r lo hi src2) N w2
        ∧ boundState src1 (after (Flat r lo hi src1) N w1)
            = boundState src2 (after (Flat r lo hi src2) N w2))
      ∧ (draws (Bernoulli r p src1) N w1 = draws (Bernoulli r p src2) N w2
        ∧ boundState src1 (after (Bernoulli r p src1) N w1)
            = boundState src2 (after (Bernoulli r p src2) N w2))
      ∧ (drawsLoop (Chi2 r ndf src1) fuel N w1).map (observe src1)
          = (drawsLoop (Chi2 r ndf src2) fuel N w2).map (observe src2)
      ∧ (drawsLoop (Poisson exp r mean src1) fuel N w1).map (observe src1)
          = (drawsLoop (Poisson exp r mean src2) fuel N w2).map (observe src2)
      ∧ (drawsLoop (Binomial r n p src1) fuel N w1).map (observe src1)
          = (drawsLoop (Binomial r n p src2) fuel N w2).map (observe src2) := by
  refine ⟨?_, ?_, ?_, ?_, ?_, ?_, ?_⟩
  · exact draws_sim src1 src2 _ _ (Gauss_sim r mean stddev src1 src2) N w1 w2 hsame
  · exact draws_sim src1 src2 _ _ (Exp_sim r mean src1 src2) N w1 w2 hsame
  · exact draws_sim src1 src2 _ _ (Flat_sim r lo hi src1 src2) N w1 w2 hsame
  · exact draws_sim src1 src2 _ _ (Bernoulli_sim r p src1 src2) N w1 w2 hsame
  · exact drawsLoop_sim src1 src2 _ _ fuel
      (fun v1 v2 hv => chi2Loop_sim src1 src2 _ _ ndf (Gauss_sim r 0 1 src1 src2)
        fuel 0 0 v1 v2 hv) N w1 w2 hsame
  · exact drawsLoop_sim src1 src2 _ _ fuel
      (fun v1 v2 hv => poissonLoop_sim src1 src2 r.fl _ _ (exp (-mean)) (Flat_sim r 0 1 src1 src2)
        fuel 0 1 v1 v2 hv) N w1 w2 hsame
  · exact drawsLoop_sim src1 src2 _ _ fuel
      (fun v1 v2 hv => binomialLoop_sim src1 src2 _ _ n (Bernoulli_sim r p src1 src2)
        fuel 0 0 v1 v2 hv) N w1 w2 hsame

end DeterminismClaim

/-- A run of two `Poisson(3, nil)` draws at the alternating source. -/
theorem drawsLoop_Poisson_altRand :
    drawsLoop (Poisson expStandIn altRand 3 (none : Option Unit)) 5 2 world0
      = some ([3, 4], World.mk 7 (fun _ => 0)) := by
  simp only [drawsLoop, Poisson_altRand_first 5 (by omega),
    Poisson_altRand_second 5 (by omega)]

/-- Witness of C15: the sampler on the default source against the sampler on
the caller-owned source, both sources fresh; the Poisson runs do return. -/
theorem determinism_witness :
    boundState (none : Option Unit) world0 = boundState (some ()) world0 ∧
      (drawsLoop (Poisson expStandIn altRand 3 (none : Option Unit)) 5 2 world0).map
          (observe none) = some ([3, 4], 7) ∧
      (drawsLoop (Poisson expStandIn altRand 3 (some ())) 5 2 world0).map
          (observe (some ())) = some ([3, 4], 7) :=
  ⟨rfl, by rw [drawsLoop_Poisson_altRand]; rfl,
    by
      rw [← (determinism expStandIn altRand none (some ()) world0 world0 3 1 0 1 (1 / 2)
        3 3 2 5 rfl).2.2.2.2.2.1, drawsLoop_Poisson_altRand]
      rfl⟩

/-! ### Termination and the additivity of Binomial -/

section RunAdd

variable {W β : Type}

theorem after_add (f : W → β × W) (a b : Nat) (w : W) :
    after f (a + b) w = after f b (after f a w) := by
  induction a generalizing w with
  | zero => simp [after]
  | succ a ih =>
    rw [Nat.succ_add]
    exact ih (f w).2

theorem draws_add (f : W → β × W) (a b : Nat) (w : W) :
    draws f (a + b) w = draws f a w ++ draws f b (after f a w) := by
  induction a generalizing w with
  | zero => simp [draws, after]
  | succ a ih =>
    rw [Nat.succ_add]
    simp only [draws, after, List.cons_append, ih]

end RunAdd

section Termination

variable {ι σ α : Type} [DecidableEq ι] [LinearOrderedField α]

theorem Binomial_negative (r : Rand σ α) (n : Int) (p : α) (src : Option ι) (w : World ι σ)
    (fuel : Nat) (hn : n < 0) : Binomial r n p src (fuel + 1) w = some (0, w) := by
  have : ¬ (0 : Int) ≤ n := by omega
  simp [Binomial, binomialLoop, this]

theorem Binomial_never (r : Rand σ α) (p : α) (src : Option ι) (w : World ι σ) :
    ¬ ∃ (fuel : Nat) (x : Int) (w2 : World ι σ),
        Binomial r (2 ^ 63 - 1) p src fuel w = some (x, w2) := by
  rintro ⟨fuel, x, w2, h⟩
  have hnone := binomialLoop_none (Bernoulli r p src) (2 ^ 63 - 1) le_rfl fuel 0 0 w
    (by norm_num)
  have h2 : binomialLoop (Bernoulli r p src) (2 ^ 63 - 1) fuel 0 0 w = some (x, w2) := h
  rw [hnone] at h2
  exact absurd h2 (by simp)

/-- C16 (the code at the failing input and around it): whatever the source,
the draw of `Binomial(2^63 - 1, p, src)` never returns; for every smaller
`int64` value `n` the draw of `Binomial(n, p, src)` returns, and so does the
draw of `Chi2(ndf, src)` for every `int64` value `ndf`. -/
theorem Binomial_may_not_terminate (r : Rand σ α) (p : α) (src : Option ι) (w : World ι σ) :
    (¬ ∃ (fuel : Nat) (x : Int) (w2 : World ι σ),
        Binomial r (2 ^ 63 - 1) p src fuel w = some (x, w2))
      ∧ (∀ n : Int, n < 2 ^ 63 - 1 → ∃ (fuel : Nat) (x : Int) (w2 : World ι σ),
          Binomial r n p src fuel w = some (x, w2))
      ∧ (∀ ndf : Int, ndf < 2 ^ 63 → ∃ (fuel : Nat) (x : α) (w2 : World ι σ),
          Chi2 r ndf src fuel w = some (x, w2)) := by
  refine ⟨Binomial_never r p src w, ?_, ?_⟩
  · intro n hn
    by_cases hn0 : 0 ≤ n
    · exact ⟨n.toNat + 2, _, _, Binomial_run r n p src w _ hn0 (by omega) (by omega)⟩
    · exact ⟨1, _, _, Binomial_negative r n p src w 0 (by omega)⟩
  · intro ndf hndf
    by_cases h0 : 0 ≤ ndf
    · exact ⟨ndf.toNat + 1, _, _, Chi2_run r ndf src w _ h0 hndf (by omega)⟩
    · exact ⟨1, _, _, chi2Loop_nonpos (Gauss r 0 1 src) ndf (by omega) 0 0 w⟩

/-- C17 (amended): for `m ≥ 0` and `n ≥ 0` with `m + n + 2` in the `int64`
range, a draw of `Binomial(m, p, src)` followed by a draw of
`Binomial(n, p, src)` returns two values whose sum is the value of a single
draw of `Binomial(m + n + 1, p, src)` from the initial state, and both routes
end in the same state. -/
theorem Binomial_split (r : Rand σ α) (m n : Int) (p : α) (src : Option ι) (w : World ι σ)
    (fuel : Nat) (hm : 0 ≤ m) (hn : 0 ≤ n) (hmn : m + n + 2 < 2 ^ 63)
    (hfuel : (m + n + 1).toNat + 1 < fuel) :
    ∃ (x1 x2 x : Int) (w1 w2 : World ι σ),
      Binomial r m p src fuel w = some (x1, w1)
        ∧ Binomial r n p src fuel w1 = some (x2, w2)
        ∧ Binomial r (m + n + 1) p src fuel w = some (x, w2)
        ∧ x1 + x2 = x := by
  have hk : (m + n + 1).toNat + 1 = (m.toNat + 1) + (n.toNat + 1) := by omega
  have h1 := Binomial_run r m p src w fuel hm (by omega) (by omega)
  have h2 := Binomial_run r n p src (after (uniform r src) (m.toNat + 1) w) fuel hn
    (by omega) (by omega)
  have h3 := Binomial_run r (m + n + 1) p src w fuel (by omega) (by omega) hfuel
  refine ⟨_, _, _, _, _, h1, h2, ?_, rfl⟩
  rw [h3, hk, after_add, draws_add, List.sum_append, after_Bernoulli]

end Termination

/-- Witness of C17 (amended): `m = 1`, `n = 2` at the alternating source. -/
theorem Binomial_split_witness :
    (0 : Int) ≤ 1 ∧ (0 : Int) ≤ 2 ∧ (1 : Int) + 2 + 2 < 2 ^ 63 ∧
      ((1 : Int) + 2 + 1).toNat + 1 < 6 ∧
      ∃ (x1 x2 x : Int) (w1 w2 : World Unit Nat),
        Binomial altRand 1 (1 / 2) (some ()) 6 world0 = some (x1, w1)
          ∧ Binomial altRand 2 (1 / 2) (some ()) 6 w1 = some (x2, w2)
          ∧ Binomial altRand (1 + 2 + 1) (1 / 2) (some ()) 6 world0 = some (x, w2)
          ∧ x1 + x2 = x :=
  ⟨by decide, by decide, by decide, by decide,
    Binomial_split altRand 1 2 (1 / 2) (some ()) world0 6 (by decide) (by decide) (by decide)
      (by decide)⟩

/-- C17 (as stated, at `m = 0`, `n = 2^63 - 2`): `m + n + 1 = 2^63 - 1` is
representable, the draws of `Binomial(0, p, src)` and `Binomial(2^63 - 2, p, src)`
return one after the other, and the draw of `Binomial(m + n + 1, p, src)` never
returns. -/
theorem Binomial_split_fails :
    (0 : Int) + (2 ^ 63 - 2) + 1 < 2 ^ 63
      ∧ (∃ (fuel : Nat) (x1 x2 : Int) (w1 w2 : World Unit Nat),
          Binomial zeroRand 0 (1 / 2) none fuel world0 = some (x1, w1)
            ∧ Binomial zeroRand (2 ^ 63 - 2) (1 / 2) none fuel w1 = some (x2, w2))
      ∧ ¬ ∃ (fuel : Nat) (x : Int) (w3 : World Unit Nat),
          Binomial zeroRand (0 + (2 ^ 63 - 2) + 1) (1 / 2) none fuel world0 = some (x, w3) := by
  refine ⟨by norm_num, ⟨2 ^ 63, _, _, _, _,
    Binomial_run zeroRand 0 (1 / 2) none world0 (2 ^ 63) le_rfl (by norm_num) (by omega),
    Binomial_run zeroRand (2 ^ 63 - 2) (1 / 2) none _ (2 ^ 63) (by norm_num) (by norm_num)
      (by omega)⟩, ?_⟩
  have h : (0 : Int) + (2 ^ 63 - 2) + 1 = 2 ^ 63 - 1 := by norm_num
  rw [h]
  exact Binomial_never zeroRand (1 / 2) none world0

/-! ### Poisson: monotonicity, a bound on the count, negative means -/

theorem wrap64_le_self (z : Int) (hz : 0 ≤ z) : wrap64 z ≤ z := by
  unfold wrap64; omega

section PoissonOrder

variable {ι σ α : Type} [DecidableEq ι] [LinearOrderedField α]

/-- When the running product of the first `k0` uniforms is at most
`exp(-mean)`, the draw of `Poisson(mean, src)` returns after some `K ≤ k0`
uniforms. -/
theorem Poisson_stops (exp : α → α) (r : Rand σ α) (mean : α) (src : Option ι)
    (w : World ι σ) (k0 : Nat)
    (hk0 : runProd r.fl (draws (uniform r src) k0 w) ≤ exp (-mean)) :
    ∃ K : Nat, K ≤ k0
      ∧ (∀ j, j < K → exp (-mean) < runProd r.fl (draws (uniform r src) j w))
      ∧ runProd r.fl (draws (uniform r src) K w) ≤ exp (-mean)
      ∧ ∀ fuel : Nat, K < fuel →
          Poisson exp r mean src fuel w = some (wrap64 K, after (uniform r src) K w) := by
  classical
  have hex : ∃ k, runProd r.fl (draws (uniform r src) k w) ≤ exp (-mean) := ⟨k0, hk0⟩
  refine ⟨Nat.find hex, Nat.find_min' hex hk0, ?_, Nat.find_spec hex, ?_⟩
  · intro j hj
    exact not_le.mp (Nat.find_min hex hj)
  · intro fuel hf
    exact Poisson_run exp r mean src w (Nat.find hex) fuel hf
      (fun j hj => not_le.mp (Nat.find_min hex hj)) (Nat.find_spec hex)

/-- C18 (amended): for a monotone `exp` and `m1 ≤ m2`, when the draw of
`Poisson(m2, src)` returns within `2^63` loop tests (so after fewer than `2^63`
uniforms), the draw of `Poisson(m1, src)` from the same state returns with
the same fuel and its value is at most that of `Poisson(m2, src)`. -/
theorem Poisson_mono (exp : α → α) (r : Rand σ α) (m1 m2 : α) (src : Option ι)
    (w : World ι σ) (fuel : Nat) (x2 : Int) (w2 : World ι σ)
    (hexp : ∀ x y, x ≤ y → exp x ≤ exp y) (h12 : m1 ≤ m2) (hfuel : fuel ≤ 2 ^ 63)
    (hterm : Poisson exp r m2 src fuel w = some (x2, w2)) :
    ∃ (x1 : Int) (w1 : World ι σ),
      Poisson exp r m1 src fuel w = some (x1, w1) ∧ x1 ≤ x2 := by
  obtain ⟨K2, hK2, _, hle2, hx2, _⟩ := Poisson_some exp r m2 src w fuel x2 w2 hterm
  have ht : exp (-m2) ≤ exp (-m1) := hexp _ _ (neg_le_neg h12)
  obtain ⟨K1, hK1, _, _, hrun⟩ := Poisson_stops exp r m1 src w K2 (le_trans hle2 ht)
  refine ⟨_, _, hrun fuel (by omega), ?_⟩
  rw [hx2, wrap64_of_range _ (by omega) (by omega), wrap64_of_range _ (by omega) (by omega)]
  exact_mod_cast hK1

/-- C20: with `math.Exp(x) ≥ 1` for `x > 0`, every draw of `Poisson(mean, src)`
with `mean < 0` returns `0` and leaves the world, hence every source, as it
was. -/
theorem Poisson_negative (exp : α → α) (r : Rand σ α) (mean : α) (src : Option ι)
    (w : World ι σ) (fuel : Nat) (hexp : ∀ x, 0 < x → 1 ≤ exp x) (hmean : mean < 0)
    (hfuel : 0 < fuel) : Poisson exp r mean src fuel w = some (0, w) := by
  obtain ⟨fuel, rfl⟩ : ∃ k, fuel = k + 1 := ⟨fuel - 1, by omega⟩
  have ht : ¬ (1 : α) > exp (-mean) := not_lt.mpr (hexp _ (neg_pos.mpr hmean))
  simp [Poisson, poissonLoop, ht]

end PoissonOrder

section PoissonBound

variable {ι σ α : Type} [DecidableEq ι] [LinearOrderedField α]

/-- Under a monotone rounding that fixes `0`, the running product of uniforms
in `[0, c]` is nonnegative and at most the running product of as many factors
`c`. -/
theorem runProd_le_replicate (r : Rand σ α) (src : Option ι) (w : World ι σ) (c : α)
    (hmono : ∀ x y, x ≤ y → r.fl x ≤ r.fl y) (hzero : r.fl 0 = 0)
    (hsrc : ∀ s, 0 ≤ (r.Float64 s).1 ∧ (r.Float64 s).1 ≤ c) (k : Nat) :
    0 ≤ runProd r.fl (draws (uniform r src) k w)
      ∧ runProd r.fl (draws (uniform r src) k w) ≤ runProd r.fl (List.replicate k c) := by
  induction k with
  | zero => exact ⟨by simp [runProd, draws], le_rfl⟩
  | succ k ih =>
    have hu := hsrc (boundState src (after (uniform r src) k w))
    rw [← uniform_fst] at hu
    rw [draws_succ_last, runProd_append_singleton, List.replicate_succ',
      runProd_append_singleton, nthDraw]
    refine ⟨?_, hmono _ _ (mul_le_mul ih.2 hu.2 hu.1 (le_trans ih.1 ih.2))⟩
    have h0 := hmono _ _ (mul_nonneg ih.1 hu.1)
    rwa [hzero] at h0

/-- When the running product of `k0` factors `c` is at most `exp(-mean)` and
every uniform lies in `[0, c]`, the draw returns after at most `k0` uniforms. -/
theorem Poisson_bound_run (exp : α → α) (r : Rand σ α) (mean c : α) (src : Option ι)
    (w : World ι σ) (k0 : Nat)
    (hmono : ∀ x y, x ≤ y → r.fl x ≤ r.fl y) (hzero : r.fl 0 = 0)
    (hsrc : ∀ s, 0 ≤ (r.Float64 s).1 ∧ (r.Float64 s).1 ≤ c)
    (hk0 : runProd r.fl (List.replicate k0 c) ≤ exp (-mean)) :
    ∃ K : Nat, K ≤ k0 ∧ wrap64 K ≤ k0 ∧ ∀ fuel : Nat, k0 < fuel →
      Poisson exp r mean src fuel w = some (wrap64 K, after (uniform r src) K w) := by
  obtain ⟨K, hK, _, _, hrun⟩ := Poisson_stops exp r mean src w k0
    (le_trans (runProd_le_replicate r src w c hmono hzero hsrc k0).2 hk0)
  refine ⟨K, hK, ?_, fun fuel hf => hrun fuel (by omega)⟩
  have h1 : wrap64 K ≤ K := wrap64_le_self _ (by omega)
  have h3 : (K : Int) ≤ (k0 : Int) := by exact_mod_cast hK
  exact le_trans h1 h3

/-- C19 (amended): when the rounding is monotone and fixes `0`, every uniform
of the source lies in `[0, c]`, and `k0` is a number of factors `c` whose
running product (from `1`, one rounded multiplication for each factor) is at
most `exp(-mean)`, the draw of `Poisson(mean, src)` returns with any fuel
above `k0`, after at most `k0` uniforms, and its value is at most `k0`. -/
theorem Poisson_bound (exp : α → α) (r : Rand σ α) (mean c : α) (src : Option ι)
    (w : World ι σ) (k0 : Nat)
    (hmono : ∀ x y, x ≤ y → r.fl x ≤ r.fl y) (hzero : r.fl 0 = 0)
    (hsrc : ∀ s, 0 ≤ (r.Float64 s).1 ∧ (r.Float64 s).1 ≤ c)
    (hk0 : runProd r.fl (List.replicate k0 c) ≤ exp (-mean)) :
    ∃ (x : Int) (w2 : World ι σ) (K : Nat),
      (∀ fuel : Nat, k0 < fuel → Poisson exp r mean src fuel w = some (x, w2))
        ∧ w2 = after (uniform r src) K w ∧ K ≤ k0 ∧ x ≤ k0 := by
  obtain ⟨K, hK, hx, hrun⟩ := Poisson_bound_run exp r mean c src w k0 hmono hzero hsrc hk0
  exact ⟨wrap64 K, after (uniform r src) K w, K, hrun, rfl, hK, hx⟩

end PoissonBound

section PoissonBoundExact

variable {ι σ : Type} [DecidableEq ι]

/-- The bound in exact arithmetic: over the reals with the true exponential
and no rounding, for `mean ≥ 0` and `0 < c < 1`, when every uniform of the
source lies in `[0, c]` the draw of `Poisson(mean, src)` returns (with any fuel
above `⌈mean / (-ln c)⌉`) and its value is at most `⌈mean / (-ln c)⌉`. -/
theorem Poisson_bound_exact (r : Rand σ ℝ) (mean c : ℝ) (src : Option ι) (w : World ι σ)
    (hfl : ∀ x, r.fl x = x) (hmean : 0 ≤ mean) (hc0 : 0 < c) (hc1 : c < 1)
    (hsrc : ∀ s, 0 ≤ (r.Float64 s).1 ∧ (r.Float64 s).1 ≤ c) :
    ∃ (x : Int) (w2 : World ι σ),
      (∀ fuel : Nat, ⌈mean / (-Real.log c)⌉₊ < fuel →
          Poisson Real.exp r mean src fuel w = some (x, w2))
        ∧ x ≤ ⌈mean / (-Real.log c)⌉ := by
  have hlog : 0 < -Real.log c := neg_pos.mpr (Real.log_neg hc0 hc1)
  have hq : 0 ≤ mean / (-Real.log c) := div_nonneg hmean hlog.le
  have hceil : mean / (-Real.log c) ≤ (⌈mean / (-Real.log c)⌉₊ : ℝ) := Nat.le_ceil _
  have hpow : c ^ ⌈mean / (-Real.log c)⌉₊ ≤ Real.exp (-mean) := by
    rw [← Real.exp_log hc0, ← Real.exp_nat_mul, Real.exp_le_exp]
    have := (div_le_iff₀ hlog).mp hceil
    rw [Real.exp_log hc0]
    nlinarith
  obtain ⟨K, _, hx, hrun⟩ := Poisson_bound_run Real.exp r mean c src w
    ⌈mean / (-Real.log c)⌉₊ (fun x y h => by rw [hfl, hfl]; exact h) (hfl 0) hsrc
    (by rw [runProd_exact r.fl hfl, List.prod_replicate]; exact hpow)
  refine ⟨wrap64 K, after (uniform r src) K w, hrun, ?_⟩
  have h2 : ((⌈mean / (-Real.log c)⌉₊ : Nat) : Int) = ⌈mean / (-Real.log c)⌉ :=
    Int.natCast_ceil_eq_ceil hq
  rw [← h2]
  exact hx

end PoissonBoundExact

/-- An instance of the bound in exact arithmetic: `mean = 1`, `c = 1/2`, on a
real-valued source without rounding whose uniforms alternate between `1/4` and
`1/2`. -/
theorem Poisson_bound_exact_instance :
    ∃ (x : Int) (w2 : World Unit Nat),
      (∀ fuel : Nat, ⌈(1 : ℝ) / (-Real.log (1 / 2))⌉₊ < fuel →
          Poisson Real.exp
            (Rand.mk id (fun s => (if s % 2 = 0 then 1 / 4 else 1 / 2, s + 1))
              (fun s => (0, s + 1)) (fun s => (0, s + 1)) rfl (fun _ => rfl))
            1 none fuel world0 = some (x, w2))
        ∧ x ≤ ⌈(1 : ℝ) / (-Real.log (1 / 2))⌉ :=
  Poisson_bound_exact
    (Rand.mk id (fun s => (if s % 2 = 0 then 1 / 4 else 1 / 2, s + 1))
      (fun s => (0, s + 1)) (fun s => (0, s + 1)) rfl (fun _ => rfl))
    1 (1 / 2) none world0 (fun _ => rfl) (by norm_num) (by norm_num) (by norm_num)
    (fun s => by by_cases h : s % 2 = 0 <;> norm_num [h])

/-! ### The stand-in for `math.Exp` -/

theorem expStandIn_nonneg (x : ℚ) : 0 ≤ expStandIn x := by
  unfold expStandIn
  split_ifs with h1 h2
  · exact le_rfl
  · have : 0 < 1 - x + x ^ 2 / 2 := by nlinarith [sq_nonneg x]
    positivity
  · nlinarith [sq_nonneg x, not_lt.mp h2]

theorem expStandIn_ge_one (x : ℚ) (hx : 0 < x) : 1 ≤ expStandIn x := by
  unfold expStandIn
  rw [if_neg (by linarith), if_neg (by linarith)]
  nlinarith [sq_nonneg x]

theorem expStandIn_mono (x y : ℚ) (hxy : x ≤ y) : expStandIn x ≤ expStandIn y := by
  by_cases h1 : x < -745
  · have : expStandIn x = 0 := by unfold expStandIn; rw [if_pos h1]
    rw [this]; exact expStandIn_nonneg y
  · by_cases h2 : x < 0
    · have hx : expStandIn x = 1 / (1 - x + x ^ 2 / 2) := by
        unfold expStandIn; rw [if_neg h1, if_pos h2]
      have hgx : 1 ≤ 1 - x + x ^ 2 / 2 := by nlinarith [sq_nonneg x]
      by_cases h3 : y < 0
      · have hy : expStandIn y = 1 / (1 - y + y ^ 2 / 2) := by
          unfold expStandIn; rw [if_neg (by linarith), if_pos h3]
        have hgy : 0 < 1 - y + y ^ 2 / 2 := by nlinarith [sq_nonneg y]
        rw [hx, hy]
        apply one_div_le_one_div_of_le hgy
        nlinarith [mul_nonneg (sub_nonneg.mpr hxy) (by linarith : (0 : ℚ) ≤ 2 - (x + y))]
      · have hy : 1 ≤ expStandIn y := by
          unfold expStandIn
          rw [if_neg (by linarith), if_neg h3]
          nlinarith [sq_nonneg y, not_lt.mp h3]
        rw [hx]
        refine le_trans ?_ hy
        rw [div_le_one (by linarith)]
        exact hgx
    · have hx : expStandIn x = 1 + x + x ^ 2 / 2 := by
        unfold expStandIn; rw [if_neg h1, if_neg h2]
      have hy : expStandIn y = 1 + y + y ^ 2 / 2 := by
        unfold expStandIn; rw [if_neg (by linarith), if_neg (by linarith)]
      rw [hx, hy]
      nlinarith [mul_nonneg (sub_nonneg.mpr hxy) (by linarith : (0 : ℚ) ≤ x + y)]

theorem stallRand_range (s : Nat) :
    0 ≤ (stallRand.Float64 s).1 ∧ (stallRand.Float64 s).1 < 1 := by
  show (0 : ℚ) ≤ (if s < 2 ^ 63 then 3 / 4 else 0) ∧ (if s < 2 ^ 63 then (3 / 4 : ℚ) else 0) < 1
  split_ifs <;> norm_num

theorem altRand_range (s : Nat) :
    0 ≤ (altRand.Float64 s).1 ∧ (altRand.Float64 s).1 ≤ 3 / 4 := by
  show (0 : ℚ) ≤ (if s % 2 = 0 then 1 / 4 else 3 / 4)
    ∧ (if s % 2 = 0 then (1 / 4 : ℚ) else 3 / 4) ≤ 3 / 4
  split_ifs <;> norm_num

theorem runProd_altRand_eight :
    runProd altRand.fl (List.replicate 8 (3 / 4)) ≤ expStandIn (-3) := by
  show runProd fl64 (List.replicate 8 (3 / 4)) ≤ expStandIn (-3)
  rw [runProd_three_quarters 8 le_rfl]
  norm_num [expStandIn]

/-- The draw of `Poisson(3, nil)` at the stalling source: `8` uniforms. -/
theorem Poisson_stallRand_3 :
    Poisson expStandIn stallRand 3 none (2 ^ 63 + 2) world0 =
      some (wrap64 ((8 : Nat) : Int),
        after (uniform stallRand (none : Option Unit)) 8 world0) := by
  have ht : expStandIn (-3) = 2 / 17 := by norm_num [expStandIn]
  apply Poisson_run expStandIn stallRand 3 none world0 8 (2 ^ 63 + 2) (by omega)
  · intro j hj
    rw [ht, world0, (stallRand_run _ j 0 (by omega)).1]
    show 2 / 17 < runProd fl64 (List.replicate j (3 / 4))
    rw [runProd_three_quarters j (by omega)]
    interval_cases j <;> norm_num
  · rw [ht, world0, (stallRand_run _ 8 0 (by omega)).1]
    show runProd fl64 (List.replicate 8 (3 / 4)) ≤ 2 / 17
    rw [runProd_three_quarters 8 le_rfl]
    norm_num

/-- C18 (as stated, at a concrete source): with uniforms in `[0, 1)`,
`3 ≤ 1000` and `math.Exp(-1000) = 0`, the draws of `Poisson(1000, src)` and of
`Poisson(3, src)` from the same state both return, and the value of
`Poisson(3, src)` is above the value of `Poisson(1000, src)`, which is negative. -/
theorem Poisson_mono_fails :
    (3 : ℚ) ≤ 1000
      ∧ (∀ s, 0 ≤ (stallRand.Float64 s).1 ∧ (stallRand.Float64 s).1 < 1)
      ∧ expStandIn (-1000) ≤ expStandIn (-3)
      ∧ ∃ (fuel : Nat) (x1 x2 : Int) (w1 w2 : World Unit Nat),
          Poisson expStandIn stallRand 1000 none fuel world0 = some (x2, w2)
            ∧ Poisson expStandIn stallRand 3 none fuel world0 = some (x1, w1)
            ∧ x2 < x1 := by
  refine ⟨by norm_num, stallRand_range, expStandIn_mono _ _ (by norm_num),
    2 ^ 63 + 2, _, _, _, _, Poisson_stallRand_1000, Poisson_stallRand_3, ?_⟩
  unfold wrap64
  norm_num

/-- Witness of C18 (amended): `Poisson(1, nil)` against `Poisson(3, nil)` at the
alternating source. -/
theorem Poisson_mono_witness :
    (∀ x y : ℚ, x ≤ y → expStandIn x ≤ expStandIn y) ∧ (1 : ℚ) ≤ 3 ∧ 4 ≤ 2 ^ 63 ∧
      Poisson expStandIn altRand 3 none 4 world0 = some (3, World.mk 3 (fun _ => 0)) ∧
      ∃ (x1 : Int) (w1 : World Unit Nat),
        Poisson expStandIn altRand 1 none 4 world0 = some (x1, w1) ∧ x1 ≤ 3 :=
  ⟨expStandIn_mono, by norm_num, by norm_num, Poisson_altRand_three,
    Poisson_mono expStandIn altRand 1 3 none world0 4 3 (World.mk 3 (fun _ => 0))
      expStandIn_mono (by norm_num) (by norm_num) Poisson_altRand_three⟩

/-- Witness of C20: `Poisson(-2, src)` at the alternating source. -/
theorem Poisson_negative_witness :
    (∀ x : ℚ, 0 < x → 1 ≤ expStandIn x) ∧ (-2 : ℚ) < 0 ∧ 0 < 3 ∧
      Poisson expStandIn altRand (-2) (some ()) 3 world0 = some (0, world0) :=
  ⟨expStandIn_ge_one, by norm_num, by decide,
    Poisson_negative expStandIn altRand (-2) (some ()) world0 3 expStandIn_ge_one
      (by norm_num) (by decide)⟩

/-- Witness of C19 (amended): `Poisson(3, nil)` at the alternating source under
`float64` rounding; its uniforms lie in `[0, 3/4]` and the running product of
`8` factors `3/4` is below `exp(-3)`. -/
theorem Poisson_bound_witness :
    (∀ x y : ℚ, x ≤ y → altRand.fl x ≤ altRand.fl y) ∧ altRand.fl 0 = 0 ∧
      (∀ s, 0 ≤ (altRand.Float64 s).1 ∧ (altRand.Float64 s).1 ≤ 3 / 4) ∧
      runProd altRand.fl (List.replicate 8 (3 / 4)) ≤ expStandIn (-3) ∧
      ∃ (x : Int) (w2 : World Unit Nat) (K : Nat),
        (∀ fuel : Nat, 8 < fuel →
            Poisson expStandIn altRand 3 none fuel world0 = some (x, w2))
          ∧ w2 = after (uniform altRand (none : Option Unit)) K world0 ∧ K ≤ 8
          ∧ x ≤ ((8 : Nat) : Int) :=
  ⟨fl64_mono, fl64_zero, altRand_range, runProd_altRand_eight,
    Poisson_bound expStandIn altRand 3 (3 / 4) none world0 8 fl64_mono fl64_zero
      altRand_range runProd_altRand_eight⟩

/-- C19 (as stated, at a `float64` source): with `mean = 1000 ≥ 0`,
`c = 3/4` in `(0, 1)`, every uniform equal to `3/4` and `math.Exp(-1000) = 0`,
under `float64` rounding the draw of `Poisson(1000, src)` never returns: the
running product never drops below `2^-1073`, so it stays above `0`. -/
theorem Poisson_bound_fails :
    (0 : ℚ) ≤ 1000 ∧ (0 : ℚ) < 3 / 4 ∧ (3 / 4 : ℚ) < 1
      ∧ (∀ s, 0 ≤ (stuckRand.Float64 s).1 ∧ (stuckRand.Float64 s).1 ≤ 3 / 4)
      ∧ expStandIn (-1000) = 0
      ∧ ¬ ∃ (fuel : Nat) (x : Int) (w2 : World Unit Nat),
          Poisson expStandIn stuckRand 1000 none fuel world0 = some (x, w2) := by
  refine ⟨by norm_num, by norm_num, by norm_num, fun s => ?_, expStandIn_underflow, ?_⟩
  · show (0 : ℚ) ≤ 3 / 4 ∧ (3 / 4 : ℚ) ≤ 3 / 4
    norm_num
  · rintro ⟨fuel, x, w2, h⟩
    obtain ⟨K, _, _, hle, _⟩ := Poisson_some expStandIn stuckRand 1000 none world0 fuel x w2 h
    rw [expStandIn_underflow, world0, (stuckRand_run _ K 0).1] at hle
    have hpos : (0 : ℚ) < 2 * 2 ^ (-1074 : ℤ) := by positivity
    exact absurd (lt_of_lt_of_le hpos (runProd_three_quarters_pos K)) (not_lt.mpr hle)

end Random
